import Mathlib

/-!
# Resampling weight tables of `spm_make_lookup.c`

A shallow embedding of the four generators `make_lookup_poly`,
`make_lookup_poly_grad`, `make_lookup_sinc` and `make_lookup_sinc_grad`.

Modelling conventions.

* The source is embedded twice.  The first embedding serves the claims made over
  exact (real) arithmetic: C `double` is an ordered field `K` with a floor
  function, every definition is computable and can be run at `K = ℚ`, and the
  same definitions can be read at `K = ℝ`; C `int` is `ℤ`.  Decimal literals of
  the source are the fractions they denote (`0.00001` is `1 / 100000`).
* The second embedding, whose names end in `64`, serves the claims about the
  program as it runs: C `double` is binary64 (`F64`: the finite values are the
  rationals of the binary64 grid, every operation rounds to nearest, ties to
  even, with gradual underflow, overflow to an infinity, and NaN), a decimal
  literal is the `double` nearest to it, and C `int` has 32 bits: the sums and
  differences that can leave the range wrap around (`wrapInt`), and a `double`
  outside the range converts to `INT_MIN` (`toInt`), as on x86-64.
* `fabs` is the absolute value, `floor` is the floor; `rint` rounds to the
  nearest integer, ties to even.  `sin` and `cos` of the C library are
  parameters of the sinc generators.
* The `static` variables of each function are an explicit cache value that is
  passed in and returned.
* `table` and `dtable` are written through a cursor that starts at offset 0 and
  advances by one after every store, so the stores of a call are the list of
  stored values: entry `i` of the list is what the call left in slot `i`, and a
  slot beyond the length of the list was not written.  `tpend` is the offset
  `*ptpend - table`.
* Statements about the values a call divides by and about the offsets of `denom`
  it reads are made over instrumented copies of the function bodies
  (`polyDivisors`, `polyGradDivisors64`, `polyReads`, `polyGradReads`), which
  list them in program order; a sequence of calls is run by `polyRun`.
-/

namespace SpmLookup

variable {K : Type*} [LinearOrderedField K]

/-! ## Data model -/

/-- What a generator call hands back: the first sample index `*d1`, the offset
`*ptpend - table` of the reported inclusive end, and the values stored to
`table[0], table[1], …` and to `dtable[0], dtable[1], …` in that order. -/
structure Lookup (K : Type*) where
  /-- Sample index of the first weight, `*d1`. -/
  d1 : ℤ
  /-- Offset of the reported end from the start of the table, `*ptpend - table`. -/
  tpend : ℤ
  /-- Values stored to `table[0]`, `table[1]`, … -/
  table : List K
  /-- Values stored to `dtable[0]`, `dtable[1]`, … -/
  dtable : List K
deriving DecidableEq

/-- Static variables `oq`, `k0`, `k1` of the two sinc generators. -/
structure SpanCache where
  /-- Order the cache was last built for. -/
  oq : ℤ
  /-- Lowest kernel offset. -/
  k0 : ℤ
  /-- Highest kernel offset. -/
  k1 : ℤ
deriving DecidableEq

/-- Static variables `oq`, `k0`, `k1` and `denom[256]` of the two polynomial
generators; `denom` is indexed by the offset from the start of the array. -/
structure PolyCache (K : Type*) where
  /-- Order the cache was last built for. -/
  oq : ℤ
  /-- Lowest kernel offset. -/
  k0 : ℤ
  /-- Highest kernel offset. -/
  k1 : ℤ
  /-- Contents of `denom`. -/
  denom : ℤ → K

/-- Static storage at program start: `oq = 0`, the rest zero-initialised. -/
def SpanCache.init : SpanCache := ⟨0, 0, 0⟩

/-- Static storage at program start: `oq = 0`, the rest zero-initialised. -/
def PolyCache.init : PolyCache K := ⟨0, 0, 0, fun _ => 0⟩

/-! ## C library functions -/

/-- The C library `rint` in the default rounding mode: nearest integer, ties to
even. -/
def rint [FloorRing K] (x : K) : ℤ :=
  if x - (⌊x⌋ : ℤ) < 1 / 2 then ⌊x⌋
  else if 1 / 2 < x - (⌊x⌋ : ℤ) then ⌊x⌋ + 1
  else if ⌊x⌋ % 2 = 0 then ⌊x⌋ else ⌊x⌋ + 1

/-- The constant `PI` of the source, `3.14159265358979`. -/
def PI : K := 314159265358979 / 100000000000000

/-! ## Kernel span and denominator cache (lines 23–52, 125–154, 261–276, 309–324) -/

/-- The value assigned to `k0`: `-(q-1)/2` for odd `q`, `-(q-2)/2` for even
`q`, with C integer division. -/
def spanLo (q : ℤ) : ℤ :=
  if q.tmod 2 ≠ 0 then (-(q - 1)).tdiv 2 else (-(q - 2)).tdiv 2

/-- The value assigned to `k1`: `(q-1)/2` for odd `q`, `q/2` for even `q`, with
C integer division. -/
def spanHi (q : ℤ) : ℤ :=
  if q.tmod 2 ≠ 0 then (q - 1).tdiv 2 else q.tdiv 2

/-- The loop `for (m = …; m < hi; m++) v = v*(k-m);` over integers `k`, `m`,
with `n` iterations left, the product being accumulated in a `double`. -/
def mulLoopInt (k : ℤ) : ℕ → ℤ → K → K
  | 0, _, v => v
  | n + 1, m, v => mulLoopInt k n (m + 1) (v * (((k - m : ℤ) : K)))

/-- The loop `for (m = lo; m < hi; m++) v = v*(k-m);`, which runs `hi - lo`
times when `lo < hi` and not at all otherwise. -/
def mulRangeInt (k lo hi : ℤ) (v : K) : K :=
  mulLoopInt k (hi - lo).toNat lo v

/-- The value stored to `*p` for one `k` (lines 45–50): the two inner loops
`m = k0 … k-1` and `m = k+1 … k1`. -/
def denomEntry (k0 k1 k : ℤ) : K :=
  mulRangeInt k (k + 1) (k1 + 1) (mulRangeInt k k0 k 1)

/-- The outer loop `for (k = …, p = …; k <= k1; k++, p++) { …; *p = v; }` of
lines 42–51 with `n` iterations left. -/
def fillLoop (k0 k1 : ℤ) : ℕ → ℤ → ℤ → (ℤ → K) → ℤ → K
  | 0, _, _, denom => denom
  | n + 1, k, p, denom =>
    fillLoop k0 k1 n (k + 1) (p + 1) (Function.update denom p (denomEntry k0 k1 k))

/-- The outer loop `for (k = k0, p = denom; k <= k1; k++, p++)` of lines 42–51. -/
def fillDenom (k0 k1 : ℤ) (denom : ℤ → K) : ℤ → K :=
  fillLoop k0 k1 (k1 + 1 - k0).toNat k0 0 denom

/-- The block `if (q != oq) { … }` of the polynomial generators. -/
def PolyCache.refresh (s : PolyCache K) (q : ℤ) : PolyCache K :=
  if q ≠ s.oq then ⟨q, spanLo q, spanHi q, fillDenom (spanLo q) (spanHi q) s.denom⟩ else s

/-- The block `if (q != oq) { … }` of the sinc generators. -/
def SpanCache.refresh (s : SpanCache) (q : ℤ) : SpanCache :=
  if q ≠ s.oq then ⟨q, spanLo q, spanHi q⟩ else s

/-! ## Polynomial generators -/

/-- The loop `for (m = …; m < hi; m++) num = num*(x-m);` with `n` iterations
left. -/
def mulLoop (x : K) : ℕ → ℤ → K → K
  | 0, _, v => v
  | n + 1, m, v => mulLoop x n (m + 1) (v * (x - (m : K)))

/-- The loop `for (m = lo; m < hi; m++) num = num*(x-m);`, which runs `hi - lo`
times when `lo < hi` and not at all otherwise. -/
def mulRange (x : K) (lo hi : ℤ) (v : K) : K :=
  mulLoop x (hi - lo).toNat lo v

/-- The two loops `m = k0 … k-1` and `m = k+1 … k1` started from `1.0`
(lines 92–96, 185–197, 215–226). -/
def fullProd (x : K) (k0 k1 k : ℤ) : K :=
  mulRange x (k + 1) (k1 + 1) (mulRange x k0 k 1)

/-- The anchor `fcoord = floor(q%2 ? coord+0.5 : coord)` (lines 68, 156, 277, 325). -/
def anchor [FloorRing K] (coord : K) (q : ℤ) : ℤ :=
  ⌊if q.tmod 2 ≠ 0 then coord + 1 / 2 else coord⌋

/-- The test `fabs(coord-rint(coord))<0.00001`. -/
def nearInteger [FloorRing K] (coord : K) : Prop :=
  |coord - (rint coord : ℤ)| < 1 / 100000

instance [FloorRing K] (coord : K) : Decidable (nearInteger coord) :=
  inferInstanceAs (Decidable (|coord - (rint coord : ℤ)| < 1 / 100000))

/-- The loop of lines 99–104, entered with `n` slots left to fill:
`k++; num = num*(x-k+1)/(x-k); *(tp++) = num/(*(p++));`. -/
def polyLoop (x : K) (denom : ℤ → K) : ℕ → ℤ → K → ℤ → List K
  | 0, _, _, _ => []
  | n + 1, k, num, p =>
    (num * (x - ((k + 1 : ℤ) : K) + 1) / (x - ((k + 1 : ℤ) : K)) / denom p) ::
      polyLoop x denom n (k + 1)
        (num * (x - ((k + 1 : ℤ) : K) + 1) / (x - ((k + 1 : ℤ) : K))) (p + 1)

/-- Body of `make_lookup_poly` after the cache block (lines 54–106), reading the
cache `s`.  The first weight is stored only under `if (tp<tpend)`, that is when
`0 < tpend`; the loop `while (tp <= tpend)` is then entered with `tp = table+1`
and runs `tpend` times. -/
def polyBody [FloorRing K] (s : PolyCache K) (coord : K) (q dim : ℤ) : Lookup K :=
  if nearInteger coord then
    if rint coord < 1 ∨ rint coord > dim then ⟨rint coord, -1, [], []⟩
    else ⟨rint coord, 0, [1], []⟩
  else
    let fcoord := anchor coord q
    let d1raw := fcoord + s.k0
    let p : ℤ := if d1raw ≥ 1 then 0 else 1 - d1raw
    let k : ℤ := if d1raw ≥ 1 then s.k0 else s.k0 + 1 - d1raw
    let d1 : ℤ := if d1raw ≥ 1 then d1raw else 1
    let d2 : ℤ := if fcoord + s.k1 > dim then dim else fcoord + s.k1
    let tpend := d2 - d1
    if 0 < tpend then
      let x : K := coord - (fcoord : K)
      let num := fullProd x s.k0 s.k1 k
      ⟨d1, tpend, (num / s.denom p) :: polyLoop x s.denom tpend.toNat k num (p + 1), []⟩
    else ⟨d1, tpend, [], []⟩

/-- The function `make_lookup_poly`: the cache after the call and the result. -/
def make_lookup_poly [FloorRing K] (s : PolyCache K) (coord : K) (q dim : ℤ) :
    PolyCache K × Lookup K :=
  (s.refresh q, polyBody (s.refresh q) coord q dim)

/-- The fast-path loop of `make_lookup_poly_grad` (lines 201–208), entered with
`n` slots left to fill; each step yields the pair stored to `*tp` and `*dtp`. -/
def polyGradLoop (x dx : K) (denom : ℤ → K) : ℕ → ℤ → K → K → ℤ → List (K × K)
  | 0, _, _, _, _ => []
  | n + 1, k, num, dnum, p =>
    (num * (x - ((k + 1 : ℤ) : K) + 1) / (x - ((k + 1 : ℤ) : K)) / denom p,
      (dnum * (dx - ((k + 1 : ℤ) : K) + 1) / (dx - ((k + 1 : ℤ) : K))
        - num * (x - ((k + 1 : ℤ) : K) + 1) / (x - ((k + 1 : ℤ) : K))) / (1 / 100000) / denom p) ::
      polyGradLoop x dx denom n (k + 1)
        (num * (x - ((k + 1 : ℤ) : K) + 1) / (x - ((k + 1 : ℤ) : K)))
        (dnum * (dx - ((k + 1 : ℤ) : K) + 1) / (dx - ((k + 1 : ℤ) : K))) (p + 1)

/-- The slow-path loop of `make_lookup_poly_grad` (lines 213–230), entered with
`n` slots left to fill: both products are recomputed for every `k`. -/
def polyGradSlow (x dx : K) (k0 k1 : ℤ) (denom : ℤ → K) : ℕ → ℤ → ℤ → List (K × K)
  | 0, _, _ => []
  | n + 1, k, p =>
    (fullProd x k0 k1 k / denom p,
      (fullProd dx k0 k1 k - fullProd x k0 k1 k) / (1 / 100000) / denom p) ::
      polyGradSlow x dx k0 k1 denom n (k + 1) (p + 1)

/-- The pairs stored to `(*tp, *dtp)` by `make_lookup_poly_grad` (lines 177–232),
given the start values of `k`, `p` and the offset `tpend`: nothing unless
`tp<tpend`; on the fast path one pair and then `tpend` loop steps, on the slow
path `tpend + 1` loop steps. -/
def polyGradStores (s : PolyCache K) (x : K) (k p tpend : ℤ) : List (K × K) :=
  if 0 < tpend then
    if |x| > 1 / 10000 then
      (fullProd x s.k0 s.k1 k / s.denom p,
        (fullProd (x + 1 / 100000) s.k0 s.k1 k - fullProd x s.k0 s.k1 k)
          / (1 / 100000) / s.denom p) ::
        polyGradLoop x (x + 1 / 100000) s.denom tpend.toNat k
          (fullProd x s.k0 s.k1 k) (fullProd (x + 1 / 100000) s.k0 s.k1 k) (p + 1)
    else polyGradSlow x (x + 1 / 100000) s.k0 s.k1 s.denom (tpend + 1).toNat k p
  else []

/-- Body of `make_lookup_poly_grad` after the cache block (lines 156–232). -/
def polyGradBody [FloorRing K] (s : PolyCache K) (coord : K) (q dim : ℤ) : Lookup K :=
  let fcoord := anchor coord q
  let d1raw := fcoord + s.k0
  let p : ℤ := if d1raw ≥ 1 then 0 else 1 - d1raw
  let k : ℤ := if d1raw ≥ 1 then s.k0 else s.k0 + 1 - d1raw
  let d1 : ℤ := if d1raw ≥ 1 then d1raw else 1
  let d2 : ℤ := if fcoord + s.k1 > dim then dim else fcoord + s.k1
  let tpend := d2 - d1
  let st := polyGradStores s (coord - (fcoord : K)) k p tpend
  ⟨d1, tpend, st.map Prod.fst, st.map Prod.snd⟩

/-- The function `make_lookup_poly_grad`: the cache after the call and the
result. -/
def make_lookup_poly_grad [FloorRing K] (s : PolyCache K) (coord : K) (q dim : ℤ) :
    PolyCache K × Lookup K :=
  (s.refresh q, polyGradBody (s.refresh q) coord q dim)

/-! ## Sinc generators -/

/-- The expression `sin(t)/t * 0.5*(1.0 + cos(2*t/q))` with `t = PI*delta`. -/
def hanningSinc (sin cos : K → K) (q : ℤ) (delta : K) : K :=
  sin (PI * delta) / (PI * delta) * (1 / 2) * (1 + cos (2 * (PI * delta) / (q : K)))

/-- Values stored by the first loop of `make_lookup_sinc` (lines 286–290),
entered at sample index `d` with `n` slots to fill. -/
def sincLoop (sin cos : K → K) (coord : K) (q : ℤ) : ℕ → ℤ → List K
  | 0, _ => []
  | n + 1, d => hanningSinc sin cos q (coord - (d : K)) :: sincLoop sin cos coord q n (d + 1)

/-- The clamped first index `*d1` of the sinc generators (lines 277–279). -/
def sincFirst [FloorRing K] (s : SpanCache) (coord : K) (q : ℤ) : ℤ :=
  if anchor coord q + s.k0 < 1 then 1 else anchor coord q + s.k0

/-- The clamped last index `d2` of the sinc generators (lines 280–281). -/
def sincLast [FloorRing K] (s : SpanCache) (coord : K) (q dim : ℤ) : ℤ :=
  if anchor coord q + s.k1 > dim then dim else anchor coord q + s.k1

/-- Unnormalised weights left in `table` by the first loop of
`make_lookup_sinc`, when the short-circuit is not taken; `while (tp <= tpend)`
entered with `tp = table` runs `tpend + 1` times, and not at all when
`tpend < 0`. -/
def sincRaw [FloorRing K] (sin cos : K → K) (s : SpanCache) (coord : K) (q dim : ℤ) :
    List K :=
  sincLoop sin cos coord q
    (sincLast (s.refresh q) coord q dim - sincFirst (s.refresh q) coord q + 1).toNat
    (sincFirst (s.refresh q) coord q)

/-- The normalising sum `sm` of `make_lookup_sinc` after the first loop. -/
def sincSm [FloorRing K] (sin cos : K → K) (s : SpanCache) (coord : K) (q dim : ℤ) : K :=
  (sincRaw sin cos s coord q dim).foldl (fun sm w => sm + w) 0

/-- The function `make_lookup_sinc`: the cache after the call and the result. -/
def make_lookup_sinc [FloorRing K] (sin cos : K → K) (s : SpanCache) (coord : K)
    (q dim : ℤ) : SpanCache × Lookup K :=
  if nearInteger coord then
    if rint coord < 1 ∨ rint coord > dim then (s, ⟨rint coord, -1, [], []⟩)
    else (s, ⟨rint coord, 0, [1], []⟩)
  else
    (s.refresh q,
      ⟨sincFirst (s.refresh q) coord q,
        sincLast (s.refresh q) coord q dim - sincFirst (s.refresh q) coord q,
        (sincRaw sin cos s coord q dim).map (fun w => w / sincSm sin cos s coord q dim), []⟩)

/-- The value stored to `*tp` by the first loop of `make_lookup_sinc_grad`
(lines 336–348) for sample index `d`. -/
def sincGradWeight (sin cos : K → K) (coord : K) (q d : ℤ) : K :=
  if |coord - (d : K)| > 1 / 1000000000000 then hanningSinc sin cos q (coord - (d : K)) else 1

/-- The value stored to `*dtp` by the first loop of `make_lookup_sinc_grad`
(lines 349–361) for sample index `d`. -/
def sincGradShifted (sin cos : K → K) (coord : K) (q d : ℤ) : K :=
  if |coord - (d : K) + 1 / 1000000| > 1 / 1000000000000 then
    hanningSinc sin cos q (coord - (d : K) + 1 / 1000000)
  else 1

/-- Pairs stored to `(*tp, *dtp)` by the first loop of `make_lookup_sinc_grad`,
entered at sample index `d` with `n` slots to fill. -/
def sincGradLoop (sin cos : K → K) (coord : K) (q : ℤ) : ℕ → ℤ → List (K × K)
  | 0, _ => []
  | n + 1, d =>
    (sincGradWeight sin cos coord q d, sincGradShifted sin cos coord q d) ::
      sincGradLoop sin cos coord q n (d + 1)

/-- Contents of `(table, dtable)` after the first loop of
`make_lookup_sinc_grad`. -/
def sincGradRaw [FloorRing K] (sin cos : K → K) (s : SpanCache) (coord : K) (q dim : ℤ) :
    List (K × K) :=
  sincGradLoop sin cos coord q
    (sincLast (s.refresh q) coord q dim - sincFirst (s.refresh q) coord q + 1).toNat
    (sincFirst (s.refresh q) coord q)

/-- The normalising sum `sm` of `make_lookup_sinc_grad` after the first loop. -/
def sincGradSm [FloorRing K] (sin cos : K → K) (s : SpanCache) (coord : K) (q dim : ℤ) : K :=
  (sincGradRaw sin cos s coord q dim).foldl (fun sm w => sm + w.1) 0

/-- The normalising sum `sm1` of `make_lookup_sinc_grad` after the first loop. -/
def sincGradSm1 [FloorRing K] (sin cos : K → K) (s : SpanCache) (coord : K) (q dim : ℤ) : K :=
  (sincGradRaw sin cos s coord q dim).foldl (fun sm w => sm + w.2) 0

/-- The function `make_lookup_sinc_grad`: the cache after the call and the
result.  The second loop replaces `*tp` by `*tp/sm` and then `*dtp` by
`(*dtp/sm1 - *tp)/0.000001`. -/
def make_lookup_sinc_grad [FloorRing K] (sin cos : K → K) (s : SpanCache) (coord : K)
    (q dim : ℤ) : SpanCache × Lookup K :=
  (s.refresh q,
    ⟨sincFirst (s.refresh q) coord q,
      sincLast (s.refresh q) coord q dim - sincFirst (s.refresh q) coord q,
      (sincGradRaw sin cos s coord q dim).map (fun w => w.1 / sincGradSm sin cos s coord q dim),
      (sincGradRaw sin cos s coord q dim).map (fun w =>
        (w.2 / sincGradSm1 sin cos s coord q dim - w.1 / sincGradSm sin cos s coord q dim)
          / (1 / 1000000))⟩)

/-! ## Cache consistency and specification-side definitions -/

/-- The span cache is either untouched (`oq = 0`) or holds the span of `oq`. -/
def SpanCache.Valid (s : SpanCache) : Prop :=
  s.oq ≠ 0 → s.k0 = spanLo s.oq ∧ s.k1 = spanHi s.oq

/-- The polynomial cache is either untouched (`oq = 0`) or holds the span of
`oq` and, at offsets `0 … k1 - k0`, the denominators built for that span. -/
def PolyCache.Valid (s : PolyCache K) : Prop :=
  s.oq ≠ 0 → s.k0 = spanLo s.oq ∧ s.k1 = spanHi s.oq ∧
    ∀ i : ℤ, 0 ≤ i → i ≤ s.k1 - s.k0 → s.denom i = denomEntry s.k0 s.k1 (s.k0 + i)

/-- The Lagrange weight in the words of the specification: the weight at sample
`k` is `∏_{m≠k}(x−m) / ∏_{m≠k}(k−m)`, the products over `m ∈ [k0, k1]`. -/
def lagrangeWeight (k0 k1 k : ℤ) (x : K) : K :=
  (∏ m in (Finset.Icc k0 k1).erase k, (x - (m : K))) /
    (∏ m in (Finset.Icc k0 k1).erase k, ((k : K) - (m : K)))

/-- The clamped-window length of the specification:
`max(0, min(d2, dim) − max(d1_raw, 1) + 1)` with `d1_raw = fcoord + k0`,
`d2 = fcoord + k1`. -/
def windowLength [FloorRing K] (coord : K) (q dim : ℤ) : ℤ :=
  max 0 (min (anchor coord q + spanHi q) dim - max (anchor coord q + spanLo q) 1 + 1)

/-- The length reported by a call: `max(0, end − start + 1)`. -/
def Lookup.length (r : Lookup K) : ℤ := max 0 (r.tpend + 1)

/-- The index invariant of a result: the reported end lies before the start of
the table, or every sample index `d1, d1+1, …, d1 + (end − start)` of the
reported span lies in `[1, dim]`. -/
def Lookup.IndicesWithin (r : Lookup K) (dim : ℤ) : Prop :=
  r.tpend < 0 ∨ (0 ≤ r.tpend ∧ ∀ d : ℤ, r.d1 ≤ d → d ≤ r.d1 + r.tpend → 1 ≤ d ∧ d ≤ dim)

/-! ## Instrumented runs: divisors, cache reads, call sequences -/

/-- Reads of `denom` by the loop of lines 99–104, `n` steps left: each step reads
`*p` once while storing to `*tp`; a read is recorded as the pair of offsets
`(tp - table, p - denom)`. -/
def polyLoopReads : ℕ → ℤ → ℤ → List (ℤ × ℤ)
  | 0, _, _ => []
  | n + 1, tp, p => (tp, p) :: polyLoopReads n (tp + 1) (p + 1)

/-- Every read of `denom` made by `make_lookup_poly` after the cache block, as
pairs `(tp - table, p - denom)` in order (the function body instrumented at each
`*p`). -/
def polyReads [FloorRing K] (s : PolyCache K) (coord : K) (q dim : ℤ) : List (ℤ × ℤ) :=
  let c := s.refresh q
  if nearInteger coord then []
  else
    let fcoord := anchor coord q
    let d1raw := fcoord + c.k0
    let p : ℤ := if d1raw ≥ 1 then 0 else 1 - d1raw
    let d1 : ℤ := if d1raw ≥ 1 then d1raw else 1
    let d2 : ℤ := if fcoord + c.k1 > dim then dim else fcoord + c.k1
    let tpend := d2 - d1
    if 0 < tpend then (0, p) :: polyLoopReads tpend.toNat 1 (p + 1) else []

/-- Reads of `denom` by a loop of `make_lookup_poly_grad` (lines 201–208 or
213–230), `n` steps left: each step reads `*p` twice, for `*tp` and for `*dtp`. -/
def polyGradLoopReads : ℕ → ℤ → ℤ → List (ℤ × ℤ)
  | 0, _, _ => []
  | n + 1, tp, p => (tp, p) :: (tp, p) :: polyGradLoopReads n (tp + 1) (p + 1)

/-- Every read of `denom` made by `make_lookup_poly_grad` after the cache block,
as pairs `(tp - table, p - denom)` in order: on the fast path the two reads of
lines 198–199 and then the loop, on the slow path the loop from slot 0. -/
def polyGradReads [FloorRing K] (s : PolyCache K) (coord : K) (q dim : ℤ) : List (ℤ × ℤ) :=
  let c := s.refresh q
  let fcoord := anchor coord q
  let d1raw := fcoord + c.k0
  let p : ℤ := if d1raw ≥ 1 then 0 else 1 - d1raw
  let d1 : ℤ := if d1raw ≥ 1 then d1raw else 1
  let d2 : ℤ := if fcoord + c.k1 > dim then dim else fcoord + c.k1
  let tpend := d2 - d1
  if 0 < tpend then
    if |coord - (fcoord : K)| > 1 / 10000 then
      (0, p) :: (0, p) :: polyGradLoopReads tpend.toNat 1 (p + 1)
    else polyGradLoopReads (tpend + 1).toNat 0 p
  else []

/-- The cache left behind by a sequence of `make_lookup_poly` calls, each given
as `(coord, q, dim)`, run one after the other from the cache `s`. -/
def polyRun [FloorRing K] (s : PolyCache K) : List (K × ℤ × ℤ) → PolyCache K
  | [] => s
  | c :: cs => polyRun (make_lookup_poly s c.1 c.2.1 c.2.2).1 cs

/-- The closed form of the cached denominator for `k` in the span `[k0, k1]`:
`(-1)^(k1 - k) * (k - k0)! * (k1 - k)!`. -/
def denomClosedForm (k0 k1 k : ℤ) : ℤ :=
  (-1) ^ (k1 - k).toNat * ((k - k0).toNat.factorial : ℤ) * ((k1 - k).toNat.factorial : ℤ)

/-! ## Machine arithmetic: 32-bit `int` and binary64 `double`

The definitions above read `int` as `ℤ` and `double` as an exact field.  The
definitions of this part embed the same source lines in the arithmetic of the
machine, for the claims that are not limited to exact arithmetic.  Loop counters
that stay inside the kernel span (`m`, and `k - m`) are not wrapped; `p` is an
offset into `denom`, computed in pointer arithmetic. -/

/-- Two's-complement wrap-around of the result of a 32-bit `int` operation. -/
def wrapInt (n : ℤ) : ℤ := (n + 2147483648) % 4294967296 - 2147483648

/-- Conversion of an integral `double` value to `int`: the value itself when it
fits.  Outside the range of `int` C leaves the conversion undefined; the value
taken here is the one the x86-64 conversion instruction delivers, `INT_MIN`. -/
def toInt (n : ℤ) : ℤ := if -2147483648 ≤ n ∧ n ≤ 2147483647 then n else -2147483648

/-- Number of halvings that bring `n` below 2, at most `fuel` of them. -/
def halvings : ℕ → ℕ → ℕ
  | 0, _ => 0
  | fuel + 1, n => if n < 2 then 0 else halvings fuel (n / 2) + 1

/-- The integer logarithm `⌊log₂ n⌋` of `n ≥ 1`. -/
def ilog2 (n : ℕ) : ℕ := halvings n n

/-- The binade of a non-zero rational `y`: the exponent `e` with
`2^e ≤ |y| < 2^(e+1)`. -/
def binade (y : ℚ) : ℤ :=
  if |y| < (2 : ℚ) ^ ((ilog2 y.num.natAbs : ℤ) - (ilog2 y.den : ℤ)) then
    (ilog2 y.num.natAbs : ℤ) - (ilog2 y.den : ℤ) - 1
  else (ilog2 y.num.natAbs : ℤ) - (ilog2 y.den : ℤ)

/-- Exponent of the spacing of the binary64 grid around `y`: 53 significant
bits, and never below the spacing `2^-1074` of the subnormal numbers. -/
def ulpExp (y : ℚ) : ℤ := max (binade y - 52) (-1074)

/-- The point of the binary64 grid nearest to `y`, ties to the even
significand, before the test for overflow. -/
def roundGrid (y : ℚ) : ℚ := (rint (y / (2 : ℚ) ^ ulpExp y) : ℚ) * (2 : ℚ) ^ ulpExp y

/-- A binary64 value: a finite number, an infinity or a NaN.  The sign of a zero
is not recorded. -/
inductive F64 where
  /-- A finite value. -/
  | fin (v : ℚ)
  /-- An infinity, negative when `neg` is set. -/
  | inf (neg : Bool)
  /-- Not a number. -/
  | nan
deriving DecidableEq

/-- The binary64 result of an operation whose exact result is `y`: rounded to
nearest, and infinite when the rounded magnitude reaches `2^1024`. -/
def F64.round (y : ℚ) : F64 :=
  if |roundGrid y| < (2 : ℚ) ^ (1024 : ℤ) then .fin (roundGrid y) else .inf (decide (y < 0))

/-- The conversion `(double)n` of an `int`, which is exact. -/
def F64.ofInt (n : ℤ) : F64 := .fin (n : ℚ)

/-- Unary minus. -/
def F64.neg : F64 → F64
  | .fin v => .fin (-v)
  | .inf s => .inf (!s)
  | .nan => .nan

/-- Binary64 addition. -/
def F64.add : F64 → F64 → F64
  | .fin a, .fin b => F64.round (a + b)
  | .fin _, .inf s => .inf s
  | .inf s, .fin _ => .inf s
  | .inf s, .inf t => if s = t then .inf s else .nan
  | _, _ => .nan

/-- Binary64 subtraction. -/
def F64.sub (a b : F64) : F64 := F64.add a (F64.neg b)

/-- Binary64 multiplication. -/
def F64.mul : F64 → F64 → F64
  | .fin a, .fin b => F64.round (a * b)
  | .fin a, .inf s => if a = 0 then .nan else .inf (xor (decide (a < 0)) s)
  | .inf s, .fin b => if b = 0 then .nan else .inf (xor s (decide (b < 0)))
  | .inf s, .inf t => .inf (xor s t)
  | _, _ => .nan

/-- Binary64 division.  A finite non-zero value divided by zero is an infinity,
given here the sign of the dividend. -/
def F64.div : F64 → F64 → F64
  | .fin a, .fin b =>
    if b = 0 then (if a = 0 then .nan else .inf (decide (a < 0))) else F64.round (a / b)
  | .fin _, .inf _ => .fin 0
  | .inf s, .fin b => .inf (xor s (decide (b < 0)))
  | _, _ => .nan

instance : Add F64 := ⟨F64.add⟩

instance : Sub F64 := ⟨F64.sub⟩

instance : Mul F64 := ⟨F64.mul⟩

instance : Div F64 := ⟨F64.div⟩

/-- The C library `fabs`. -/
def F64.abs : F64 → F64
  | .fin v => .fin |v|
  | .inf _ => .inf false
  | .nan => .nan

/-- The comparison `a < b` of two `double`s, false when either is a NaN. -/
def F64.lt : F64 → F64 → Bool
  | .fin a, .fin b => decide (a < b)
  | .fin _, .inf s => !s
  | .inf s, .fin _ => s
  | .inf s, .inf t => s && !t
  | _, _ => false

/-- The C library `rint` on a `double`, in the default rounding mode. -/
def F64.rint : F64 → F64
  | .fin v => .fin ((SpmLookup.rint v : ℤ) : ℚ)
  | a => a

/-- The assignment `*d1 = rint(coord)`: `rint` followed by the conversion to
`int`. -/
def F64.rintInt : F64 → ℤ
  | .fin v => toInt (SpmLookup.rint v)
  | _ => -2147483648

/-- The assignment `fcoord = floor(…)`: `floor` followed by the conversion to
`int`. -/
def F64.floorInt : F64 → ℤ
  | .fin v => toInt ⌊v⌋
  | _ => -2147483648

/-- The constant `PI` of the source as a `double`. -/
def PI64 : F64 := F64.round (314159265358979 / 100000000000000)

/-- The test `fabs(coord-rint(coord))<0.00001` in binary64. -/
def nearInteger64 (coord : F64) : Bool :=
  F64.lt (F64.abs (coord - F64.rint coord)) (F64.round (1 / 100000))

/-- The anchor `fcoord = floor(q%2 ? coord+0.5 : coord)` in binary64 and `int`. -/
def anchor64 (coord : F64) (q : ℤ) : ℤ :=
  F64.floorInt (if q.tmod 2 ≠ 0 then coord + F64.round (1 / 2) else coord)

/-- The loop `for (m = …; m < hi; m++) v = v*(k-m);` in binary64, with `n`
iterations left. -/
def mulLoopInt64 (k : ℤ) : ℕ → ℤ → F64 → F64
  | 0, _, v => v
  | n + 1, m, v => mulLoopInt64 k n (m + 1) (v * F64.ofInt (k - m))

/-- The loop `for (m = lo; m < hi; m++) v = v*(k-m);` in binary64. -/
def mulRangeInt64 (k lo hi : ℤ) (v : F64) : F64 :=
  mulLoopInt64 k (hi - lo).toNat lo v

/-- The value stored to `*p` for one `k` (lines 45–50) in binary64. -/
def denomEntry64 (k0 k1 k : ℤ) : F64 :=
  mulRangeInt64 k (k + 1) (k1 + 1) (mulRangeInt64 k k0 k (.fin 1))

/-- The outer loop of lines 42–51 in binary64, with `n` iterations left. -/
def fillLoop64 (k0 k1 : ℤ) : ℕ → ℤ → ℤ → (ℤ → F64) → ℤ → F64
  | 0, _, _, denom => denom
  | n + 1, k, p, denom =>
    fillLoop64 k0 k1 n (k + 1) (p + 1) (Function.update denom p (denomEntry64 k0 k1 k))

/-- The outer loop `for (k = k0, p = denom; k <= k1; k++, p++)` of lines 42–51
in binary64. -/
def fillDenom64 (k0 k1 : ℤ) (denom : ℤ → F64) : ℤ → F64 :=
  fillLoop64 k0 k1 (k1 + 1 - k0).toNat k0 0 denom

/-- The block `if (q != oq) { … }` of the polynomial generators in binary64. -/
def PolyCache.refresh64 (s : PolyCache F64) (q : ℤ) : PolyCache F64 :=
  if q ≠ s.oq then ⟨q, spanLo q, spanHi q, fillDenom64 (spanLo q) (spanHi q) s.denom⟩ else s

/-- Static storage of a polynomial generator at program start, in binary64. -/
def PolyCache.init64 : PolyCache F64 := ⟨0, 0, 0, fun _ => .fin 0⟩

/-- The loop `for (m = …; m < hi; m++) num = num*(x-m);` in binary64, with `n`
iterations left. -/
def mulLoop64 (x : F64) : ℕ → ℤ → F64 → F64
  | 0, _, v => v
  | n + 1, m, v => mulLoop64 x n (m + 1) (v * (x - F64.ofInt m))

/-- The loop `for (m = lo; m < hi; m++) num = num*(x-m);` in binary64. -/
def mulRange64 (x : F64) (lo hi : ℤ) (v : F64) : F64 :=
  mulLoop64 x (hi - lo).toNat lo v

/-- The two loops `m = k0 … k-1` and `m = k+1 … k1` started from `1.0`, in
binary64. -/
def fullProd64 (x : F64) (k0 k1 k : ℤ) : F64 :=
  mulRange64 x (k + 1) (k1 + 1) (mulRange64 x k0 k (.fin 1))

/-- One step `num = num*(x-k+1)/(x-k)` of the recurrence in binary64 (lines 102,
204, 205); the literal `1` is converted to `double`. -/
def recStep64 (num x : F64) (k : ℤ) : F64 :=
  num * (x - F64.ofInt k + F64.ofInt 1) / (x - F64.ofInt k)

/-- The loop of lines 99–104 in binary64, entered with `n` slots left to fill:
`k++; num = num*(x-k+1)/(x-k); *(tp++) = num/(*(p++));`. -/
def polyLoop64 (x : F64) (denom : ℤ → F64) : ℕ → ℤ → F64 → ℤ → List F64
  | 0, _, _, _ => []
  | n + 1, k, num, p =>
    (recStep64 num x (wrapInt (k + 1)) / denom p) ::
      polyLoop64 x denom n (wrapInt (k + 1)) (recStep64 num x (wrapInt (k + 1))) (p + 1)

/-- Body of `make_lookup_poly` after the cache block (lines 54–106) in binary64
and `int`, reading the cache `s`. -/
def polyBody64 (s : PolyCache F64) (coord : F64) (q dim : ℤ) : Lookup F64 :=
  if nearInteger64 coord then
    if F64.rintInt coord < 1 ∨ F64.rintInt coord > dim then ⟨F64.rintInt coord, -1, [], []⟩
    else ⟨F64.rintInt coord, 0, [.fin 1], []⟩
  else
    let fcoord := anchor64 coord q
    let d1raw := wrapInt (fcoord + s.k0)
    let p : ℤ := if d1raw ≥ 1 then 0 else 1 - d1raw
    let k : ℤ := if d1raw ≥ 1 then s.k0 else wrapInt (s.k0 + 1 - d1raw)
    let d1 : ℤ := if d1raw ≥ 1 then d1raw else 1
    let d2 : ℤ := if wrapInt (fcoord + s.k1) > dim then dim else wrapInt (fcoord + s.k1)
    let tpend := wrapInt (d2 - d1)
    if 0 < tpend then
      let x : F64 := coord - F64.ofInt fcoord
      let num := fullProd64 x s.k0 s.k1 k
      ⟨d1, tpend, (num / s.denom p) :: polyLoop64 x s.denom tpend.toNat k num (p + 1), []⟩
    else ⟨d1, tpend, [], []⟩

/-- The function `make_lookup_poly` in binary64 and `int`: the cache after the
call and the result. -/
def make_lookup_poly64 (s : PolyCache F64) (coord : F64) (q dim : ℤ) :
    PolyCache F64 × Lookup F64 :=
  (s.refresh64 q, polyBody64 (s.refresh64 q) coord q dim)

/-- The fast-path loop of `make_lookup_poly_grad` (lines 201–208) in binary64,
entered with `n` slots left to fill; each step yields the pair stored to `*tp`
and `*dtp`. -/
def polyGradLoop64 (x dx : F64) (denom : ℤ → F64) : ℕ → ℤ → F64 → F64 → ℤ → List (F64 × F64)
  | 0, _, _, _, _ => []
  | n + 1, k, num, dnum, p =>
    (recStep64 num x (wrapInt (k + 1)) / denom p,
      (recStep64 dnum dx (wrapInt (k + 1)) - recStep64 num x (wrapInt (k + 1)))
        / F64.round (1 / 100000) / denom p) ::
      polyGradLoop64 x dx denom n (wrapInt (k + 1)) (recStep64 num x (wrapInt (k + 1)))
        (recStep64 dnum dx (wrapInt (k + 1))) (p + 1)

/-- The slow-path loop of `make_lookup_poly_grad` (lines 213–230) in binary64,
entered with `n` slots left to fill. -/
def polyGradSlow64 (x dx : F64) (k0 k1 : ℤ) (denom : ℤ → F64) : ℕ → ℤ → ℤ → List (F64 × F64)
  | 0, _, _ => []
  | n + 1, k, p =>
    (fullProd64 x k0 k1 k / denom p,
      (fullProd64 dx k0 k1 k - fullProd64 x k0 k1 k) / F64.round (1 / 100000) / denom p) ::
      polyGradSlow64 x dx k0 k1 denom n (wrapInt (k + 1)) (p + 1)

/-- The pairs stored to `(*tp, *dtp)` by `make_lookup_poly_grad` (lines 177–232)
in binary64, given the start values of `k`, `p` and the offset `tpend`; `dx` is
`x + 0.00001` and the fast path is taken when `fabs(x)>0.0001`. -/
def polyGradStores64 (s : PolyCache F64) (x : F64) (k p tpend : ℤ) : List (F64 × F64) :=
  if 0 < tpend then
    if F64.lt (F64.round (1 / 10000)) (F64.abs x) then
      (fullProd64 x s.k0 s.k1 k / s.denom p,
        (fullProd64 (x + F64.round (1 / 100000)) s.k0 s.k1 k - fullProd64 x s.k0 s.k1 k)
          / F64.round (1 / 100000) / s.denom p) ::
        polyGradLoop64 x (x + F64.round (1 / 100000)) s.denom tpend.toNat k
          (fullProd64 x s.k0 s.k1 k) (fullProd64 (x + F64.round (1 / 100000)) s.k0 s.k1 k) (p + 1)
    else polyGradSlow64 x (x + F64.round (1 / 100000)) s.k0 s.k1 s.denom (tpend + 1).toNat k p
  else []

/-- Body of `make_lookup_poly_grad` after the cache block (lines 156–232) in
binary64 and `int`. -/
def polyGradBody64 (s : PolyCache F64) (coord : F64) (q dim : ℤ) : Lookup F64 :=
  let fcoord := anchor64 coord q
  let d1raw := wrapInt (fcoord + s.k0)
  let p : ℤ := if d1raw ≥ 1 then 0 else 1 - d1raw
  let k : ℤ := if d1raw ≥ 1 then s.k0 else wrapInt (s.k0 + 1 - d1raw)
  let d1 : ℤ := if d1raw ≥ 1 then d1raw else 1
  let d2 : ℤ := if wrapInt (fcoord + s.k1) > dim then dim else wrapInt (fcoord + s.k1)
  let tpend := wrapInt (d2 - d1)
  let st := polyGradStores64 s (coord - F64.ofInt fcoord) k p tpend
  ⟨d1, tpend, st.map Prod.fst, st.map Prod.snd⟩

/-- The function `make_lookup_poly_grad` in binary64 and `int`: the cache after
the call and the result. -/
def make_lookup_poly_grad64 (s : PolyCache F64) (coord : F64) (q dim : ℤ) :
    PolyCache F64 × Lookup F64 :=
  (s.refresh64 q, polyGradBody64 (s.refresh64 q) coord q dim)

/-- Divisors of the fast-path loop of `make_lookup_poly_grad` in binary64, in the
order they are used: `x-k`, `dx-k`, `*p`, `0.00001`, `*p` for every step. -/
def polyGradLoopDivisors64 (x dx : F64) (denom : ℤ → F64) : ℕ → ℤ → ℤ → List F64
  | 0, _, _ => []
  | n + 1, k, p =>
    [x - F64.ofInt (wrapInt (k + 1)), dx - F64.ofInt (wrapInt (k + 1)), denom p,
        F64.round (1 / 100000), denom p] ++
      polyGradLoopDivisors64 x dx denom n (wrapInt (k + 1)) (p + 1)

/-- Divisors of the slow-path loop of `make_lookup_poly_grad` in binary64: `*p`,
`0.00001`, `*p` for every step. -/
def polyGradSlowDivisors64 (denom : ℤ → F64) : ℕ → ℤ → List F64
  | 0, _ => []
  | n + 1, p =>
    [denom p, F64.round (1 / 100000), denom p] ++ polyGradSlowDivisors64 denom n (p + 1)

/-- Every value `make_lookup_poly_grad` divides by during one call, in order, in
binary64 (the function body instrumented at each `/`). -/
def polyGradDivisors64 (s : PolyCache F64) (coord : F64) (q dim : ℤ) : List F64 :=
  let c := s.refresh64 q
  let fcoord := anchor64 coord q
  let d1raw := wrapInt (fcoord + c.k0)
  let p : ℤ := if d1raw ≥ 1 then 0 else 1 - d1raw
  let k : ℤ := if d1raw ≥ 1 then c.k0 else wrapInt (c.k0 + 1 - d1raw)
  let d1 : ℤ := if d1raw ≥ 1 then d1raw else 1
  let d2 : ℤ := if wrapInt (fcoord + c.k1) > dim then dim else wrapInt (fcoord + c.k1)
  let tpend := wrapInt (d2 - d1)
  let x : F64 := coord - F64.ofInt fcoord
  if 0 < tpend then
    if F64.lt (F64.round (1 / 10000)) (F64.abs x) then
      [c.denom p, F64.round (1 / 100000), c.denom p] ++
        polyGradLoopDivisors64 x (x + F64.round (1 / 100000)) c.denom tpend.toNat k (p + 1)
    else polyGradSlowDivisors64 c.denom (tpend + 1).toNat p
  else []

/-- The expression `sin(t)/t * 0.5*(1.0 + cos(2*t/q))` in binary64; `sin` and
`cos` are the C library functions, `2` and `q` are converted to `double`. -/
def hanningSinc64 (sin cos : F64 → F64) (q : ℤ) (t : F64) : F64 :=
  sin t / t * F64.round (1 / 2) * (F64.ofInt 1 + cos (F64.ofInt 2 * t / F64.ofInt q))

/-- Values stored by the first loop of `make_lookup_sinc` (lines 286–290) in
binary64, entered at sample index `d` with `n` slots to fill. -/
def sincLoop64 (sin cos : F64 → F64) (coord : F64) (q : ℤ) : ℕ → ℤ → List F64
  | 0, _ => []
  | n + 1, d =>
    hanningSinc64 sin cos q (PI64 * (coord - F64.ofInt d)) ::
      sincLoop64 sin cos coord q n (wrapInt (d + 1))

/-- The clamped first index `*d1` of the sinc generators (lines 277–279) in
`int`. -/
def sincFirst64 (s : SpanCache) (coord : F64) (q : ℤ) : ℤ :=
  if wrapInt (anchor64 coord q + s.k0) < 1 then 1 else wrapInt (anchor64 coord q + s.k0)

/-- The clamped last index `d2` of the sinc generators (lines 280–281) in `int`. -/
def sincLast64 (s : SpanCache) (coord : F64) (q dim : ℤ) : ℤ :=
  if wrapInt (anchor64 coord q + s.k1) > dim then dim else wrapInt (anchor64 coord q + s.k1)

/-- The offset `*ptpend - table = d2 - *d1` of the sinc generators (lines 283,
331) in `int`. -/
def sincEnd64 (s : SpanCache) (coord : F64) (q dim : ℤ) : ℤ :=
  wrapInt (sincLast64 s coord q dim - sincFirst64 s coord q)

/-- Unnormalised weights left in `table` by the first loop of `make_lookup_sinc`
in binary64, when the short-circuit is not taken. -/
def sincRaw64 (sin cos : F64 → F64) (s : SpanCache) (coord : F64) (q dim : ℤ) : List F64 :=
  sincLoop64 sin cos coord q (sincEnd64 (s.refresh q) coord q dim + 1).toNat
    (sincFirst64 (s.refresh q) coord q)

/-- The normalising sum `sm` of `make_lookup_sinc` after the first loop, in
binary64. -/
def sincSm64 (sin cos : F64 → F64) (s : SpanCache) (coord : F64) (q dim : ℤ) : F64 :=
  (sincRaw64 sin cos s coord q dim).foldl (fun sm w => sm + w) (F64.ofInt 0)

/-- The function `make_lookup_sinc` in binary64 and `int`: the cache after the
call and the result. -/
def make_lookup_sinc64 (sin cos : F64 → F64) (s : SpanCache) (coord : F64) (q dim : ℤ) :
    SpanCache × Lookup F64 :=
  if nearInteger64 coord then
    if F64.rintInt coord < 1 ∨ F64.rintInt coord > dim then (s, ⟨F64.rintInt coord, -1, [], []⟩)
    else (s, ⟨F64.rintInt coord, 0, [.fin 1], []⟩)
  else
    (s.refresh q,
      ⟨sincFirst64 (s.refresh q) coord q, sincEnd64 (s.refresh q) coord q dim,
        (sincRaw64 sin cos s coord q dim).map (fun w => w / sincSm64 sin cos s coord q dim), []⟩)

/-- The value stored to `*tp` by the first loop of `make_lookup_sinc_grad`
(lines 336–348) for sample index `d`, in binary64. -/
def sincGradWeight64 (sin cos : F64 → F64) (coord : F64) (q d : ℤ) : F64 :=
  if F64.lt (F64.round (1 / 1000000000000)) (F64.abs (coord - F64.ofInt d)) then
    hanningSinc64 sin cos q (PI64 * (coord - F64.ofInt d))
  else F64.ofInt 1

/-- The value stored to `*dtp` by the first loop of `make_lookup_sinc_grad`
(lines 349–361) for sample index `d`, in binary64. -/
def sincGradShifted64 (sin cos : F64 → F64) (coord : F64) (q d : ℤ) : F64 :=
  if F64.lt (F64.round (1 / 1000000000000))
      (F64.abs (coord - F64.ofInt d + F64.round (1 / 1000000))) then
    hanningSinc64 sin cos q (PI64 * (coord - F64.ofInt d + F64.round (1 / 1000000)))
  else F64.ofInt 1

/-- Pairs stored to `(*tp, *dtp)` by the first loop of `make_lookup_sinc_grad` in
binary64, entered at sample index `d` with `n` slots to fill. -/
def sincGradLoop64 (sin cos : F64 → F64) (coord : F64) (q : ℤ) : ℕ → ℤ → List (F64 × F64)
  | 0, _ => []
  | n + 1, d =>
    (sincGradWeight64 sin cos coord q d, sincGradShifted64 sin cos coord q d) ::
      sincGradLoop64 sin cos coord q n (wrapInt (d + 1))

/-- Contents of `(table, dtable)` after the first loop of `make_lookup_sinc_grad`,
in binary64. -/
def sincGradRaw64 (sin cos : F64 → F64) (s : SpanCache) (coord : F64) (q dim : ℤ) :
    List (F64 × F64) :=
  sincGradLoop64 sin cos coord q (sincEnd64 (s.refresh q) coord q dim + 1).toNat
    (sincFirst64 (s.refresh q) coord q)

/-- The normalising sum `sm` of `make_lookup_sinc_grad` after the first loop, in
binary64. -/
def sincGradSm64 (sin cos : F64 → F64) (s : SpanCache) (coord : F64) (q dim : ℤ) : F64 :=
  (sincGradRaw64 sin cos s coord q dim).foldl (fun sm w => sm + w.1) (F64.ofInt 0)

/-- The normalising sum `sm1` of `make_lookup_sinc_grad` after the first loop, in
binary64. -/
def sincGradSm164 (sin cos : F64 → F64) (s : SpanCache) (coord : F64) (q dim : ℤ) : F64 :=
  (sincGradRaw64 sin cos s coord q dim).foldl (fun sm w => sm + w.2) (F64.ofInt 0)

/-- The function `make_lookup_sinc_grad` in binary64 and `int`: the cache after
the call and the result.  The second loop replaces `*tp` by `*tp/sm` and then
`*dtp` by `(*dtp/sm1 - *tp)/0.000001`. -/
def make_lookup_sinc_grad64 (sin cos : F64 → F64) (s : SpanCache) (coord : F64) (q dim : ℤ) :
    SpanCache × Lookup F64 :=
  (s.refresh q,
    ⟨sincFirst64 (s.refresh q) coord q, sincEnd64 (s.refresh q) coord q dim,
      (sincGradRaw64 sin cos s coord q dim).map
        (fun w => w.1 / sincGradSm64 sin cos s coord q dim),
      (sincGradRaw64 sin cos s coord q dim).map (fun w =>
        (w.2 / sincGradSm164 sin cos s coord q dim - w.1 / sincGradSm64 sin cos s coord q dim)
          / F64.round (1 / 1000000))⟩)

/-- The binary64 cache of a polynomial generator is either untouched (`oq = 0`)
or holds the span of `oq` and, at offsets `0 … k1 - k0`, the denominators built
for that span in binary64. -/
def PolyCache.Valid64 (s : PolyCache F64) : Prop :=
  s.oq ≠ 0 → s.k0 = spanLo s.oq ∧ s.k1 = spanHi s.oq ∧
    ∀ i : ℤ, 0 ≤ i → i ≤ s.k1 - s.k0 → s.denom i = denomEntry64 s.k0 s.k1 (s.k0 + i)

/-- A `double` that is an infinity or finite of magnitude at least 1, as every
cached denominator is. -/
def F64.IsBig (v : F64) : Prop :=
  (∃ s, v = F64.inf s) ∨ ∃ w : ℚ, v = F64.fin w ∧ 1 ≤ |w|

/-- A rational is a finite `double` when rounding leaves it unchanged and it is
below the overflow threshold. -/
def IsDouble (c : ℚ) : Prop := roundGrid c = c ∧ |c| < (2 : ℚ) ^ (1024 : ℤ)

instance (c : ℚ) : Decidable (IsDouble c) :=
  inferInstanceAs (Decidable (roundGrid c = c ∧ |c| < (2 : ℚ) ^ (1024 : ℤ)))

/-! ## Kernel span -/

theorem spanLo_of_pos {q : ℤ} (hq : 1 ≤ q) : spanLo q = -((q - 1) / 2) := by
  unfold spanLo
  have h2 : q.tmod 2 = q % 2 := Int.tmod_eq_emod (by omega) (by norm_num)
  rw [h2]
  split_ifs with h
  · rw [Int.neg_tdiv, Int.tdiv_eq_ediv (by omega) (by norm_num)]
  · rw [Int.neg_tdiv, Int.tdiv_eq_ediv (by omega) (by norm_num)]
    omega

theorem spanHi_of_pos {q : ℤ} (hq : 1 ≤ q) : spanHi q = q / 2 := by
  unfold spanHi
  have h2 : q.tmod 2 = q % 2 := Int.tmod_eq_emod (by omega) (by norm_num)
  rw [h2]
  split_ifs with h
  · rw [Int.tdiv_eq_ediv (by omega) (by norm_num)]
    omega
  · rw [Int.tdiv_eq_ediv (by omega) (by norm_num)]

theorem span_bounds {q : ℤ} (hq : 1 ≤ q) :
    spanLo q ≤ 0 ∧ 0 ≤ spanHi q ∧ spanHi q - spanLo q = q - 1 := by
  rw [spanLo_of_pos hq, spanHi_of_pos hq]
  omega

/-! ## The product loops -/

theorem Ico_eq_insert_left (lo : ℤ) (n : ℕ) :
    Finset.Ico lo (lo + ((n + 1 : ℕ) : ℤ)) = insert lo (Finset.Ico (lo + 1) (lo + 1 + (n : ℤ))) := by
  ext m
  simp only [Finset.mem_Ico, Finset.mem_insert]
  push_cast
  omega

theorem mulLoop_eq (x : K) (n : ℕ) (m : ℤ) (v : K) :
    mulLoop x n m v = v * ∏ j in Finset.Ico m (m + (n : ℤ)), (x - (j : K)) := by
  induction n generalizing m v with
  | zero => simp [mulLoop]
  | succ n ih =>
    rw [mulLoop, ih, Ico_eq_insert_left, Finset.prod_insert (by simp)]
    ring

theorem mulLoopInt_eq (k : ℤ) (n : ℕ) (m : ℤ) (v : K) :
    mulLoopInt k n m v = v * ∏ j in Finset.Ico m (m + (n : ℤ)), ((k : K) - (j : K)) := by
  induction n generalizing m v with
  | zero => simp [mulLoopInt]
  | succ n ih =>
    rw [mulLoopInt, ih, Ico_eq_insert_left, Finset.prod_insert (by simp)]
    push_cast
    ring

theorem mulRange_eq (x : K) (lo hi : ℤ) (v : K) :
    mulRange x lo hi v = v * ∏ m in Finset.Ico lo hi, (x - (m : K)) := by
  unfold mulRange
  rw [mulLoop_eq]
  rcases le_or_lt lo hi with h | h
  · rw [Int.toNat_of_nonneg (by omega)]
    congr 2; ring_nf
  · rw [Int.toNat_of_nonpos (by omega)]
    simp [Finset.Ico_eq_empty_of_le h.le]

theorem mulRangeInt_eq (k lo hi : ℤ) (v : K) :
    mulRangeInt k lo hi v = v * ∏ m in Finset.Ico lo hi, ((k : K) - (m : K)) := by
  unfold mulRangeInt
  rw [mulLoopInt_eq]
  rcases le_or_lt lo hi with h | h
  · rw [Int.toNat_of_nonneg (by omega)]
    congr 2; ring_nf
  · rw [Int.toNat_of_nonpos (by omega)]
    simp [Finset.Ico_eq_empty_of_le h.le]

theorem Ico_union_Ico_eq_erase {k0 k1 k : ℤ} (h0 : k0 ≤ k) (h1 : k ≤ k1) :
    Finset.Ico k0 k ∪ Finset.Ico (k + 1) (k1 + 1) = (Finset.Icc k0 k1).erase k := by
  ext m
  simp only [Finset.mem_union, Finset.mem_Ico, Finset.mem_erase, Finset.mem_Icc]
  omega

theorem Ico_disjoint_Ico (k0 k1 k : ℤ) :
    Disjoint (Finset.Ico k0 k) (Finset.Ico (k + 1) (k1 + 1)) := by
  rw [Finset.disjoint_left]
  intro m hm hm2
  simp only [Finset.mem_Ico] at hm hm2
  omega

theorem fullProd_eq (x : K) {k0 k1 k : ℤ} (h0 : k0 ≤ k) (h1 : k ≤ k1) :
    fullProd x k0 k1 k = ∏ m in (Finset.Icc k0 k1).erase k, (x - (m : K)) := by
  unfold fullProd
  rw [mulRange_eq, mulRange_eq, one_mul, ← Ico_union_Ico_eq_erase h0 h1,
    Finset.prod_union (Ico_disjoint_Ico k0 k1 k)]

theorem denomEntry_eq {k0 k1 k : ℤ} (h0 : k0 ≤ k) (h1 : k ≤ k1) :
    (denomEntry k0 k1 k : K) = ∏ m in (Finset.Icc k0 k1).erase k, ((k : K) - (m : K)) := by
  unfold denomEntry
  rw [mulRangeInt_eq, mulRangeInt_eq, one_mul, ← Ico_union_Ico_eq_erase h0 h1,
    Finset.prod_union (Ico_disjoint_Ico k0 k1 k)]

theorem fillLoop_apply (k0 k1 : ℤ) (n : ℕ) (k p : ℤ) (denom : ℤ → K) (i : ℤ) :
    fillLoop k0 k1 n k p denom i
      = if p ≤ i ∧ i < p + (n : ℤ) then denomEntry k0 k1 (k + (i - p)) else denom i := by
  induction n generalizing k p denom with
  | zero =>
    rw [fillLoop, if_neg]
    push_cast
    omega
  | succ n ih =>
    rw [fillLoop, ih]
    by_cases h1 : p + 1 ≤ i ∧ i < p + 1 + (n : ℤ)
    · rw [if_pos h1, if_pos (by push_cast; omega)]
      congr 1; ring
    · rw [if_neg h1]
      by_cases h2 : i = p
      · subst h2
        rw [Function.update_same, if_pos (by push_cast; omega)]
        congr 1; ring
      · rw [Function.update_noteq h2, if_neg (by push_cast; omega)]

theorem fillDenom_apply (k0 k1 : ℤ) (denom : ℤ → K) {i : ℤ} (h0 : 0 ≤ i) (h1 : i ≤ k1 - k0) :
    fillDenom k0 k1 denom i = denomEntry k0 k1 (k0 + i) := by
  unfold fillDenom
  rw [fillLoop_apply, if_pos ⟨h0, by rw [Int.toNat_of_nonneg (by omega)]; omega⟩, sub_zero]

/-! ## Cache consistency -/

theorem polyCache_init_valid : (PolyCache.init : PolyCache K).Valid :=
  fun h => absurd rfl h

theorem spanCache_init_valid : SpanCache.init.Valid :=
  fun h => absurd rfl h

theorem polyCache_refresh_oq (s : PolyCache K) (q : ℤ) : (s.refresh q).oq = q := by
  unfold PolyCache.refresh
  split_ifs with h
  · rfl
  · exact (not_not.mp h).symm

theorem spanCache_refresh_oq (s : SpanCache) (q : ℤ) : (s.refresh q).oq = q := by
  unfold SpanCache.refresh
  split_ifs with h
  · rfl
  · exact (not_not.mp h).symm

theorem polyCache_refresh_valid {s : PolyCache K} (hs : s.Valid) (q : ℤ) :
    (s.refresh q).Valid := by
  unfold PolyCache.refresh
  split_ifs with h
  · intro _
    exact ⟨rfl, rfl, fun i h0 h1 => fillDenom_apply _ _ _ h0 h1⟩
  · exact hs

theorem spanCache_refresh_valid {s : SpanCache} (hs : s.Valid) (q : ℤ) :
    (s.refresh q).Valid := by
  unfold SpanCache.refresh
  split_ifs with h
  · intro _
    exact ⟨rfl, rfl⟩
  · exact hs

theorem polyCache_refresh_spec {s : PolyCache K} (hs : s.Valid) {q : ℤ} (hq : 1 ≤ q) :
    (s.refresh q).k0 = spanLo q ∧ (s.refresh q).k1 = spanHi q ∧
      ∀ i : ℤ, 0 ≤ i → i ≤ spanHi q - spanLo q →
        (s.refresh q).denom i = denomEntry (spanLo q) (spanHi q) (spanLo q + i) := by
  have hv := polyCache_refresh_valid hs q
  have hoq := polyCache_refresh_oq s q
  obtain ⟨h0, h1, h2⟩ := hv (by rw [hoq]; omega)
  rw [hoq] at h0 h1
  refine ⟨h0, h1, fun i hi0 hi1 => ?_⟩
  have := h2 i hi0 (by rw [h0, h1]; exact hi1)
  rw [h0, h1] at this
  exact this

theorem spanCache_refresh_spec {s : SpanCache} (hs : s.Valid) {q : ℤ} (hq : 1 ≤ q) :
    (s.refresh q).k0 = spanLo q ∧ (s.refresh q).k1 = spanHi q := by
  have hv := spanCache_refresh_valid hs q
  have hoq := spanCache_refresh_oq s q
  have := hv (by rw [hoq]; omega)
  rwa [hoq] at this

/-! ## The product recurrence and the store loops -/

theorem mul_fullProd (x : K) {k0 k1 k : ℤ} (h0 : k0 ≤ k) (h1 : k ≤ k1) :
    (x - (k : K)) * fullProd x k0 k1 k = ∏ m in Finset.Icc k0 k1, (x - (m : K)) := by
  rw [fullProd_eq x h0 h1]
  exact Finset.mul_prod_erase (Finset.Icc k0 k1) (fun m : ℤ => x - (m : K))
    (Finset.mem_Icc.mpr ⟨h0, h1⟩)

theorem fullProd_succ (x : K) {k0 k1 k : ℤ} (h0 : k0 ≤ k) (h1 : k < k1)
    (hx : x - ((k + 1 : ℤ) : K) ≠ 0) :
    fullProd x k0 k1 k * (x - ((k + 1 : ℤ) : K) + 1) / (x - ((k + 1 : ℤ) : K))
      = fullProd x k0 k1 (k + 1) := by
  have e1 := mul_fullProd x h0 h1.le
  have e2 := mul_fullProd x (k := k + 1) (by omega : k0 ≤ k + 1) (by omega : k + 1 ≤ k1)
  rw [div_eq_iff hx]
  push_cast at e2 ⊢
  linear_combination e1 - e2

theorem polyLoop_eq (x : K) (denom : ℤ → K) (k0 k1 : ℤ) (n : ℕ) (k p : ℤ)
    (h0 : k0 ≤ k) (h1 : k + (n : ℤ) ≤ k1)
    (hx : ∀ j : ℤ, k < j → j ≤ k + (n : ℤ) → x - (j : K) ≠ 0) :
    polyLoop x denom n k (fullProd x k0 k1 k) p
      = (List.range n).map
          (fun j : ℕ => fullProd x k0 k1 (k + 1 + (j : ℤ)) / denom (p + (j : ℤ))) := by
  induction n generalizing k p with
  | zero => simp [polyLoop]
  | succ n ih =>
    have hk : x - ((k + 1 : ℤ) : K) ≠ 0 := hx (k + 1) (by omega) (by push_cast; omega)
    rw [polyLoop, fullProd_succ x h0 (by push_cast at h1; omega) hk,
      ih (k + 1) (p + 1) (by omega) (by push_cast at h1; omega)
        (fun j hj1 hj2 => hx j (by omega) (by push_cast; omega)),
      List.range_succ_eq_map, List.map_cons, List.map_map]
    simp only [Nat.cast_zero, add_zero, List.cons.injEq, true_and]
    apply List.map_congr_left
    intro j _
    simp only [Function.comp_apply, Nat.cast_succ]
    congr 2 <;> ring

theorem polyStores_eq (x : K) (denom : ℤ → K) (k0 k1 : ℤ) (n : ℕ) (k p : ℤ)
    (h0 : k0 ≤ k) (h1 : k + (n : ℤ) ≤ k1)
    (hx : ∀ j : ℤ, k < j → j ≤ k + (n : ℤ) → x - (j : K) ≠ 0) :
    (fullProd x k0 k1 k / denom p) :: polyLoop x denom n k (fullProd x k0 k1 k) (p + 1)
      = (List.range (n + 1)).map
          (fun j : ℕ => fullProd x k0 k1 (k + (j : ℤ)) / denom (p + (j : ℤ))) := by
  rw [polyLoop_eq x denom k0 k1 n k (p + 1) h0 h1 hx, List.range_succ_eq_map, List.map_cons,
    List.map_map]
  simp only [Nat.cast_zero, add_zero, List.cons.injEq, true_and]
  apply List.map_congr_left
  intro j _
  simp only [Function.comp_apply, Nat.cast_succ]
  congr 2 <;> ring

theorem polyLoop_length (x : K) (denom : ℤ → K) (n : ℕ) (k : ℤ) (num : K) (p : ℤ) :
    (polyLoop x denom n k num p).length = n := by
  induction n generalizing k num p with
  | zero => rfl
  | succ n ih => rw [polyLoop, List.length_cons, ih]

theorem polyGradLoop_eq (x dx : K) (denom : ℤ → K) (k0 k1 : ℤ) (n : ℕ) (k p : ℤ)
    (h0 : k0 ≤ k) (h1 : k + (n : ℤ) ≤ k1)
    (hx : ∀ j : ℤ, k < j → j ≤ k + (n : ℤ) → x - (j : K) ≠ 0)
    (hdx : ∀ j : ℤ, k < j → j ≤ k + (n : ℤ) → dx - (j : K) ≠ 0) :
    polyGradLoop x dx denom n k (fullProd x k0 k1 k) (fullProd dx k0 k1 k) p
      = (List.range n).map (fun j : ℕ =>
          (fullProd x k0 k1 (k + 1 + (j : ℤ)) / denom (p + (j : ℤ)),
            (fullProd dx k0 k1 (k + 1 + (j : ℤ)) - fullProd x k0 k1 (k + 1 + (j : ℤ)))
              / (1 / 100000) / denom (p + (j : ℤ)))) := by
  induction n generalizing k p with
  | zero => simp [polyGradLoop]
  | succ n ih =>
    have hk : x - ((k + 1 : ℤ) : K) ≠ 0 := hx (k + 1) (by omega) (by push_cast; omega)
    have hdk : dx - ((k + 1 : ℤ) : K) ≠ 0 := hdx (k + 1) (by omega) (by push_cast; omega)
    rw [polyGradLoop, fullProd_succ x h0 (by push_cast at h1; omega) hk,
      fullProd_succ dx h0 (by push_cast at h1; omega) hdk,
      ih (k + 1) (p + 1) (by omega) (by push_cast at h1; omega)
        (fun j hj1 hj2 => hx j (by omega) (by push_cast; omega))
        (fun j hj1 hj2 => hdx j (by omega) (by push_cast; omega)),
      List.range_succ_eq_map, List.map_cons, List.map_map]
    simp only [Nat.cast_zero, add_zero, List.cons.injEq, true_and]
    apply List.map_congr_left
    intro j _
    simp only [Function.comp_apply, Nat.cast_succ]
    have e1 : k + 1 + 1 + (j : ℤ) = k + 1 + ((j : ℤ) + 1) := by ring
    have e2 : p + 1 + (j : ℤ) = p + ((j : ℤ) + 1) := by ring
    rw [e1, e2]

theorem polyGradSlow_eq (x dx : K) (k0 k1 : ℤ) (denom : ℤ → K) (n : ℕ) (k p : ℤ) :
    polyGradSlow x dx k0 k1 denom n k p
      = (List.range n).map (fun j : ℕ =>
          (fullProd x k0 k1 (k + (j : ℤ)) / denom (p + (j : ℤ)),
            (fullProd dx k0 k1 (k + (j : ℤ)) - fullProd x k0 k1 (k + (j : ℤ)))
              / (1 / 100000) / denom (p + (j : ℤ)))) := by
  induction n generalizing k p with
  | zero => simp [polyGradSlow]
  | succ n ih =>
    rw [polyGradSlow, ih (k + 1) (p + 1), List.range_succ_eq_map, List.map_cons, List.map_map]
    simp only [Nat.cast_zero, add_zero, List.cons.injEq, true_and]
    apply List.map_congr_left
    intro j _
    simp only [Function.comp_apply, Nat.cast_succ]
    have e1 : k + 1 + (j : ℤ) = k + ((j : ℤ) + 1) := by ring
    have e2 : p + 1 + (j : ℤ) = p + ((j : ℤ) + 1) := by ring
    rw [e1, e2]

theorem polyGradStores_eq (s : PolyCache K) (x : K) (k p tpend : ℤ) (ht : 0 < tpend)
    (h0 : s.k0 ≤ k) (h1 : k + tpend ≤ s.k1)
    (hx : 1 / 10000 < |x| → ∀ j : ℤ, k < j → j ≤ k + tpend →
      x - (j : K) ≠ 0 ∧ x + 1 / 100000 - (j : K) ≠ 0) :
    polyGradStores s x k p tpend
      = (List.range (tpend.toNat + 1)).map (fun j : ℕ =>
          (fullProd x s.k0 s.k1 (k + (j : ℤ)) / s.denom (p + (j : ℤ)),
            (fullProd (x + 1 / 100000) s.k0 s.k1 (k + (j : ℤ))
                - fullProd x s.k0 s.k1 (k + (j : ℤ)))
              / (1 / 100000) / s.denom (p + (j : ℤ)))) := by
  unfold polyGradStores
  rw [if_pos ht]
  have hn : ((tpend.toNat : ℕ) : ℤ) = tpend := Int.toNat_of_nonneg ht.le
  split_ifs with hfast
  · rw [polyGradLoop_eq x (x + 1 / 100000) s.denom s.k0 s.k1 tpend.toNat k (p + 1) h0
      (by rw [hn]; exact h1)
      (fun j hj1 hj2 => (hx hfast j hj1 (by rw [hn] at hj2; exact hj2)).1)
      (fun j hj1 hj2 => (hx hfast j hj1 (by rw [hn] at hj2; exact hj2)).2),
      List.range_succ_eq_map, List.map_cons, List.map_map]
    simp only [Nat.cast_zero, add_zero, List.cons.injEq, true_and]
    apply List.map_congr_left
    intro j _
    simp only [Function.comp_apply, Nat.cast_succ]
    have e1 : k + 1 + (j : ℤ) = k + ((j : ℤ) + 1) := by ring
    have e2 : p + 1 + (j : ℤ) = p + ((j : ℤ) + 1) := by ring
    rw [e1, e2]
  · rw [polyGradSlow_eq]
    have : (tpend + 1).toNat = tpend.toNat + 1 := by omega
    rw [this]

theorem polyGradLoop_length (x dx : K) (denom : ℤ → K) (n : ℕ) (k : ℤ) (num dnum : K)
    (p : ℤ) : (polyGradLoop x dx denom n k num dnum p).length = n := by
  induction n generalizing k num dnum p with
  | zero => rfl
  | succ n ih => rw [polyGradLoop, List.length_cons, ih]

theorem polyGradSlow_length (x dx : K) (k0 k1 : ℤ) (denom : ℤ → K) (n : ℕ) (k p : ℤ) :
    (polyGradSlow x dx k0 k1 denom n k p).length = n := by
  induction n generalizing k p with
  | zero => rfl
  | succ n ih => rw [polyGradSlow, List.length_cons, ih]

theorem polyGradStores_length (s : PolyCache K) (x : K) (k p tpend : ℤ) :
    (polyGradStores s x k p tpend).length = if 0 < tpend then tpend.toNat + 1 else 0 := by
  unfold polyGradStores
  split_ifs with ht hf
  · rw [List.length_cons, polyGradLoop_length]
  · rw [polyGradSlow_length]
    omega
  · rfl

theorem int_eq_zero_of_bounds {j : ℤ} (h1 : -(1 : K) < (j : K)) (h2 : (j : K) < 1) : j = 0 := by
  have a : (-1 : ℤ) < j := by exact_mod_cast h1
  have b : j < (1 : ℤ) := by exact_mod_cast h2
  omega

theorem sub_int_ne_zero_of_fast {x : K} (hb1 : -(1 / 2) ≤ x) (hb2 : x < 1)
    (hf : 1 / 10000 < |x|) (j : ℤ) : x - (j : K) ≠ 0 := by
  intro h
  have hxj : x = (j : K) := by linear_combination h
  have hj : j = 0 := int_eq_zero_of_bounds (K := K) (by rw [← hxj]; linarith) (by rw [← hxj]; exact hb2)
  rw [hxj, hj, Int.cast_zero, abs_zero] at hf
  norm_num at hf

theorem step_sub_int_ne_zero_of_fast {x : K} (hb1 : -(1 / 2) ≤ x) (hb2 : x < 1)
    (hf : 1 / 10000 < |x|) (hx1 : x ≠ 99999 / 100000) (j : ℤ) :
    x + 1 / 100000 - (j : K) ≠ 0 := by
  intro h
  have hxj : x = (j : K) - 1 / 100000 := by linear_combination h
  have a : (-1 : ℤ) < j := by
    have : (-1 : K) < (j : K) := by linarith
    exact_mod_cast this
  have b : j < (2 : ℤ) := by
    have : (j : K) < 2 := by linarith
    exact_mod_cast this
  have hj : j = 0 ∨ j = 1 := by omega
  rcases hj with hj | hj
  · rw [hxj, hj, Int.cast_zero, zero_sub, abs_neg, abs_of_pos (by norm_num)] at hf
    norm_num at hf
  · apply hx1
    rw [hxj, hj, Int.cast_one]
    norm_num

/-! ## The Lagrange weight of the specification -/

theorem lagrangeWeight_eq (x : K) {k0 k1 k : ℤ} (h0 : k0 ≤ k) (h1 : k ≤ k1) :
    lagrangeWeight k0 k1 k x = fullProd x k0 k1 k / denomEntry k0 k1 k := by
  unfold lagrangeWeight
  rw [fullProd_eq x h0 h1, denomEntry_eq h0 h1]

theorem lagrangeWeight_eq_eval_basis (k0 k1 k : ℤ) (x : K) :
    lagrangeWeight k0 k1 k x
      = Polynomial.eval x (Lagrange.basis (Finset.Icc k0 k1) (fun m : ℤ => (m : K)) k) := by
  unfold lagrangeWeight Lagrange.basis Lagrange.basisDivisor
  rw [Polynomial.eval_prod, div_eq_mul_inv, ← Finset.prod_inv_distrib, ← Finset.prod_mul_distrib]
  apply Finset.prod_congr rfl
  intro m _
  simp only [Polynomial.eval_mul, Polynomial.eval_C, Polynomial.eval_sub, Polynomial.eval_X]
  ring

theorem lagrangeWeight_sum (k0 k1 : ℤ) (h : k0 ≤ k1) (x : K) :
    ∑ k in Finset.Icc k0 k1, lagrangeWeight k0 k1 k x = 1 := by
  have hinj : Set.InjOn (fun m : ℤ => (m : K)) (Finset.Icc k0 k1 : Finset ℤ) :=
    fun a _ b _ hab => Int.cast_injective hab
  have hs := Lagrange.sum_basis hinj (Finset.nonempty_Icc.mpr h)
  have := congrArg (Polynomial.eval x) hs
  rw [Polynomial.eval_finset_sum, Polynomial.eval_one] at this
  rw [← this]
  exact Finset.sum_congr rfl (fun k _ => lagrangeWeight_eq_eval_basis k0 k1 k x)

theorem lagrangeWeight_intCast {k0 k1 k j : ℤ} (hk0 : k0 ≤ k) (hk1 : k ≤ k1) (hj0 : k0 ≤ j)
    (hj1 : j ≤ k1) : lagrangeWeight k0 k1 k (j : K) = if k = j then 1 else 0 := by
  have hinj : Set.InjOn (fun m : ℤ => (m : K)) (Finset.Icc k0 k1 : Finset ℤ) :=
    fun a _ b _ hab => Int.cast_injective hab
  rw [lagrangeWeight_eq_eval_basis]
  split_ifs with h
  · subst h
    exact Lagrange.eval_basis_self (v := fun m : ℤ => (m : K)) hinj
      (Finset.mem_Icc.mpr ⟨hk0, hk1⟩)
  · exact Lagrange.eval_basis_of_ne (v := fun m : ℤ => (m : K)) h
      (Finset.mem_Icc.mpr ⟨hj0, hj1⟩)

theorem sum_map_range_eq_sum_Icc (f : ℤ → K) (lo : ℤ) (n : ℕ) :
    ((List.range (n + 1)).map (fun j : ℕ => f (lo + (j : ℤ)))).sum
      = ∑ k in Finset.Icc lo (lo + (n : ℤ)), f k := by
  induction n with
  | zero => simp [List.range_succ]
  | succ n ih =>
    rw [List.range_succ, List.map_append, List.sum_append, ih]
    have : Finset.Icc lo (lo + ((n + 1 : ℕ) : ℤ))
        = insert (lo + ((n + 1 : ℕ) : ℤ)) (Finset.Icc lo (lo + (n : ℤ))) := by
      ext m
      simp only [Finset.mem_Icc, Finset.mem_insert]
      push_cast
      omega
    rw [this, Finset.sum_insert (by simp)]
    simp only [List.map_cons, List.map_nil, List.sum_cons, List.sum_nil, add_zero]
    ring

/-! ## Sums of stored lists -/

theorem foldl_add_eq_sum (l : List K) : l.foldl (fun sm w => sm + w) 0 = l.sum := by
  rw [List.sum_eq_foldl]

theorem foldl_add_fst_eq_sum (l : List (K × K)) :
    l.foldl (fun sm w => sm + w.1) 0 = (l.map Prod.fst).sum := by
  rw [List.sum_eq_foldl, List.foldl_map]

theorem sum_map_div_self (l : List K) (h : l.sum ≠ 0) :
    (l.map (fun w => w / l.sum)).sum = 1 := by
  have : (l.map (fun w => w / l.sum)) = (l.map (fun w => id w * (l.sum)⁻¹)) := by
    apply List.map_congr_left
    intro w _
    rw [div_eq_mul_inv, id]
  rw [this, List.sum_map_mul_right, List.map_id, mul_inv_cancel₀ h]

theorem prod_Ico_below (k : ℤ) (n : ℕ) :
    ∏ m in Finset.Ico (k - (n : ℤ)) k, ((k : K) - (m : K)) = (n.factorial : K) := by
  induction n with
  | zero => simp
  | succ n ih =>
    have h : Finset.Ico (k - ((n + 1 : ℕ) : ℤ)) k
        = insert (k - ((n + 1 : ℕ) : ℤ)) (Finset.Ico (k - (n : ℤ)) k) := by
      ext m
      simp only [Finset.mem_Ico, Finset.mem_insert]
      push_cast
      omega
    rw [h, Finset.prod_insert (by simp only [Finset.mem_Ico]; push_cast; omega), ih,
      Nat.factorial_succ]
    push_cast
    ring

theorem prod_Ico_above (k : ℤ) (n : ℕ) :
    ∏ m in Finset.Ico (k + 1) (k + 1 + (n : ℤ)), ((k : K) - (m : K))
      = (-1) ^ n * (n.factorial : K) := by
  induction n with
  | zero => simp
  | succ n ih =>
    have h : Finset.Ico (k + 1) (k + 1 + ((n + 1 : ℕ) : ℤ))
        = insert (k + 1 + (n : ℤ)) (Finset.Ico (k + 1) (k + 1 + (n : ℤ))) := by
      ext m
      simp only [Finset.mem_Ico, Finset.mem_insert]
      push_cast
      omega
    rw [h, Finset.prod_insert (by simp only [Finset.mem_Ico]; omega), ih, Nat.factorial_succ,
      pow_succ]
    push_cast
    ring

theorem denomEntry_closed_form {k0 k1 k : ℤ} (h0 : k0 ≤ k) (h1 : k ≤ k1) :
    (denomEntry k0 k1 k : K) = ((denomClosedForm k0 k1 k : ℤ) : K) := by
  unfold denomEntry denomClosedForm
  rw [mulRangeInt_eq, mulRangeInt_eq, one_mul]
  have ha := prod_Ico_below (K := K) k (k - k0).toNat
  have hb := prod_Ico_above (K := K) k (k1 - k).toNat
  rw [Int.toNat_of_nonneg (by omega)] at ha hb
  have e1 : k - (k - k0) = k0 := by ring
  have e2 : k + 1 + (k1 - k) = k1 + 1 := by ring
  rw [e1] at ha
  rw [e2] at hb
  rw [ha, hb]
  push_cast
  ring

theorem denomClosedForm_ne_zero (k0 k1 k : ℤ) : denomClosedForm k0 k1 k ≠ 0 := by
  unfold denomClosedForm
  have h1 : ((k - k0).toNat.factorial : ℤ) ≠ 0 := by exact_mod_cast Nat.factorial_ne_zero _
  have h2 : ((k1 - k).toNat.factorial : ℤ) ≠ 0 := by exact_mod_cast Nat.factorial_ne_zero _
  have h3 : ((-1 : ℤ)) ^ (k1 - k).toNat ≠ 0 := pow_ne_zero _ (by norm_num)
  exact mul_ne_zero (mul_ne_zero h3 h1) h2

theorem polyGradLoop_fst (x dx : K) (denom : ℤ → K) (n : ℕ) (k : ℤ) (num dnum : K) (p : ℤ) :
    (polyGradLoop x dx denom n k num dnum p).map Prod.fst = polyLoop x denom n k num p := by
  induction n generalizing k num dnum p with
  | zero => rfl
  | succ n ih => rw [polyGradLoop, polyLoop, List.map_cons, ih]

theorem polyGradStores_fst (s : PolyCache K) (x : K) (k p tpend : ℤ) (ht : 0 < tpend)
    (h0 : s.k0 ≤ k) (h1 : k + tpend ≤ s.k1) (hx : ∀ j : ℤ, x - (j : K) ≠ 0) :
    (polyGradStores s x k p tpend).map Prod.fst
      = (List.range (tpend.toNat + 1)).map (fun j : ℕ =>
          fullProd x s.k0 s.k1 (k + (j : ℤ)) / s.denom (p + (j : ℤ))) := by
  have hn : ((tpend.toNat : ℕ) : ℤ) = tpend := Int.toNat_of_nonneg ht.le
  unfold polyGradStores
  rw [if_pos ht]
  split_ifs with hfast
  · rw [List.map_cons, polyGradLoop_fst]
    exact polyStores_eq x s.denom s.k0 s.k1 tpend.toNat k p h0 (by rw [hn]; exact h1)
      (fun j _ _ => hx j)
  · rw [polyGradSlow_eq, List.map_map]
    have : (tpend + 1).toNat = tpend.toNat + 1 := by omega
    rw [this]
    rfl

theorem sincGradLoop_fst (sin cos : K → K) (coord : K) (q : ℤ)
    (hfar : ∀ d : ℤ, 1 / 1000000000000 < |coord - (d : K)|) (n : ℕ) (d : ℤ) :
    (sincGradLoop sin cos coord q n d).map Prod.fst = sincLoop sin cos coord q n d := by
  induction n generalizing d with
  | zero => rfl
  | succ n ih =>
    rw [sincGradLoop, sincLoop, List.map_cons, ih]
    simp only [sincGradWeight, if_pos (hfar d)]

theorem lagrangeWeight_reflect (k0 k1 k : ℤ) (x : K) :
    lagrangeWeight k0 k1 (k0 + k1 - k) (((k0 + k1 : ℤ) : K) - x) = lagrangeWeight k0 k1 k x := by
  unfold lagrangeWeight
  rw [← Finset.prod_div_distrib, ← Finset.prod_div_distrib]
  refine Finset.prod_nbij' (fun m => k0 + k1 - m) (fun m => k0 + k1 - m) ?_ ?_ ?_ ?_ ?_
  · intro m hm
    simp only [Finset.mem_erase, Finset.mem_Icc] at hm ⊢
    omega
  · intro m hm
    simp only [Finset.mem_erase, Finset.mem_Icc] at hm ⊢
    omega
  · intro m _
    ring
  · intro m _
    ring
  · intro m _
    rw [← neg_div_neg_eq]
    congr 1
    · push_cast
      ring
    · push_cast
      ring

theorem polyLoopReads_length (n : ℕ) (tp p : ℤ) : (polyLoopReads n tp p).length = n := by
  induction n generalizing tp p with
  | zero => rfl
  | succ n ih => rw [polyLoopReads, List.length_cons, ih]

theorem polyGradLoopReads_length (n : ℕ) (tp p : ℤ) :
    (polyGradLoopReads n tp p).length = 2 * n := by
  induction n generalizing tp p with
  | zero => rfl
  | succ n ih =>
    rw [polyGradLoopReads, List.length_cons, List.length_cons, ih]
    ring

variable [FloorRing K]

/-! ## Rounding and the anchor -/

theorem rint_cases (x : K) :
    (Int.fract x < 1 / 2 ∧ rint x = ⌊x⌋) ∨ (1 / 2 < Int.fract x ∧ rint x = ⌊x⌋ + 1) ∨
      (Int.fract x = 1 / 2 ∧ (rint x = ⌊x⌋ ∨ rint x = ⌊x⌋ + 1)) := by
  unfold rint
  have hf : x - (⌊x⌋ : K) = Int.fract x := rfl
  rw [hf]
  rcases lt_trichotomy (Int.fract x) (1 / 2) with h | h | h
  · left
    exact ⟨h, if_pos h⟩
  · right; right
    refine ⟨h, ?_⟩
    rw [if_neg (by rw [h]; exact lt_irrefl _), if_neg (by rw [h]; exact lt_irrefl _)]
    split_ifs
    · left; rfl
    · right; rfl
  · right; left
    exact ⟨h, by rw [if_neg (not_lt.mpr h.le), if_pos h]⟩

theorem abs_sub_rint (x : K) :
    |x - (rint x : K)| = min (Int.fract x) (1 - Int.fract x) := by
  have h0 := Int.fract_nonneg x
  have h1 := Int.fract_lt_one x
  have hx : x = (⌊x⌋ : K) + Int.fract x := (Int.floor_add_fract x).symm
  rcases rint_cases x with ⟨h, e⟩ | ⟨h, e⟩ | ⟨h, e | e⟩
  · rw [e, min_eq_left (by linarith), abs_of_nonneg (by linarith)]
    linarith
  · rw [e, min_eq_right (by linarith), abs_of_nonpos (by push_cast; linarith)]
    push_cast; linarith
  · rw [e, min_eq_left (by linarith), abs_of_nonneg (by linarith)]
    linarith
  · rw [e, min_eq_right (by linarith), abs_of_nonpos (by push_cast; linarith)]
    push_cast; linarith

theorem nearInteger_iff_round (x : K) :
    nearInteger x ↔ |x - (round x : K)| < 1 / 100000 := by
  unfold nearInteger
  rw [abs_sub_rint, abs_sub_round_eq_min]

theorem rint_eq_round_of_nearInteger {x : K} (h : nearInteger x) : rint x = round x := by
  unfold nearInteger at h
  rw [abs_sub_rint] at h
  have h0 := Int.fract_nonneg x
  have h1 := Int.fract_lt_one x
  have hx : x = (⌊x⌋ : K) + Int.fract x := (Int.floor_add_fract x).symm
  rw [round_eq]
  rcases rint_cases x with ⟨hf, e⟩ | ⟨hf, e⟩ | ⟨hf, _⟩
  · rw [e]
    symm
    rw [Int.floor_eq_iff]
    constructor <;> linarith
  · rw [e]
    symm
    rw [Int.floor_eq_iff]
    push_cast
    constructor <;> linarith
  · exfalso
    rw [hf] at h
    norm_num at h

theorem rint_intCast (n : ℤ) : rint (n : K) = n := by
  rcases rint_cases (n : K) with ⟨_, e⟩ | ⟨h, _⟩ | ⟨h, _⟩
  · rw [e, Int.floor_intCast]
  · rw [Int.fract_intCast] at h
    norm_num at h
  · rw [Int.fract_intCast] at h
    norm_num at h

theorem nearInteger_intCast (n : ℤ) : nearInteger (n : K) := by
  unfold nearInteger
  rw [rint_intCast, sub_self, abs_zero]
  norm_num

theorem ne_intCast_of_not_nearInteger {x : K} (h : ¬ nearInteger x) (n : ℤ) : x ≠ (n : K) := by
  rintro rfl
  exact h (nearInteger_intCast n)

theorem rint_near_floor (coord : K) : ⌊coord⌋ ≤ rint coord ∧ rint coord ≤ ⌊coord⌋ + 1 := by
  rcases rint_cases coord with ⟨_, e⟩ | ⟨_, e⟩ | ⟨_, e | e⟩ <;> rw [e] <;> constructor <;> omega

theorem rint_mem_of_near {coord : K} (hn : nearInteger coord) {dim : ℤ}
    (hc1 : 1 / 2 ≤ coord) (hc2 : coord ≤ (dim : K) + 1 / 2) :
    1 ≤ rint coord ∧ rint coord ≤ dim := by
  unfold nearInteger at hn
  rw [abs_lt] at hn
  constructor
  · by_contra h
    have h' : rint coord ≤ 0 := by omega
    have : (rint coord : K) ≤ 0 := by exact_mod_cast h'
    linarith [hn.1, hn.2]
  · by_contra h
    have h' : dim + 1 ≤ rint coord := by omega
    have : (dim : K) + 1 ≤ (rint coord : K) := by exact_mod_cast h'
    linarith [hn.1, hn.2]

theorem anchor_bounds (coord : K) (q : ℤ) :
    -(1 / 2) ≤ coord - (anchor coord q : K) ∧ coord - (anchor coord q : K) < 1 := by
  unfold anchor
  split_ifs
  · have h1 := Int.floor_le (coord + 1 / 2)
    have h2 := Int.lt_floor_add_one (coord + 1 / 2)
    constructor <;> linarith
  · have h1 := Int.floor_le coord
    have h2 := Int.lt_floor_add_one coord
    constructor <;> linarith

theorem anchor_near_floor (coord : K) (q : ℤ) :
    ⌊coord⌋ ≤ anchor coord q ∧ anchor coord q ≤ ⌊coord⌋ + 1 := by
  unfold anchor
  split_ifs
  · constructor
    · exact Int.floor_le_floor (by linarith)
    · rw [← Int.floor_add_one]
      exact Int.floor_le_floor (by linarith)
  · constructor <;> omega

theorem anchor_even {q : ℤ} (hq : 1 ≤ q) (he : q % 2 = 0) (coord : K) :
    anchor coord q = ⌊coord⌋ := by
  unfold anchor
  rw [Int.tmod_eq_emod (by omega) (by norm_num), if_neg (by omega)]

/-- The anchor of an integer coordinate is that integer, for odd and even `q`. -/
theorem anchor_intCast (c q : ℤ) : anchor (c : K) q = c := by
  unfold anchor
  split_ifs
  · rw [Int.floor_eq_iff]
    constructor <;> norm_num
  · exact Int.floor_intCast c

/-! ## Shape of the results -/

theorem polyBody_near (s : PolyCache K) {coord : K} (h : nearInteger coord) (q dim : ℤ) :
    polyBody s coord q dim =
      if rint coord < 1 ∨ rint coord > dim then ⟨rint coord, -1, [], []⟩
      else ⟨rint coord, 0, [1], []⟩ := by
  unfold polyBody
  rw [if_pos h]

theorem polyBody_far (s : PolyCache K) {coord : K} (hn : ¬ nearInteger coord) (q dim : ℤ) :
    (polyBody s coord q dim).d1
        = anchor coord q + s.k0 + max 0 (1 - (anchor coord q + s.k0)) ∧
      (polyBody s coord q dim).d1 = max 1 (anchor coord q + s.k0) ∧
      (polyBody s coord q dim).d1 + (polyBody s coord q dim).tpend
        = min dim (anchor coord q + s.k1) ∧
      (0 < (polyBody s coord q dim).tpend →
        (polyBody s coord q dim).table
          = (List.range ((polyBody s coord q dim).tpend.toNat + 1)).map (fun j : ℕ =>
              fullProd (coord - (anchor coord q : K)) s.k0 s.k1
                  (s.k0 + max 0 (1 - (anchor coord q + s.k0)) + (j : ℤ))
                / s.denom (max 0 (1 - (anchor coord q + s.k0)) + (j : ℤ)))) ∧
      (¬ 0 < (polyBody s coord q dim).tpend → (polyBody s coord q dim).table = []) := by
  have hx : ∀ j : ℤ, coord - (anchor coord q : K) - (j : K) ≠ 0 := by
    intro j hj
    apply ne_intCast_of_not_nearInteger hn (anchor coord q + j)
    push_cast
    linear_combination hj
  unfold polyBody
  rw [if_neg hn]
  simp only
  by_cases h1 : anchor coord q + s.k0 ≥ 1
  · have hp : max 0 (1 - (anchor coord q + s.k0)) = 0 := max_eq_left (by omega)
    rw [hp]
    simp only [if_pos h1, add_zero]
    refine ⟨by split_ifs <;> rfl, by split_ifs <;> simp only <;> omega,
      by split_ifs <;> simp only <;> omega, ?_, ?_⟩
    · intro ht
      split_ifs at ht ⊢ with h2 h3 h3
      all_goals first
        | (exfalso; simp only at ht; omega)
        | (simp only
           rw [polyStores_eq _ _ s.k0 s.k1 _ _ _ le_rfl
             (by rw [Int.toNat_of_nonneg (by omega)]; omega) (fun j _ _ => hx j)])
    · intro ht
      split_ifs at ht ⊢ with h2 h3 h3
      all_goals first
        | rfl
        | (exfalso; simp only at ht; omega)
  · have hp : max 0 (1 - (anchor coord q + s.k0)) = 1 - (anchor coord q + s.k0) :=
      max_eq_right (by omega)
    rw [hp]
    simp only [if_neg h1]
    refine ⟨by split_ifs <;> simp only <;> omega, by split_ifs <;> simp only <;> omega,
      by split_ifs <;> simp only <;> omega, ?_, ?_⟩
    · intro ht
      split_ifs at ht ⊢ with h2 h3 h3
      all_goals first
        | (exfalso; simp only at ht; omega)
        | (simp only
           rw [polyStores_eq _ _ s.k0 s.k1 _ _ _ (by omega)
             (by rw [Int.toNat_of_nonneg (by omega)]; omega) (fun j _ _ => hx j)]
           apply List.map_congr_left
           intro j _
           congr 2
           ring)
    · intro ht
      split_ifs at ht ⊢ with h2 h3 h3
      all_goals first
        | rfl
        | (exfalso; simp only at ht; omega)

theorem polyGradBody_span (s : PolyCache K) (coord : K) (q dim : ℤ) :
    (polyGradBody s coord q dim).d1 = max 1 (anchor coord q + s.k0) ∧
    (polyGradBody s coord q dim).d1 + (polyGradBody s coord q dim).tpend
      = min dim (anchor coord q + s.k1) := by
  unfold polyGradBody
  simp only
  constructor
  · split_ifs <;> omega
  · split_ifs <;> omega

theorem polyGradBody_stores (s : PolyCache K) (coord : K) (q dim : ℤ)
    (hx1 : coord - (anchor coord q : K) ≠ 99999 / 100000)
    (ht : 0 < (polyGradBody s coord q dim).tpend) :
    (polyGradBody s coord q dim).table
      = (List.range ((polyGradBody s coord q dim).tpend.toNat + 1)).map (fun j : ℕ =>
          fullProd (coord - (anchor coord q : K)) s.k0 s.k1
              (s.k0 + max 0 (1 - (anchor coord q + s.k0)) + (j : ℤ))
            / s.denom (max 0 (1 - (anchor coord q + s.k0)) + (j : ℤ))) ∧
    (polyGradBody s coord q dim).dtable
      = (List.range ((polyGradBody s coord q dim).tpend.toNat + 1)).map (fun j : ℕ =>
          (fullProd (coord - (anchor coord q : K) + 1 / 100000) s.k0 s.k1
                (s.k0 + max 0 (1 - (anchor coord q + s.k0)) + (j : ℤ))
              - fullProd (coord - (anchor coord q : K)) s.k0 s.k1
                (s.k0 + max 0 (1 - (anchor coord q + s.k0)) + (j : ℤ)))
            / (1 / 100000) / s.denom (max 0 (1 - (anchor coord q + s.k0)) + (j : ℤ))) := by
  obtain ⟨hb1, hb2⟩ := anchor_bounds coord q
  obtain ⟨e1, e2⟩ := polyGradBody_span s coord q dim
  have hk : (if anchor coord q + s.k0 ≥ 1 then s.k0 else s.k0 + 1 - (anchor coord q + s.k0))
      = s.k0 + max 0 (1 - (anchor coord q + s.k0)) := by
    split_ifs with h
    · rw [max_eq_left (by omega)]; ring
    · rw [max_eq_right (by omega)]; ring
  have hp : (if anchor coord q + s.k0 ≥ 1 then (0 : ℤ) else 1 - (anchor coord q + s.k0))
      = max 0 (1 - (anchor coord q + s.k0)) := by
    split_ifs with h
    · rw [max_eq_left (by omega)]
    · rw [max_eq_right (by omega)]
  have hst := polyGradStores_eq s (coord - (anchor coord q : K))
    (s.k0 + max 0 (1 - (anchor coord q + s.k0))) (max 0 (1 - (anchor coord q + s.k0)))
    (polyGradBody s coord q dim).tpend ht
    (by have := le_max_left 0 (1 - (anchor coord q + s.k0)); omega)
    (by
      have h3 := min_le_right dim (anchor coord q + s.k1)
      have h4 := le_max_right 1 (anchor coord q + s.k0)
      have h5 := le_max_left 1 (anchor coord q + s.k0)
      rcases le_total 0 (1 - (anchor coord q + s.k0)) with h | h
      · rw [max_eq_right h]
        rw [max_eq_left (by omega)] at e1
        omega
      · rw [max_eq_left h]
        rw [max_eq_right (by omega)] at e1
        omega)
    (fun hf j _ _ => ⟨sub_int_ne_zero_of_fast hb1 hb2 hf j,
      step_sub_int_ne_zero_of_fast hb1 hb2 hf hx1 j⟩)
  have hbody : polyGradBody s coord q dim
      = ⟨(polyGradBody s coord q dim).d1, (polyGradBody s coord q dim).tpend,
          (polyGradStores s (coord - (anchor coord q : K))
            (s.k0 + max 0 (1 - (anchor coord q + s.k0)))
            (max 0 (1 - (anchor coord q + s.k0)))
            (polyGradBody s coord q dim).tpend).map Prod.fst,
          (polyGradStores s (coord - (anchor coord q : K))
            (s.k0 + max 0 (1 - (anchor coord q + s.k0)))
            (max 0 (1 - (anchor coord q + s.k0)))
            (polyGradBody s coord q dim).tpend).map Prod.snd⟩ := by
    rw [← hk, ← hp]
    rfl
  constructor
  · rw [hbody]
    simp only
    rw [hst, List.map_map]
    rfl
  · rw [hbody]
    simp only
    rw [hst, List.map_map]
    rfl

theorem sincFirst_eq (s : SpanCache) (coord : K) (q : ℤ) :
    sincFirst s coord q = max 1 (anchor coord q + s.k0) := by
  unfold sincFirst
  split_ifs <;> omega

theorem sincLast_eq (s : SpanCache) (coord : K) (q dim : ℤ) :
    sincLast s coord q dim = min dim (anchor coord q + s.k1) := by
  unfold sincLast
  split_ifs <;> omega

theorem sinc_near (sin cos : K → K) (s : SpanCache) {coord : K} (h : nearInteger coord)
    (q dim : ℤ) :
    (make_lookup_sinc sin cos s coord q dim).2 =
      if rint coord < 1 ∨ rint coord > dim then ⟨rint coord, -1, [], []⟩
      else ⟨rint coord, 0, [1], []⟩ := by
  unfold make_lookup_sinc
  rw [if_pos h]
  split_ifs <;> rfl

theorem sinc_far (sin cos : K → K) (s : SpanCache) {coord : K} (hn : ¬ nearInteger coord)
    (q dim : ℤ) :
    make_lookup_sinc sin cos s coord q dim =
      (s.refresh q,
        ⟨sincFirst (s.refresh q) coord q,
          sincLast (s.refresh q) coord q dim - sincFirst (s.refresh q) coord q,
          (sincRaw sin cos s coord q dim).map (fun w => w / sincSm sin cos s coord q dim),
          []⟩) := by
  unfold make_lookup_sinc
  rw [if_neg hn]

theorem length_of_sum {F : Type*} {r : Lookup F} {a b dim : ℤ} (h1 : r.d1 = max 1 a)
    (h2 : r.d1 + r.tpend = min dim b) : r.length = max 0 (min b dim - max a 1 + 1) := by
  unfold Lookup.length
  rw [min_comm b dim, max_comm a 1, ← h1, ← h2]
  congr 1
  ring

/-- Supporting fact for C9: whenever the reported span of `make_lookup_poly_grad`
has at least two slots and `x = coord − fcoord` is not `1 − 1e-5`, every slot of
`table` holds the Lagrange weight and every slot of `dtable` its forward
difference with step `1e-5`, on the fast path and on the slow path alike. -/
theorem polyGrad_weights {s : PolyCache K} (hs : s.Valid) (coord : K) {q : ℤ} (dim : ℤ)
    (hq1 : 1 ≤ q) (hx1 : coord - (anchor coord q : K) ≠ 99999 / 100000)
    (hw : 0 < (make_lookup_poly_grad s coord q dim).2.tpend) (d : ℤ)
    (hd1 : (make_lookup_poly_grad s coord q dim).2.d1 ≤ d)
    (hd2 : d ≤ (make_lookup_poly_grad s coord q dim).2.d1
      + (make_lookup_poly_grad s coord q dim).2.tpend) :
    (make_lookup_poly_grad s coord q dim).2.table[
        (d - (make_lookup_poly_grad s coord q dim).2.d1).toNat]?
      = some (lagrangeWeight (spanLo q) (spanHi q) (d - anchor coord q)
          (coord - (anchor coord q : K))) ∧
    (make_lookup_poly_grad s coord q dim).2.dtable[
        (d - (make_lookup_poly_grad s coord q dim).2.d1).toNat]?
      = some ((lagrangeWeight (spanLo q) (spanHi q) (d - anchor coord q)
            (coord - (anchor coord q : K) + 1 / 100000)
          - lagrangeWeight (spanLo q) (spanHi q) (d - anchor coord q)
            (coord - (anchor coord q : K))) / (1 / 100000)) := by
  obtain ⟨hk0, hk1, hden⟩ := polyCache_refresh_spec hs hq1
  obtain ⟨e1, e3⟩ := polyGradBody_span (s.refresh q) coord q dim
  have hb := span_bounds hq1
  simp only [make_lookup_poly_grad] at hw hd1 hd2 ⊢
  obtain ⟨et, edt⟩ := polyGradBody_stores (s.refresh q) coord q dim hx1 hw
  rw [hk0] at e1
  rw [hk1] at e3
  have hm1 := le_max_left 0 (1 - (anchor coord q + spanLo q))
  have hm2 := min_le_right dim (anchor coord q + spanHi q)
  have hmax : max 1 (anchor coord q + spanLo q)
      = anchor coord q + spanLo q + max 0 (1 - (anchor coord q + spanLo q)) := by
    rcases le_total 0 (1 - (anchor coord q + spanLo q)) with h | h
    · rw [max_eq_right h, max_eq_left (by omega)]; ring
    · rw [max_eq_left h, max_eq_right (by omega)]; ring
  rw [hmax] at e1
  have hidx : spanLo q + max 0 (1 - (anchor coord q + spanLo q))
      + (((d - (polyGradBody (s.refresh q) coord q dim).d1).toNat : ℕ) : ℤ)
      = d - anchor coord q := by
    rw [Int.toNat_of_nonneg (by omega)]
    omega
  have hoff : max 0 (1 - (anchor coord q + spanLo q))
      + (((d - (polyGradBody (s.refresh q) coord q dim).d1).toNat : ℕ) : ℤ)
      = d - anchor coord q - spanLo q := by
    rw [Int.toNat_of_nonneg (by omega)]
    omega
  have hdk : (s.refresh q).denom (d - anchor coord q - spanLo q)
      = denomEntry (spanLo q) (spanHi q) (d - anchor coord q) := by
    rw [hden _ (by omega) (by omega)]
    congr 1
    ring
  constructor
  · rw [et, List.getElem?_map, List.getElem?_range (by omega)]
    simp only [Option.map_some']
    rw [hk0, hk1, hidx, hoff, hdk, lagrangeWeight_eq _ (by omega) (by omega)]
  · rw [edt, List.getElem?_map, List.getElem?_range (by omega)]
    simp only [Option.map_some']
    rw [hk0, hk1, hidx, hoff, hdk, lagrangeWeight_eq _ (by omega) (by omega),
      lagrangeWeight_eq _ (by omega) (by omega)]
    congr 1
    ring

/-! ## Every reachable cache is valid

The caches at program start are valid (`polyCache_init_valid`,
`spanCache_init_valid`) and every call returns a valid cache from a valid one. -/

/-- A call of `make_lookup_poly` keeps the cache valid. -/
theorem make_lookup_poly_valid {s : PolyCache K} (hs : s.Valid) (coord : K) (q dim : ℤ) :
    (make_lookup_poly s coord q dim).1.Valid :=
  polyCache_refresh_valid hs q

/-- A call of `make_lookup_poly_grad` keeps the cache valid. -/
theorem make_lookup_poly_grad_valid {s : PolyCache K} (hs : s.Valid) (coord : K)
    (q dim : ℤ) : (make_lookup_poly_grad s coord q dim).1.Valid :=
  polyCache_refresh_valid hs q

/-- A call of `make_lookup_sinc` keeps the cache valid. -/
theorem make_lookup_sinc_valid (sin cos : K → K) {s : SpanCache} (hs : s.Valid) (coord : K)
    (q dim : ℤ) : (make_lookup_sinc sin cos s coord q dim).1.Valid := by
  unfold make_lookup_sinc
  split_ifs
  · exact hs
  · exact hs
  · exact spanCache_refresh_valid hs q

/-- A call of `make_lookup_sinc_grad` keeps the cache valid. -/
theorem make_lookup_sinc_grad_valid (sin cos : K → K) {s : SpanCache} (hs : s.Valid)
    (coord : K) (q dim : ℤ) : (make_lookup_sinc_grad sin cos s coord q dim).1.Valid :=
  spanCache_refresh_valid hs q

/-! ## Binary64 rounding -/

theorem halvings_spec (fuel n : ℕ) (hf : n ≤ fuel) (hn : n ≠ 0) :
    2 ^ halvings fuel n ≤ n ∧ n < 2 ^ (halvings fuel n + 1) := by
  induction fuel generalizing n with
  | zero => omega
  | succ fuel ih =>
    rw [halvings]
    split_ifs with h
    · have h1 : n = 1 := by omega
      subst h1
      norm_num
    · obtain ⟨a, b⟩ := ih (n / 2) (by omega) (by omega)
      rw [pow_succ] at b ⊢
      rw [pow_succ (n := halvings fuel (n / 2) + 1), pow_succ]
      constructor <;> omega

theorem ilog2_spec {n : ℕ} (hn : n ≠ 0) : 2 ^ ilog2 n ≤ n ∧ n < 2 ^ (ilog2 n + 1) :=
  halvings_spec n n le_rfl hn

theorem two_zpow_pos (e : ℤ) : (0 : ℚ) < (2 : ℚ) ^ e := zpow_pos (by norm_num) e

theorem two_zpow_le {a b : ℤ} (h : a ≤ b) : (2 : ℚ) ^ a ≤ (2 : ℚ) ^ b :=
  zpow_le_zpow_right₀ (by norm_num) h

theorem two_zpow_lt {a b : ℤ} (h : a < b) : (2 : ℚ) ^ a < (2 : ℚ) ^ b :=
  zpow_lt_zpow_right₀ (by norm_num) h

theorem two_zpow_succ (e : ℤ) : (2 : ℚ) ^ (e + 1) = 2 * (2 : ℚ) ^ e := by
  rw [zpow_add₀ (by norm_num), zpow_one, mul_comm]

theorem binade_spec {y : ℚ} (hy : y ≠ 0) :
    (2 : ℚ) ^ binade y ≤ |y| ∧ |y| < (2 : ℚ) ^ (binade y + 1) := by
  have hnum : y.num.natAbs ≠ 0 := by
    rw [Int.natAbs_ne_zero]
    exact Rat.num_ne_zero.mpr hy
  obtain ⟨a1, a2⟩ := ilog2_spec hnum
  obtain ⟨b1, b2⟩ := ilog2_spec y.den_nz
  have habs : |y| = (y.num.natAbs : ℚ) / (y.den : ℚ) := by
    conv_lhs => rw [← Rat.num_div_den y]
    rw [abs_div, Nat.abs_cast, Nat.cast_natAbs, Int.cast_abs]
  have hd : (0 : ℚ) < (y.den : ℚ) := by exact_mod_cast y.den_pos
  have a1' : (2 : ℚ) ^ (ilog2 y.num.natAbs : ℤ) ≤ (y.num.natAbs : ℚ) := by
    rw [zpow_natCast]; exact_mod_cast a1
  have a2' : (y.num.natAbs : ℚ) < (2 : ℚ) ^ ((ilog2 y.num.natAbs : ℤ) + 1) := by
    have : ((ilog2 y.num.natAbs : ℤ) + 1) = ((ilog2 y.num.natAbs + 1 : ℕ) : ℤ) := by push_cast; ring
    rw [this, zpow_natCast]; exact_mod_cast a2
  have b1' : (2 : ℚ) ^ (ilog2 y.den : ℤ) ≤ (y.den : ℚ) := by
    rw [zpow_natCast]; exact_mod_cast b1
  have b2' : (y.den : ℚ) < (2 : ℚ) ^ ((ilog2 y.den : ℤ) + 1) := by
    have : ((ilog2 y.den : ℤ) + 1) = ((ilog2 y.den + 1 : ℕ) : ℤ) := by push_cast; ring
    rw [this, zpow_natCast]; exact_mod_cast b2
  have hlow : (2 : ℚ) ^ ((ilog2 y.num.natAbs : ℤ) - (ilog2 y.den : ℤ) - 1) ≤ |y| := by
    rw [habs, le_div_iff₀ hd]
    have e : (2 : ℚ) ^ ((ilog2 y.num.natAbs : ℤ) - (ilog2 y.den : ℤ) - 1)
        * (2 : ℚ) ^ ((ilog2 y.den : ℤ) + 1) = (2 : ℚ) ^ (ilog2 y.num.natAbs : ℤ) := by
      rw [← zpow_add₀ (by norm_num)]; congr 1; ring
    calc (2 : ℚ) ^ ((ilog2 y.num.natAbs : ℤ) - (ilog2 y.den : ℤ) - 1) * (y.den : ℚ)
        ≤ (2 : ℚ) ^ ((ilog2 y.num.natAbs : ℤ) - (ilog2 y.den : ℤ) - 1)
            * (2 : ℚ) ^ ((ilog2 y.den : ℤ) + 1) :=
          mul_le_mul_of_nonneg_left b2'.le (two_zpow_pos _).le
      _ = (2 : ℚ) ^ (ilog2 y.num.natAbs : ℤ) := e
      _ ≤ (y.num.natAbs : ℚ) := a1'
  have hupp : |y| < (2 : ℚ) ^ ((ilog2 y.num.natAbs : ℤ) - (ilog2 y.den : ℤ) + 1) := by
    rw [habs, div_lt_iff₀ hd]
    have e : (2 : ℚ) ^ ((ilog2 y.num.natAbs : ℤ) - (ilog2 y.den : ℤ) + 1)
        * (2 : ℚ) ^ (ilog2 y.den : ℤ) = (2 : ℚ) ^ ((ilog2 y.num.natAbs : ℤ) + 1) := by
      rw [← zpow_add₀ (by norm_num)]; congr 1; ring
    calc (y.num.natAbs : ℚ) < (2 : ℚ) ^ ((ilog2 y.num.natAbs : ℤ) + 1) := a2'
      _ = (2 : ℚ) ^ ((ilog2 y.num.natAbs : ℤ) - (ilog2 y.den : ℤ) + 1)
            * (2 : ℚ) ^ (ilog2 y.den : ℤ) := e.symm
      _ ≤ (2 : ℚ) ^ ((ilog2 y.num.natAbs : ℤ) - (ilog2 y.den : ℤ) + 1) * (y.den : ℚ) :=
          mul_le_mul_of_nonneg_left b1' (two_zpow_pos _).le
  unfold binade
  split_ifs with h
  · refine ⟨hlow, ?_⟩
    rw [sub_add_cancel]
    exact h
  · exact ⟨not_lt.mp h, hupp⟩

theorem binade_unique {y : ℚ} {e : ℤ} (h1 : (2 : ℚ) ^ e ≤ |y|) (h2 : |y| < (2 : ℚ) ^ (e + 1)) :
    binade y = e := by
  have hy : y ≠ 0 := by
    rintro rfl
    rw [abs_zero] at h1
    exact absurd h1 (not_le.mpr (two_zpow_pos e))
  obtain ⟨s1, s2⟩ := binade_spec hy
  by_contra hne
  rcases lt_or_gt_of_ne hne with hlt | hgt
  · have : (2 : ℚ) ^ (binade y + 1) ≤ (2 : ℚ) ^ e := two_zpow_le (by omega)
    linarith
  · have : (2 : ℚ) ^ (e + 1) ≤ (2 : ℚ) ^ binade y := two_zpow_le (by omega)
    linarith

theorem rint_prop (x : K) :
    |x - (rint x : K)| < 1 / 2 ∨ (|x - (rint x : K)| = 1 / 2 ∧ rint x % 2 = 0) := by
  have h0 := Int.fract_nonneg x
  have h1 := Int.fract_lt_one x
  rw [abs_sub_rint]
  rcases lt_trichotomy (Int.fract x) (1 / 2) with h | h | h
  · left
    rw [min_eq_left (by linarith)]
    exact h
  · right
    refine ⟨by rw [h]; norm_num, ?_⟩
    have hf : x - (⌊x⌋ : K) = Int.fract x := rfl
    unfold rint
    rw [hf, if_neg (by rw [h]; exact lt_irrefl _), if_neg (by rw [h]; exact lt_irrefl _)]
    split_ifs with he
    · exact he
    · omega
  · left
    rw [min_eq_right (by linarith)]
    linarith

theorem abs_sub_rint_le (x : K) : |x - (rint x : K)| ≤ 1 / 2 := by
  rcases rint_prop x with h | ⟨h, _⟩
  · exact h.le
  · exact h.le

theorem rint_unique (x : K) (n : ℤ)
    (h : |x - (n : K)| < 1 / 2 ∨ (|x - (n : K)| = 1 / 2 ∧ n % 2 = 0)) : rint x = n := by
  have hr := rint_prop x
  have hn : |x - (n : K)| ≤ 1 / 2 := by
    rcases h with h | ⟨h, _⟩
    · exact h.le
    · exact h.le
  have hx := abs_sub_rint_le x
  rw [abs_le] at hn hx
  have hd1 : ((rint x - n : ℤ) : K) ≤ 1 := by push_cast; linarith
  have hd2 : (-1 : K) ≤ ((rint x - n : ℤ) : K) := by push_cast; linarith
  have hd1' : rint x - n ≤ 1 := by exact_mod_cast hd1
  have hd2' : -1 ≤ rint x - n := by exact_mod_cast hd2
  by_contra hne
  have hcase : rint x = n + 1 ∨ rint x = n - 1 := by omega
  rcases hcase with e | e
  · have e' : (rint x : K) = (n : K) + 1 := by rw [e]; push_cast; rfl
    have hxn : x - (n : K) = 1 / 2 := by linarith
    have hxr : x - (rint x : K) = -(1 / 2) := by linarith
    rcases h with h | ⟨_, hp⟩
    · have := abs_lt.mp h
      linarith
    · rcases hr with hr | ⟨_, hq⟩
      · have := abs_lt.mp hr
        linarith
      · omega
  · have e' : (rint x : K) = (n : K) - 1 := by rw [e]; push_cast; rfl
    have hxn : x - (n : K) = -(1 / 2) := by linarith
    have hxr : x - (rint x : K) = 1 / 2 := by linarith
    rcases h with h | ⟨_, hp⟩
    · have := abs_lt.mp h
      linarith
    · rcases hr with hr | ⟨_, hq⟩
      · have := abs_lt.mp hr
        linarith
      · omega

theorem rint_neg (x : K) : rint (-x) = -rint x := by
  apply rint_unique
  have e : -x - ((-rint x : ℤ) : K) = -(x - (rint x : K)) := by push_cast; ring
  rw [e, abs_neg]
  rcases rint_prop x with h | ⟨h, hp⟩
  · exact Or.inl h
  · exact Or.inr ⟨h, by omega⟩

theorem rint_mono {x y : K} (h : x ≤ y) : rint x ≤ rint y := by
  by_contra hlt
  have hlt' : rint y + 1 ≤ rint x := by omega
  have h1 : (rint y : K) + 1 ≤ (rint x : K) := by exact_mod_cast hlt'
  have hx := abs_sub_rint_le x
  have hy := abs_sub_rint_le y
  rw [abs_le] at hx hy
  have hxy : x = y := le_antisymm h (by linarith)
  subst hxy
  omega

theorem binade_neg (y : ℚ) : binade (-y) = binade y := by
  unfold binade
  rw [abs_neg, Rat.neg_num, Rat.neg_den, Int.natAbs_neg]

theorem ulpExp_neg (y : ℚ) : ulpExp (-y) = ulpExp y := by
  unfold ulpExp
  rw [binade_neg]

theorem roundGrid_neg (y : ℚ) : roundGrid (-y) = -roundGrid y := by
  unfold roundGrid
  rw [ulpExp_neg, neg_div, rint_neg]
  push_cast
  ring

theorem roundGrid_zero : roundGrid 0 = 0 := by
  unfold roundGrid
  rw [zero_div]
  have h := rint_intCast (K := ℚ) 0
  rw [Int.cast_zero] at h
  rw [h]
  simp

theorem roundGrid_nonneg {y : ℚ} (hy : 0 ≤ y) : 0 ≤ roundGrid y := by
  unfold roundGrid
  have h0 : (0 : ℚ) ≤ y / (2 : ℚ) ^ ulpExp y := div_nonneg hy (two_zpow_pos _).le
  have h1 : rint ((0 : ℤ) : ℚ) ≤ rint (y / (2 : ℚ) ^ ulpExp y) := rint_mono (by simpa using h0)
  rw [rint_intCast] at h1
  have h2 : (0 : ℚ) ≤ (rint (y / (2 : ℚ) ^ ulpExp y) : ℚ) := by exact_mod_cast h1
  exact mul_nonneg h2 (two_zpow_pos _).le

theorem ulpExp_ge (y : ℚ) : -1074 ≤ ulpExp y := le_max_right _ _

theorem binade_sub_le_ulpExp (y : ℚ) : binade y - 52 ≤ ulpExp y := le_max_left _ _

/-- A multiple `m * 2^g` of a grid spacing, with `|m| < 2^53` and `g ≥ -1074`, is
on the binary64 grid: rounding leaves it unchanged. -/
theorem roundGrid_of_grid (m g : ℤ) (hg : -1074 ≤ g) (hm : |m| < 2 ^ 53) :
    roundGrid ((m : ℚ) * (2 : ℚ) ^ g) = (m : ℚ) * (2 : ℚ) ^ g := by
  by_cases hm0 : m = 0
  · subst hm0
    simp [roundGrid_zero]
  have hz : (m : ℚ) * (2 : ℚ) ^ g ≠ 0 :=
    mul_ne_zero (by exact_mod_cast hm0) (two_zpow_pos g).ne'
  obtain ⟨s1, _⟩ := binade_spec hz
  have habs : |(m : ℚ) * (2 : ℚ) ^ g| < (2 : ℚ) ^ (53 + g) := by
    rw [abs_mul, abs_of_pos (two_zpow_pos g), zpow_add₀ (by norm_num)]
    have : |(m : ℚ)| < (2 : ℚ) ^ (53 : ℤ) := by
      have h : ((|m| : ℤ) : ℚ) < ((2 ^ 53 : ℤ) : ℚ) := by exact_mod_cast hm
      rw [Int.cast_abs] at h
      norm_num at h ⊢
      exact h
    exact mul_lt_mul_of_pos_right this (two_zpow_pos g)
  have he : binade ((m : ℚ) * (2 : ℚ) ^ g) < 53 + g := by
    by_contra hc
    have := two_zpow_le (not_lt.mp hc)
    linarith
  have hu : ulpExp ((m : ℚ) * (2 : ℚ) ^ g) ≤ g := max_le (by omega) hg
  unfold roundGrid
  generalize ulpExp ((m : ℚ) * (2 : ℚ) ^ g) = u at hu
  obtain ⟨n, hn⟩ := Int.eq_ofNat_of_zero_le (sub_nonneg.mpr hu)
  have hgu : g = u + (n : ℤ) := by omega
  have hdiv : (m : ℚ) * (2 : ℚ) ^ g / (2 : ℚ) ^ u = ((m * 2 ^ n : ℤ) : ℚ) := by
    rw [hgu, zpow_add₀ (by norm_num), zpow_natCast]
    push_cast
    field_simp
    ring
  rw [hdiv, rint_intCast, hgu, zpow_add₀ (by norm_num), zpow_natCast]
  push_cast
  ring

theorem roundGrid_le_pow {y : ℚ} (hy : 0 < y) : roundGrid y ≤ (2 : ℚ) ^ (ulpExp y + 53) := by
  obtain ⟨_, s2⟩ := binade_spec hy.ne'
  rw [abs_of_pos hy] at s2
  have hle : (2 : ℚ) ^ (binade y + 1) ≤ (2 : ℚ) ^ (ulpExp y + 53) :=
    two_zpow_le (by have := binade_sub_le_ulpExp y; omega)
  have hdiv : y / (2 : ℚ) ^ ulpExp y ≤ (((2 : ℤ) ^ 53 : ℤ) : ℚ) := by
    rw [div_le_iff₀ (two_zpow_pos _)]
    have e : (((2 : ℤ) ^ 53 : ℤ) : ℚ) * (2 : ℚ) ^ ulpExp y = (2 : ℚ) ^ (ulpExp y + 53) := by
      rw [zpow_add₀ (by norm_num)]
      norm_num
      ring
    rw [e]
    linarith
  have h1 := rint_mono hdiv
  rw [rint_intCast] at h1
  have h2 : (rint (y / (2 : ℚ) ^ ulpExp y) : ℚ) ≤ (((2 : ℤ) ^ 53 : ℤ) : ℚ) := by exact_mod_cast h1
  unfold roundGrid
  calc (rint (y / (2 : ℚ) ^ ulpExp y) : ℚ) * (2 : ℚ) ^ ulpExp y
      ≤ (((2 : ℤ) ^ 53 : ℤ) : ℚ) * (2 : ℚ) ^ ulpExp y :=
        mul_le_mul_of_nonneg_right h2 (two_zpow_pos _).le
    _ = (2 : ℚ) ^ (ulpExp y + 53) := by
        rw [zpow_add₀ (by norm_num)]
        norm_num
        ring

theorem pow_le_roundGrid {y : ℚ} (hy : 0 < y) (hn : -1074 ≤ binade y - 52) :
    (2 : ℚ) ^ (ulpExp y + 52) ≤ roundGrid y := by
  obtain ⟨s1, _⟩ := binade_spec hy.ne'
  rw [abs_of_pos hy] at s1
  have hu : ulpExp y = binade y - 52 := max_eq_left hn
  have hdiv : (((2 : ℤ) ^ 52 : ℤ) : ℚ) ≤ y / (2 : ℚ) ^ ulpExp y := by
    rw [le_div_iff₀ (two_zpow_pos _)]
    have e : (((2 : ℤ) ^ 52 : ℤ) : ℚ) * (2 : ℚ) ^ ulpExp y = (2 : ℚ) ^ binade y := by
      have : binade y = ulpExp y + 52 := by omega
      rw [this, zpow_add₀ (by norm_num)]
      norm_num
      ring
    rw [e]
    exact s1
  have h1 := rint_mono hdiv
  rw [rint_intCast] at h1
  have h2 : (((2 : ℤ) ^ 52 : ℤ) : ℚ) ≤ (rint (y / (2 : ℚ) ^ ulpExp y) : ℚ) := by exact_mod_cast h1
  unfold roundGrid
  calc (2 : ℚ) ^ (ulpExp y + 52) = (((2 : ℤ) ^ 52 : ℤ) : ℚ) * (2 : ℚ) ^ ulpExp y := by
        rw [zpow_add₀ (by norm_num)]
        norm_num
        ring
    _ ≤ (rint (y / (2 : ℚ) ^ ulpExp y) : ℚ) * (2 : ℚ) ^ ulpExp y :=
        mul_le_mul_of_nonneg_right h2 (two_zpow_pos _).le

theorem binade_mono {y1 y2 : ℚ} (h0 : 0 < y1) (h : y1 ≤ y2) : binade y1 ≤ binade y2 := by
  obtain ⟨a1, _⟩ := binade_spec h0.ne'
  obtain ⟨_, b2⟩ := binade_spec (lt_of_lt_of_le h0 h).ne'
  rw [abs_of_pos h0] at a1
  rw [abs_of_pos (lt_of_lt_of_le h0 h)] at b2
  by_contra hc
  have := two_zpow_le (show binade y2 + 1 ≤ binade y1 by omega)
  linarith

theorem roundGrid_mono_pos {y1 y2 : ℚ} (h0 : 0 < y1) (h : y1 ≤ y2) :
    roundGrid y1 ≤ roundGrid y2 := by
  have hb := binade_mono h0 h
  have hu : ulpExp y1 ≤ ulpExp y2 := max_le_max (by omega) le_rfl
  rcases eq_or_lt_of_le hu with e | hlt
  · unfold roundGrid
    rw [e]
    have hd : y1 / (2 : ℚ) ^ ulpExp y2 ≤ y2 / (2 : ℚ) ^ ulpExp y2 :=
      div_le_div_of_nonneg_right h (two_zpow_pos _).le
    have h1 := rint_mono hd
    have h2 : (rint (y1 / (2 : ℚ) ^ ulpExp y2) : ℚ) ≤ (rint (y2 / (2 : ℚ) ^ ulpExp y2) : ℚ) := by
      exact_mod_cast h1
    exact mul_le_mul_of_nonneg_right h2 (two_zpow_pos _).le
  · have hn : -1074 ≤ binade y2 - 52 := by
      by_contra hc
      have : ulpExp y2 = -1074 := max_eq_right (by omega)
      have := ulpExp_ge y1
      omega
    calc roundGrid y1 ≤ (2 : ℚ) ^ (ulpExp y1 + 53) := roundGrid_le_pow h0
      _ ≤ (2 : ℚ) ^ (ulpExp y2 + 52) := two_zpow_le (by omega)
      _ ≤ roundGrid y2 := pow_le_roundGrid (lt_of_lt_of_le h0 h) hn

/-- Rounding to binary64 is monotone. -/
theorem roundGrid_mono {y1 y2 : ℚ} (h : y1 ≤ y2) : roundGrid y1 ≤ roundGrid y2 := by
  rcases lt_or_le 0 y1 with h1 | h1
  · exact roundGrid_mono_pos h1 h
  · rcases le_or_lt 0 y2 with h2 | h2
    · have a := roundGrid_nonneg h2
      have b := roundGrid_nonneg (neg_nonneg.mpr h1)
      rw [roundGrid_neg] at b
      linarith
    · have := roundGrid_mono_pos (neg_pos.mpr h2) (neg_le_neg h)
      rw [roundGrid_neg, roundGrid_neg] at this
      linarith

/-! ## Machine arithmetic inside the range of `int` -/

theorem wrapInt_of_range {n : ℤ} (h1 : -2147483648 ≤ n) (h2 : n ≤ 2147483647) :
    wrapInt n = n := by
  unfold wrapInt
  omega

theorem toInt_of_range {n : ℤ} (h1 : -2147483648 ≤ n) (h2 : n ≤ 2147483647) : toInt n = n := by
  unfold toInt
  rw [if_pos ⟨h1, h2⟩]

theorem fin_add_fin (a b : ℚ) : F64.fin a + F64.fin b = F64.round (a + b) := rfl

theorem fin_sub_fin (a b : ℚ) : F64.fin a - F64.fin b = F64.round (a - b) := by
  show F64.round (a + -b) = F64.round (a - b)
  rw [sub_eq_add_neg]

theorem fin_mul_fin (a b : ℚ) : F64.fin a * F64.fin b = F64.round (a * b) := rfl

/-- A result whose magnitude stays below a finite `double` is the rounded value;
it does not overflow. -/
theorem round_of_abs_le {y B : ℚ} (hB : roundGrid B = B) (hB2 : B < (2 : ℚ) ^ (1024 : ℤ))
    (h : |y| ≤ B) : F64.round y = F64.fin (roundGrid y) ∧ |roundGrid y| ≤ B := by
  obtain ⟨h1, h2⟩ := abs_le.mp h
  have a := roundGrid_mono h1
  have b := roundGrid_mono h2
  rw [roundGrid_neg, hB] at a
  rw [hB] at b
  have hab : |roundGrid y| ≤ B := abs_le.mpr ⟨a, b⟩
  refine ⟨?_, hab⟩
  unfold F64.round
  rw [if_pos (lt_of_le_of_lt hab hB2)]

theorem roundGrid_intCast {n : ℤ} (hn : |n| < 2 ^ 53) : roundGrid (n : ℚ) = (n : ℚ) := by
  have h := roundGrid_of_grid n 0 (by norm_num) hn
  rw [zpow_zero, mul_one] at h
  exact h

theorem round_half : F64.round (1 / 2) = F64.fin (1 / 2) := by decide!

theorem span_small {q : ℤ} (hq1 : 1 ≤ q) (hq2 : q ≤ 255) :
    -127 ≤ spanLo q ∧ spanLo q ≤ 0 ∧ 0 ≤ spanHi q ∧ spanHi q ≤ 127 ∧
      spanHi q - spanLo q = q - 1 := by
  rw [spanLo_of_pos hq1, spanHi_of_pos hq1]
  omega

/-- Inside the range of `int` the anchor is the floor of the rounded sum
`coord + 0.5` for odd `q` and of `coord` for even `q`. -/
theorem anchor64_fin {c : ℚ} (hc : |c| ≤ 2147483519) (q : ℤ) :
    anchor64 (F64.fin c) q = ⌊if q.tmod 2 ≠ 0 then roundGrid (c + 1 / 2) else c⌋ ∧
    -2147483520 ≤ anchor64 (F64.fin c) q ∧ anchor64 (F64.fin c) q ≤ 2147483520 := by
  obtain ⟨c1, c2⟩ := abs_le.mp hc
  have hB : roundGrid (2147483520 : ℚ) = 2147483520 := by
    have := roundGrid_intCast (n := 2147483520) (by norm_num)
    simpa using this
  have key : ∀ v : ℚ, |v| ≤ 2147483520 →
      F64.floorInt (F64.fin v) = ⌊v⌋ ∧ -2147483520 ≤ ⌊v⌋ ∧ ⌊v⌋ ≤ 2147483520 := by
    intro v hv
    obtain ⟨v1, v2⟩ := abs_le.mp hv
    have f1 : -2147483520 ≤ ⌊v⌋ := Int.le_floor.mpr (by push_cast; linarith)
    have f2 : ⌊v⌋ ≤ 2147483520 := by
      have : (⌊v⌋ : ℚ) ≤ v := Int.floor_le v
      have : (⌊v⌋ : ℚ) ≤ ((2147483520 : ℤ) : ℚ) := by push_cast; linarith
      exact_mod_cast this
    exact ⟨toInt_of_range (by omega) (by omega), f1, f2⟩
  unfold anchor64
  split_ifs with hq
  · rw [round_half, fin_add_fin]
    obtain ⟨e, hb⟩ := round_of_abs_le hB (by norm_num) (show |c + 1 / 2| ≤ 2147483520 from
      abs_le.mpr ⟨by linarith, by linarith⟩)
    rw [e]
    obtain ⟨k1, k2, k3⟩ := key _ hb
    rw [k1]
    exact ⟨rfl, k2, k3⟩
  · obtain ⟨k1, k2, k3⟩ := key c (by linarith)
    rw [k1]
    exact ⟨rfl, k2, k3⟩

theorem polyBody64_span {s : PolyCache F64} {q : ℤ} (hq1 : 1 ≤ q) (hq2 : q ≤ 255)
    (hk0 : s.k0 = spanLo q) (hk1 : s.k1 = spanHi q) {c : ℚ} (hc : |c| ≤ 2147483519)
    {dim : ℤ} (hd1 : 1 ≤ dim) (hd2 : dim ≤ 2147483647)
    (hn : nearInteger64 (F64.fin c) = false) :
    (polyBody64 s (F64.fin c) q dim).d1 = max 1 (anchor64 (F64.fin c) q + spanLo q) ∧
    (polyBody64 s (F64.fin c) q dim).tpend
      = min dim (anchor64 (F64.fin c) q + spanHi q)
        - max 1 (anchor64 (F64.fin c) q + spanLo q) := by
  obtain ⟨_, a1, a2⟩ := anchor64_fin hc q
  obtain ⟨b1, b2, b3, b4, _⟩ := span_small hq1 hq2
  unfold polyBody64
  rw [hn, hk0, hk1]
  simp only [Bool.false_eq_true, if_false]
  rw [wrapInt_of_range (n := anchor64 (F64.fin c) q + spanLo q) (by omega) (by omega),
    wrapInt_of_range (n := anchor64 (F64.fin c) q + spanHi q) (by omega) (by omega)]
  have l1 : -2147483647 ≤ anchor64 (F64.fin c) q + spanLo q := by omega
  have l2 : anchor64 (F64.fin c) q + spanLo q ≤ anchor64 (F64.fin c) q + spanHi q := by omega
  have l3 : anchor64 (F64.fin c) q + spanHi q ≤ 2147483647 := by omega
  generalize anchor64 (F64.fin c) q + spanLo q = lo at *
  generalize anchor64 (F64.fin c) q + spanHi q = hi at *
  have hw : wrapInt ((if hi > dim then dim else hi) - (if lo ≥ 1 then lo else 1))
      = (if hi > dim then dim else hi) - (if lo ≥ 1 then lo else 1) :=
    wrapInt_of_range (by split_ifs <;> omega) (by split_ifs <;> omega)
  rw [hw]
  have e1 : (if lo ≥ 1 then lo else 1) = max 1 lo := by
    split_ifs <;> omega
  have e2 : (if hi > dim then dim else hi) = min dim hi := by
    split_ifs <;> omega
  rw [e1, e2]
  split_ifs <;> exact ⟨rfl, rfl⟩

theorem polyGradBody64_span {s : PolyCache F64} {q : ℤ} (hq1 : 1 ≤ q) (hq2 : q ≤ 255)
    (hk0 : s.k0 = spanLo q) (hk1 : s.k1 = spanHi q) {c : ℚ} (hc : |c| ≤ 2147483519)
    {dim : ℤ} (hd1 : 1 ≤ dim) (hd2 : dim ≤ 2147483647) :
    (polyGradBody64 s (F64.fin c) q dim).d1 = max 1 (anchor64 (F64.fin c) q + spanLo q) ∧
    (polyGradBody64 s (F64.fin c) q dim).tpend
      = min dim (anchor64 (F64.fin c) q + spanHi q)
        - max 1 (anchor64 (F64.fin c) q + spanLo q) := by
  obtain ⟨_, a1, a2⟩ := anchor64_fin hc q
  obtain ⟨b1, b2, b3, b4, _⟩ := span_small hq1 hq2
  unfold polyGradBody64
  rw [hk0, hk1]
  simp only
  rw [wrapInt_of_range (n := anchor64 (F64.fin c) q + spanLo q) (by omega) (by omega),
    wrapInt_of_range (n := anchor64 (F64.fin c) q + spanHi q) (by omega) (by omega)]
  have l1 : -2147483647 ≤ anchor64 (F64.fin c) q + spanLo q := by omega
  have l2 : anchor64 (F64.fin c) q + spanLo q ≤ anchor64 (F64.fin c) q + spanHi q := by omega
  have l3 : anchor64 (F64.fin c) q + spanHi q ≤ 2147483647 := by omega
  generalize anchor64 (F64.fin c) q + spanLo q = lo at *
  generalize anchor64 (F64.fin c) q + spanHi q = hi at *
  have hw : wrapInt ((if hi > dim then dim else hi) - (if lo ≥ 1 then lo else 1))
      = (if hi > dim then dim else hi) - (if lo ≥ 1 then lo else 1) :=
    wrapInt_of_range (by split_ifs <;> omega) (by split_ifs <;> omega)
  rw [hw]
  have e1 : (if lo ≥ 1 then lo else 1) = max 1 lo := by
    split_ifs <;> omega
  have e2 : (if hi > dim then dim else hi) = min dim hi := by
    split_ifs <;> omega
  rw [e1, e2]
  exact ⟨rfl, rfl⟩

theorem sinc64_span {s : SpanCache} {q : ℤ} (hq1 : 1 ≤ q) (hq2 : q ≤ 255)
    (hk0 : s.k0 = spanLo q) (hk1 : s.k1 = spanHi q) {c : ℚ} (hc : |c| ≤ 2147483519)
    {dim : ℤ} (hd1 : 1 ≤ dim) (hd2 : dim ≤ 2147483647) :
    sincFirst64 s (F64.fin c) q = max 1 (anchor64 (F64.fin c) q + spanLo q) ∧
    sincEnd64 s (F64.fin c) q dim
      = min dim (anchor64 (F64.fin c) q + spanHi q)
        - max 1 (anchor64 (F64.fin c) q + spanLo q) := by
  obtain ⟨_, a1, a2⟩ := anchor64_fin hc q
  obtain ⟨b1, b2, b3, b4, _⟩ := span_small hq1 hq2
  unfold sincEnd64 sincLast64 sincFirst64
  rw [hk0, hk1]
  rw [wrapInt_of_range (n := anchor64 (F64.fin c) q + spanLo q) (by omega) (by omega),
    wrapInt_of_range (n := anchor64 (F64.fin c) q + spanHi q) (by omega) (by omega)]
  have l1 : -2147483647 ≤ anchor64 (F64.fin c) q + spanLo q := by omega
  have l2 : anchor64 (F64.fin c) q + spanLo q ≤ anchor64 (F64.fin c) q + spanHi q := by omega
  have l3 : anchor64 (F64.fin c) q + spanHi q ≤ 2147483647 := by omega
  generalize anchor64 (F64.fin c) q + spanLo q = lo at *
  generalize anchor64 (F64.fin c) q + spanHi q = hi at *
  have hw : wrapInt ((if hi > dim then dim else hi) - (if lo < 1 then 1 else lo))
      = (if hi > dim then dim else hi) - (if lo < 1 then 1 else lo) :=
    wrapInt_of_range (by split_ifs <;> omega) (by split_ifs <;> omega)
  rw [hw]
  have e1 : (if lo < 1 then 1 else lo) = max 1 lo := by
    split_ifs <;> omega
  have e2 : (if hi > dim then dim else hi) = min dim hi := by
    split_ifs <;> omega
  rw [e1, e2]
  exact ⟨rfl, rfl⟩

theorem polyBody64_near (s : PolyCache F64) {coord : F64} (h : nearInteger64 coord = true)
    (q dim : ℤ) :
    polyBody64 s coord q dim
      = if F64.rintInt coord < 1 ∨ F64.rintInt coord > dim then ⟨F64.rintInt coord, -1, [], []⟩
        else ⟨F64.rintInt coord, 0, [F64.fin 1], []⟩ := by
  unfold polyBody64
  rw [if_pos h]

theorem sinc64_near (sin cos : F64 → F64) (s : SpanCache) {coord : F64}
    (h : nearInteger64 coord = true) (q dim : ℤ) :
    (make_lookup_sinc64 sin cos s coord q dim).2
      = if F64.rintInt coord < 1 ∨ F64.rintInt coord > dim then ⟨F64.rintInt coord, -1, [], []⟩
        else ⟨F64.rintInt coord, 0, [F64.fin 1], []⟩ := by
  unfold make_lookup_sinc64
  rw [if_pos h]
  split_ifs <;> rfl

theorem sinc64_far (sin cos : F64 → F64) (s : SpanCache) {coord : F64}
    (h : nearInteger64 coord = false) (q dim : ℤ) :
    (make_lookup_sinc64 sin cos s coord q dim).2.d1 = sincFirst64 (s.refresh q) coord q ∧
    (make_lookup_sinc64 sin cos s coord q dim).2.tpend = sincEnd64 (s.refresh q) coord q dim := by
  unfold make_lookup_sinc64
  rw [h]
  simp only [Bool.false_eq_true, if_false]
  exact ⟨trivial, trivial⟩

/-! ## The near-integer test on `double`s -/

theorem isDouble_rint_zero_or_ulp {c : ℚ} (h : rint c ≠ 0) : -53 ≤ ulpExp c := by
  have hc : (1 : ℚ) / 2 ≤ |c| := by
    have h1 := abs_sub_rint_le c
    have h2 : (1 : ℚ) ≤ |(rint c : ℚ)| := by
      have : (1 : ℤ) ≤ |rint c| := Int.one_le_abs h
      exact_mod_cast this
    have h3 : |(rint c : ℚ)| ≤ |c - (rint c : ℚ)| + |c| := by
      have := abs_sub (c) (c - (rint c : ℚ))
      have e : c - (c - (rint c : ℚ)) = (rint c : ℚ) := by ring
      rw [e] at this
      linarith [abs_sub_comm c (c - (rint c : ℚ))]
    linarith
  have hc0 : c ≠ 0 := by
    rintro rfl
    rw [abs_zero] at hc
    norm_num at hc
  obtain ⟨_, s2⟩ := binade_spec hc0
  have hb : -1 ≤ binade c := by
    by_contra hlt
    have := two_zpow_le (show binade c + 1 ≤ -1 by omega)
    have e : (2 : ℚ) ^ (-1 : ℤ) = 1 / 2 := by norm_num
    rw [e] at this
    linarith
  have := binade_sub_le_ulpExp c
  omega

/-- For a `double` `coord` the difference `coord - rint(coord)` is computed
without rounding error. -/
theorem roundGrid_sub_rint {c : ℚ} (hc : IsDouble c) :
    roundGrid (c - (rint c : ℚ)) = c - (rint c : ℚ) := by
  by_cases hr : rint c = 0
  · rw [hr, Int.cast_zero, sub_zero]
    exact hc.1
  have hu := isDouble_rint_zero_or_ulp hr
  have hgrid : c = (rint (c / (2 : ℚ) ^ ulpExp c) : ℚ) * (2 : ℚ) ^ ulpExp c := hc.1.symm
  generalize rint (c / (2 : ℚ) ^ ulpExp c) = m at hgrid
  generalize ulpExp c = u at hu hgrid
  rcases le_or_lt 0 u with hu0 | hu0
  · obtain ⟨n, hn⟩ := Int.eq_ofNat_of_zero_le hu0
    have hci : c = ((m * 2 ^ n : ℤ) : ℚ) := by
      rw [hgrid, hn, zpow_natCast]
      push_cast
      ring
    rw [hci, rint_intCast, sub_self, roundGrid_zero]
  · obtain ⟨n, hn⟩ := Int.eq_ofNat_of_zero_le (show 0 ≤ -u by omega)
    have hn53 : n ≤ 53 := by omega
    have hpow : (2 : ℚ) ^ u * (2 : ℚ) ^ n = 1 := by
      rw [← zpow_natCast, ← hn, ← zpow_add₀ (by norm_num)]
      simp
    have hdiff : c - (rint c : ℚ) = ((m - rint c * 2 ^ n : ℤ) : ℚ) * (2 : ℚ) ^ u := by
      push_cast
      rw [sub_mul, ← hgrid, mul_assoc, mul_comm ((2 : ℚ) ^ n), hpow, mul_one]
    have habs := abs_sub_rint_le c
    rw [hdiff, abs_mul, abs_of_pos (two_zpow_pos u)] at habs
    have hm2 : |((m - rint c * 2 ^ n : ℤ) : ℚ)| ≤ (2 : ℚ) ^ n / 2 := by
      have h2n : (0 : ℚ) < (2 : ℚ) ^ n := by positivity
      calc |((m - rint c * 2 ^ n : ℤ) : ℚ)|
          = |((m - rint c * 2 ^ n : ℤ) : ℚ)| * ((2 : ℚ) ^ u * (2 : ℚ) ^ n) := by
            rw [hpow, mul_one]
        _ = |((m - rint c * 2 ^ n : ℤ) : ℚ)| * (2 : ℚ) ^ u * (2 : ℚ) ^ n := by ring
        _ ≤ 1 / 2 * (2 : ℚ) ^ n := mul_le_mul_of_nonneg_right habs h2n.le
        _ = (2 : ℚ) ^ n / 2 := by ring
    have h53 : (2 : ℚ) ^ n ≤ (2 : ℚ) ^ 53 := pow_le_pow_right₀ (by norm_num) hn53
    have hm3 : |m - rint c * 2 ^ n| < 2 ^ 53 := by
      have : ((|m - rint c * 2 ^ n| : ℤ) : ℚ) < ((2 ^ 53 : ℤ) : ℚ) := by
        rw [Int.cast_abs]
        have e : ((2 ^ 53 : ℤ) : ℚ) = (2 : ℚ) ^ 53 := by norm_num
        rw [e]
        have : (2 : ℚ) ^ 53 / 2 < (2 : ℚ) ^ 53 := by norm_num
        linarith
      exact_mod_cast this
    rw [hdiff]
    exact roundGrid_of_grid _ u (by omega) hm3

theorem round_literal_1e5 :
    F64.round (1 / 100000) = F64.fin (5902958103587057 / 590295810358705651712) := by decide!

theorem roundGrid_abs (y : ℚ) : roundGrid |y| = |roundGrid y| := by
  rcases le_total 0 y with h | h
  · rw [abs_of_nonneg h, abs_of_nonneg (roundGrid_nonneg h)]
  · have h' := roundGrid_nonneg (neg_nonneg.mpr h)
    rw [roundGrid_neg] at h'
    rw [abs_of_nonpos h, roundGrid_neg, abs_of_nonpos (by linarith)]

/-- On `double`s the test `fabs(coord-rint(coord))<0.00001` of the source decides
`|coord − rint(coord)| < 1/100000` exactly: the difference is computed without
error and no `double` lies between `1/100000` and the `double` nearest to it. -/
theorem nearInteger64_iff {c : ℚ} (hc : IsDouble c) :
    nearInteger64 (F64.fin c) = true ↔ nearInteger c := by
  have hex := roundGrid_sub_rint hc
  have hle := abs_sub_rint_le c
  have hone : roundGrid (1 : ℚ) = 1 := by
    have := roundGrid_intCast (n := 1) (by norm_num)
    simpa using this
  obtain ⟨e, _⟩ := round_of_abs_le hone (by norm_num)
    (show |c - (rint c : ℚ)| ≤ 1 from by linarith)
  have hlit : roundGrid (1 / 100000 : ℚ) = 5902958103587057 / 590295810358705651712 := by
    decide!
  unfold nearInteger64 nearInteger
  show F64.lt (F64.abs (F64.fin c - F64.fin ((rint c : ℤ) : ℚ))) (F64.round (1 / 100000)) = true
    ↔ _
  rw [fin_sub_fin, e, hex, round_literal_1e5]
  show decide (|c - (rint c : ℚ)| < 5902958103587057 / 590295810358705651712) = true ↔ _
  rw [decide_eq_true_iff]
  constructor
  · intro h
    by_contra hn
    have hge : (1 / 100000 : ℚ) ≤ |c - (rint c : ℚ)| := not_lt.mp hn
    have hm := roundGrid_mono hge
    rw [roundGrid_abs, hex, hlit] at hm
    linarith
  · intro h
    have : (1 / 100000 : ℚ) < 5902958103587057 / 590295810358705651712 := by norm_num
    linarith

theorem rintInt_of_range {c : ℚ} (h1 : -2147483648 ≤ rint c) (h2 : rint c ≤ 2147483647) :
    F64.rintInt (F64.fin c) = rint c := toInt_of_range h1 h2

/-! ## The binary64 cache -/

theorem fillLoop64_apply (k0 k1 : ℤ) (n : ℕ) (k p : ℤ) (denom : ℤ → F64) (i : ℤ) :
    fillLoop64 k0 k1 n k p denom i
      = if p ≤ i ∧ i < p + (n : ℤ) then denomEntry64 k0 k1 (k + (i - p)) else denom i := by
  induction n generalizing k p denom with
  | zero =>
    rw [fillLoop64, if_neg]
    push_cast
    omega
  | succ n ih =>
    rw [fillLoop64, ih]
    by_cases h1 : p + 1 ≤ i ∧ i < p + 1 + (n : ℤ)
    · rw [if_pos h1, if_pos (by push_cast; omega)]
      congr 1; ring
    · rw [if_neg h1]
      by_cases h2 : i = p
      · subst h2
        rw [Function.update_same, if_pos (by push_cast; omega)]
        congr 1; ring
      · rw [Function.update_noteq h2, if_neg (by push_cast; omega)]

theorem fillDenom64_apply (k0 k1 : ℤ) (denom : ℤ → F64) {i : ℤ} (h0 : 0 ≤ i)
    (h1 : i ≤ k1 - k0) : fillDenom64 k0 k1 denom i = denomEntry64 k0 k1 (k0 + i) := by
  unfold fillDenom64
  rw [fillLoop64_apply, if_pos ⟨h0, by rw [Int.toNat_of_nonneg (by omega)]; omega⟩, sub_zero]

theorem polyCache_init64_valid : PolyCache.init64.Valid64 :=
  fun h => absurd rfl h

theorem polyCache_refresh64_oq (s : PolyCache F64) (q : ℤ) : (s.refresh64 q).oq = q := by
  unfold PolyCache.refresh64
  split_ifs with h
  · rfl
  · exact (not_not.mp h).symm

theorem polyCache_refresh64_valid {s : PolyCache F64} (hs : s.Valid64) (q : ℤ) :
    (s.refresh64 q).Valid64 := by
  unfold PolyCache.refresh64
  split_ifs with h
  · intro _
    exact ⟨rfl, rfl, fun i h0 h1 => fillDenom64_apply _ _ _ h0 h1⟩
  · exact hs

theorem polyCache_refresh64_spec {s : PolyCache F64} (hs : s.Valid64) {q : ℤ} (hq : 1 ≤ q) :
    (s.refresh64 q).k0 = spanLo q ∧ (s.refresh64 q).k1 = spanHi q ∧
      ∀ i : ℤ, 0 ≤ i → i ≤ spanHi q - spanLo q →
        (s.refresh64 q).denom i = denomEntry64 (spanLo q) (spanHi q) (spanLo q + i) := by
  have hv := polyCache_refresh64_valid hs q
  have hoq := polyCache_refresh64_oq s q
  obtain ⟨h0, h1, h2⟩ := hv (by rw [hoq]; omega)
  rw [hoq] at h0 h1
  refine ⟨h0, h1, fun i hi0 hi1 => ?_⟩
  have := h2 i hi0 (by rw [h0, h1]; exact hi1)
  rw [h0, h1] at this
  exact this

/-- Every cache reachable by calls of the binary64 polynomial generators is
valid. -/
theorem make_lookup_poly64_valid {s : PolyCache F64} (hs : s.Valid64) (coord : F64)
    (q dim : ℤ) :
    (make_lookup_poly64 s coord q dim).1.Valid64 ∧
      (make_lookup_poly_grad64 s coord q dim).1.Valid64 :=
  ⟨polyCache_refresh64_valid hs q, polyCache_refresh64_valid hs q⟩

/-! ## C1: index range of the reported span -/

theorem indicesWithin_of_bounds {F : Type*} {r : Lookup F} {dim : ℤ}
    (h : 0 ≤ r.tpend → 1 ≤ r.d1 ∧ r.d1 + r.tpend ≤ dim) : r.IndicesWithin dim := by
  unfold Lookup.IndicesWithin
  rcases lt_or_le r.tpend 0 with h0 | h0
  · exact Or.inl h0
  · exact Or.inr ⟨h0, fun d hd1 hd2 => by have := h h0; omega⟩

theorem near_indicesWithin {F : Type*} (r : ℤ) (dim : ℤ) (one : F) :
    (if r < 1 ∨ r > dim then (⟨r, -1, [], []⟩ : Lookup F)
      else ⟨r, 0, [one], []⟩).IndicesWithin dim := by
  apply indicesWithin_of_bounds
  split_ifs <;> simp only <;> omega

theorem span_indicesWithin {F : Type*} {r : Lookup F} {lo hi dim : ℤ}
    (h1 : r.d1 = max 1 lo) (h2 : r.tpend = min dim hi - max 1 lo) : r.IndicesWithin dim := by
  apply indicesWithin_of_bounds
  rw [h1, h2]
  omega


theorem poly64_indicesWithin {s : PolyCache F64} (hs : s.Valid64) {c : ℚ}
    (hc : |c| ≤ 2147483519) {q dim : ℤ} (hq1 : 1 ≤ q) (hq2 : q ≤ 255) (hd1 : 1 ≤ dim)
    (hd2 : dim ≤ 2147483647) : (make_lookup_poly64 s (F64.fin c) q dim).2.IndicesWithin dim := by
  obtain ⟨k0, k1, _⟩ := polyCache_refresh64_spec hs hq1
  show (polyBody64 (s.refresh64 q) (F64.fin c) q dim).IndicesWithin dim
  cases hn : nearInteger64 (F64.fin c)
  · obtain ⟨e1, e2⟩ := polyBody64_span hq1 hq2 k0 k1 hc hd1 hd2 hn
    exact span_indicesWithin e1 e2
  · rw [polyBody64_near _ hn]
    exact near_indicesWithin _ _ _

theorem polyGrad64_indicesWithin {s : PolyCache F64} (hs : s.Valid64) {c : ℚ}
    (hc : |c| ≤ 2147483519) {q dim : ℤ} (hq1 : 1 ≤ q) (hq2 : q ≤ 255) (hd1 : 1 ≤ dim)
    (hd2 : dim ≤ 2147483647) :
    (make_lookup_poly_grad64 s (F64.fin c) q dim).2.IndicesWithin dim := by
  obtain ⟨k0, k1, _⟩ := polyCache_refresh64_spec hs hq1
  obtain ⟨e1, e2⟩ := polyGradBody64_span hq1 hq2 k0 k1 hc hd1 hd2
  exact span_indicesWithin e1 e2

theorem sinc64_indicesWithin (sin cos : F64 → F64) {s : SpanCache} (hs : s.Valid) {c : ℚ}
    (hc : |c| ≤ 2147483519) {q dim : ℤ} (hq1 : 1 ≤ q) (hq2 : q ≤ 255) (hd1 : 1 ≤ dim)
    (hd2 : dim ≤ 2147483647) :
    (make_lookup_sinc64 sin cos s (F64.fin c) q dim).2.IndicesWithin dim := by
  obtain ⟨k0, k1⟩ := spanCache_refresh_spec hs hq1
  cases hn : nearInteger64 (F64.fin c)
  · obtain ⟨f1, f2⟩ := sinc64_far sin cos s hn q dim
    obtain ⟨e1, e2⟩ := sinc64_span hq1 hq2 k0 k1 hc hd1 hd2
    exact span_indicesWithin (f1.trans e1) (f2.trans e2)
  · rw [sinc64_near sin cos s hn]
    exact near_indicesWithin _ _ _

theorem sincGrad64_indicesWithin (sin cos : F64 → F64) {s : SpanCache} (hs : s.Valid) {c : ℚ}
    (hc : |c| ≤ 2147483519) {q dim : ℤ} (hq1 : 1 ≤ q) (hq2 : q ≤ 255) (hd1 : 1 ≤ dim)
    (hd2 : dim ≤ 2147483647) :
    (make_lookup_sinc_grad64 sin cos s (F64.fin c) q dim).2.IndicesWithin dim := by
  obtain ⟨k0, k1⟩ := spanCache_refresh_spec hs hq1
  obtain ⟨e1, e2⟩ := sinc64_span hq1 hq2 k0 k1 hc hd1 hd2
  exact span_indicesWithin (r := (make_lookup_sinc_grad64 sin cos s (F64.fin c) q dim).2) e1 e2

/-- C1: in binary64 and 32-bit `int`, for each of the four generators, every
valid cache, every `coord` with `|coord| ≤ 2147483519` (so that `fcoord + k0`
and `fcoord + k1` fit an `int`), every `q` with `1 ≤ q ≤ 255` and every `dim ≥ 1`
(an `int`), on return either the reported end lies strictly before the start of
the table, or the reported span is non-empty and every sample index
`d1, d1+1, …, d1 + (end − start)` lies in `[1, dim]`. -/
theorem C1_indices_within (sp sg : PolyCache F64) (cs cg : SpanCache) (hsp : sp.Valid64)
    (hsg : sg.Valid64) (hcs : cs.Valid) (hcg : cg.Valid) (sin cos : F64 → F64) (c : ℚ)
    (q dim : ℤ) (hq1 : 1 ≤ q) (hq2 : q ≤ 255) (hdim : 1 ≤ dim) (hdim2 : dim ≤ 2147483647)
    (hc : |c| ≤ 2147483519) :
    (make_lookup_poly64 sp (F64.fin c) q dim).2.IndicesWithin dim ∧
    (make_lookup_poly_grad64 sg (F64.fin c) q dim).2.IndicesWithin dim ∧
    (make_lookup_sinc64 sin cos cs (F64.fin c) q dim).2.IndicesWithin dim ∧
    (make_lookup_sinc_grad64 sin cos cg (F64.fin c) q dim).2.IndicesWithin dim :=
  ⟨poly64_indicesWithin hsp hc hq1 hq2 hdim hdim2, polyGrad64_indicesWithin hsg hc hq1 hq2 hdim hdim2,
    sinc64_indicesWithin sin cos hcs hc hq1 hq2 hdim hdim2,
    sincGrad64_indicesWithin sin cos hcg hc hq1 hq2 hdim hdim2⟩

theorem C1_indices_within_witness :
    (1 : ℤ) ≤ 4 ∧ (4 : ℤ) ≤ 255 ∧ (1 : ℤ) ≤ 10 ∧ (10 : ℤ) ≤ 2147483647 ∧
    |(7 / 10 : ℚ)| ≤ 2147483519 ∧
    ((make_lookup_poly64 PolyCache.init64 (F64.fin (7 / 10)) 4 10).2.IndicesWithin 10 ∧
    (make_lookup_poly_grad64 PolyCache.init64 (F64.fin (7 / 10)) 4 10).2.IndicesWithin 10 ∧
    (make_lookup_sinc64 (fun t => t) (fun _ => F64.fin 1) SpanCache.init
      (F64.fin (7 / 10)) 4 10).2.IndicesWithin 10 ∧
    (make_lookup_sinc_grad64 (fun t => t) (fun _ => F64.fin 1) SpanCache.init
      (F64.fin (7 / 10)) 4 10).2.IndicesWithin 10) :=
  ⟨by decide, by decide, by decide, by decide, by decide!,
    C1_indices_within PolyCache.init64 PolyCache.init64 SpanCache.init SpanCache.init
      polyCache_init64_valid polyCache_init64_valid spanCache_init_valid spanCache_init_valid
      (fun t => t) (fun _ => F64.fin 1) (7 / 10) 4 10 (by decide) (by decide) (by decide)
      (by decide) (by decide!)⟩

/-- C1 fails outside the range of `int`: `make_lookup_poly_grad` at
`coord = 3e9`, `q = 4`, `dim = 10` converts `floor(coord)` to `INT_MIN`, the sum
`fcoord + k0` wraps to `2147483647` and `d2 - d1` wraps to `3`: a span of four
slots is reported whose sample indices are not in `[1, 10]`. -/
theorem C1_int_overflow_counterexample :
    (make_lookup_poly_grad64 PolyCache.init64 (F64.fin 3000000000) 4 10).2.d1 = 2147483647 ∧
    (make_lookup_poly_grad64 PolyCache.init64 (F64.fin 3000000000) 4 10).2.tpend = 3 ∧
    ¬ (make_lookup_poly_grad64 PolyCache.init64 (F64.fin 3000000000) 4 10).2.IndicesWithin 10 := by
  have e1 : (make_lookup_poly_grad64 PolyCache.init64 (F64.fin 3000000000) 4 10).2.d1
      = 2147483647 := by decide!
  have e2 : (make_lookup_poly_grad64 PolyCache.init64 (F64.fin 3000000000) 4 10).2.tpend
      = 3 := by decide!
  refine ⟨e1, e2, ?_⟩
  intro h
  rcases h with h | ⟨_, h⟩
  · rw [e2] at h
    omega
  · have := h 2147483647 (by rw [e1]) (by rw [e1, e2]; omega)
    omega

/-! ## C2: near-integer short-circuit -/

/-- C2: near-integer short-circuit of `make_lookup_poly` and `make_lookup_sinc` in
binary64 and 32-bit `int`.  For every `double` `coord` with
`|coord − round(coord)| < 1e-5` whose `round(coord)` fits an `int`, every `q` in
`1..255` and every `dim ≥ 1`, from any cache contents, the call sets `d1` to
`round(coord)`; if `1 ≤ d1 ≤ dim` it reports exactly one weight (`end = start`),
stored at slot 0 and equal to `1.0`, and otherwise it reports `end = start − 1`
and stores nothing. -/
theorem C2_near_integer_short_circuit (sp : PolyCache F64) (cs : SpanCache)
    (sin cos : F64 → F64) (c : ℚ) (q dim : ℤ) (_hq1 : 1 ≤ q) (_hq2 : q ≤ 255) (_hdim : 1 ≤ dim)
    (hc : IsDouble c) (hnear : |c - (round c : ℚ)| < 1 / 100000)
    (hr1 : -2147483648 ≤ round c) (hr2 : round c ≤ 2147483647) :
    ((make_lookup_poly64 sp (F64.fin c) q dim).2.d1 = round c ∧
      (1 ≤ round c ∧ round c ≤ dim →
        (make_lookup_poly64 sp (F64.fin c) q dim).2.tpend = 0 ∧
        (make_lookup_poly64 sp (F64.fin c) q dim).2.table = [F64.fin 1]) ∧
      (¬ (1 ≤ round c ∧ round c ≤ dim) →
        (make_lookup_poly64 sp (F64.fin c) q dim).2.tpend = -1 ∧
        (make_lookup_poly64 sp (F64.fin c) q dim).2.table = [])) ∧
    ((make_lookup_sinc64 sin cos cs (F64.fin c) q dim).2.d1 = round c ∧
      (1 ≤ round c ∧ round c ≤ dim →
        (make_lookup_sinc64 sin cos cs (F64.fin c) q dim).2.tpend = 0 ∧
        (make_lookup_sinc64 sin cos cs (F64.fin c) q dim).2.table = [F64.fin 1]) ∧
      (¬ (1 ≤ round c ∧ round c ≤ dim) →
        (make_lookup_sinc64 sin cos cs (F64.fin c) q dim).2.tpend = -1 ∧
        (make_lookup_sinc64 sin cos cs (F64.fin c) q dim).2.table = [])) := by
  have hn : nearInteger c := (nearInteger_iff_round c).mpr hnear
  have hn64 : nearInteger64 (F64.fin c) = true := (nearInteger64_iff hc).mpr hn
  have hr : rint c = round c := rint_eq_round_of_nearInteger hn
  have hri : F64.rintInt (F64.fin c) = round c := by
    rw [rintInt_of_range (by rw [hr]; exact hr1) (by rw [hr]; exact hr2), hr]
  have key : ∀ r : Lookup F64,
      r = (if F64.rintInt (F64.fin c) < 1 ∨ F64.rintInt (F64.fin c) > dim then
          ⟨F64.rintInt (F64.fin c), -1, [], []⟩
        else ⟨F64.rintInt (F64.fin c), 0, [F64.fin 1], []⟩) →
      r.d1 = round c ∧
      (1 ≤ round c ∧ round c ≤ dim → r.tpend = 0 ∧ r.table = [F64.fin 1]) ∧
      (¬ (1 ≤ round c ∧ round c ≤ dim) → r.tpend = -1 ∧ r.table = []) := by
    intro r hr'
    rw [hri] at hr'
    subst hr'
    split_ifs with hcase
    · exact ⟨rfl, fun h => absurd h (by omega), fun _ => ⟨rfl, rfl⟩⟩
    · exact ⟨rfl, fun _ => ⟨rfl, rfl⟩, fun h => absurd (by omega) h⟩
  exact ⟨key _ (polyBody64_near _ hn64 q dim), key _ (sinc64_near sin cos cs hn64 q dim)⟩

theorem C2_near_integer_short_circuit_witness :
    (1 : ℤ) ≤ 4 ∧ (4 : ℤ) ≤ 255 ∧ (1 : ℤ) ≤ 10 ∧ IsDouble (12582913 / 4194304) ∧
    |(12582913 / 4194304 : ℚ) - (round (12582913 / 4194304 : ℚ) : ℚ)| < 1 / 100000 ∧
    (make_lookup_poly64 PolyCache.init64 (F64.fin (12582913 / 4194304)) 4 10).2.table
      = [F64.fin 1] ∧
    (make_lookup_sinc64 (fun t => t) (fun _ => F64.fin 1) SpanCache.init
      (F64.fin (12582913 / 4194304)) 4 10).2.table = [F64.fin 1] := by
  have hr : round (12582913 / 4194304 : ℚ) = 3 := by
    rw [round_eq, Int.floor_eq_iff]; norm_num
  have hnear : |(12582913 / 4194304 : ℚ) - (round (12582913 / 4194304 : ℚ) : ℚ)|
      < 1 / 100000 := by
    rw [hr]; norm_num [abs_lt]
  have h := C2_near_integer_short_circuit PolyCache.init64 SpanCache.init
    (fun t => t) (fun _ => F64.fin 1) (12582913 / 4194304) 4 10 (by decide) (by decide)
    (by decide) (by decide!) hnear (by rw [hr]; decide) (by rw [hr]; decide)
  rw [hr] at h
  exact ⟨by decide, by decide, by decide, by decide!, hnear,
    (h.1.2.1 ⟨by decide, by decide⟩).2, (h.2.2.1 ⟨by decide, by decide⟩).2⟩

/-- C2 fails outside the range of `int`: `coord = 3e9` is an integer, so the
short-circuit is taken, but the conversion of `rint(coord)` to `int` delivers
`INT_MIN`, so `d1` is not `round(coord) = 3000000000`. -/
theorem C2_int_range_counterexample :
    |(3000000000 : ℚ) - (round (3000000000 : ℚ) : ℚ)| < 1 / 100000 ∧
    round (3000000000 : ℚ) = 3000000000 ∧
    (make_lookup_poly64 PolyCache.init64 (F64.fin 3000000000) 4 10).2
      = ⟨-2147483648, -1, [], []⟩ ∧
    (make_lookup_poly64 PolyCache.init64 (F64.fin 3000000000) 4 10).2.d1
      ≠ round (3000000000 : ℚ) := by
  have hr : round (3000000000 : ℚ) = 3000000000 := by
    rw [round_eq, Int.floor_eq_iff]; norm_num
  have he : (make_lookup_poly64 PolyCache.init64 (F64.fin 3000000000) 4 10).2
      = ⟨-2147483648, -1, [], []⟩ := by decide!
  refine ⟨?_, hr, he, ?_⟩
  · rw [hr]; norm_num
  · rw [he, hr]
    decide

/-! ## C3: a span of one slot is reported but not stored -/

/-- C3 (evaluation at the failing inputs): for `q = 1`, `coord = 2.3`, `dim = 10`
both polynomial generators report `d1 = 2` and `end = start`, a span of one
slot, and store nothing; the same happens for the right-clamped window of
`q = 4`, `coord = 10.3`, `dim = 9` (only index 9 is left).  The test
`if (tp<tpend)` is false when `tpend = table`. -/
theorem C3_single_slot_not_stored :
    (make_lookup_poly (PolyCache.init : PolyCache ℚ) (23 / 10) 1 10).2 = ⟨2, 0, [], []⟩ ∧
    (make_lookup_poly_grad (PolyCache.init : PolyCache ℚ) (23 / 10) 1 10).2 = ⟨2, 0, [], []⟩ ∧
    (make_lookup_poly (PolyCache.init : PolyCache ℚ) (103 / 10) 4 9).2 = ⟨9, 0, [], []⟩ ∧
    (make_lookup_poly_grad (PolyCache.init : PolyCache ℚ) (103 / 10) 4 9).2 = ⟨9, 0, [], []⟩ := by
  decide!

/-- Supporting fact for C3: `make_lookup_poly` stores exactly `end − start + 1`
weights when the reported span has at least two slots, and stores nothing when
it reports a single slot away from the near-integer short-circuit. -/
theorem poly_stored_count (s : PolyCache K) (coord : K) (q dim : ℤ) :
    (0 < (make_lookup_poly s coord q dim).2.tpend →
      (make_lookup_poly s coord q dim).2.table.length
        = (make_lookup_poly s coord q dim).2.tpend.toNat + 1) ∧
    (¬ nearInteger coord → (make_lookup_poly s coord q dim).2.tpend = 0 →
      (make_lookup_poly s coord q dim).2.table = []) := by
  constructor
  · intro h
    by_cases hn : nearInteger coord
    · exfalso
      have h' : 0 < (polyBody (s.refresh q) coord q dim).tpend := h
      rw [polyBody_near _ hn q dim] at h'
      split_ifs at h' <;> simp at h'
    · obtain ⟨_, _, _, e4, _⟩ := polyBody_far (s.refresh q) hn q dim
      show (polyBody (s.refresh q) coord q dim).table.length = _
      rw [e4 h, List.length_map, List.length_range]
      rfl
  · intro hn h
    obtain ⟨_, _, _, _, e5⟩ := polyBody_far (s.refresh q) hn q dim
    have h' : (polyBody (s.refresh q) coord q dim).tpend = 0 := h
    exact e5 (by omega)

/-- Supporting fact for C3: `make_lookup_poly_grad` stores exactly
`end − start + 1` weights and derivatives when the reported span has at least
two slots, and stores nothing when it reports a single slot. -/
theorem polyGrad_stored_count (s : PolyCache K) (coord : K) (q dim : ℤ) :
    (0 < (make_lookup_poly_grad s coord q dim).2.tpend →
      (make_lookup_poly_grad s coord q dim).2.table.length
          = (make_lookup_poly_grad s coord q dim).2.tpend.toNat + 1 ∧
        (make_lookup_poly_grad s coord q dim).2.dtable.length
          = (make_lookup_poly_grad s coord q dim).2.tpend.toNat + 1) ∧
    ((make_lookup_poly_grad s coord q dim).2.tpend = 0 →
      (make_lookup_poly_grad s coord q dim).2.table = [] ∧
        (make_lookup_poly_grad s coord q dim).2.dtable = []) := by
  show (0 < (polyGradBody (s.refresh q) coord q dim).tpend →
      (polyGradBody (s.refresh q) coord q dim).table.length
          = (polyGradBody (s.refresh q) coord q dim).tpend.toNat + 1 ∧
        (polyGradBody (s.refresh q) coord q dim).dtable.length
          = (polyGradBody (s.refresh q) coord q dim).tpend.toNat + 1) ∧
    ((polyGradBody (s.refresh q) coord q dim).tpend = 0 →
      (polyGradBody (s.refresh q) coord q dim).table = [] ∧
        (polyGradBody (s.refresh q) coord q dim).dtable = [])
  unfold polyGradBody
  simp only [List.length_map, polyGradStores_length]
  constructor
  · intro h
    rw [if_pos h]
    exact ⟨rfl, rfl⟩
  · intro h
    unfold polyGradStores
    rw [if_neg (by omega)]
    exact ⟨rfl, rfl⟩

/-! ## C4: the stored weights are the Lagrange basis -/

theorem poly_far_weight {s : PolyCache K} (hs : s.Valid) {coord : K} (hn : ¬ nearInteger coord)
    {q dim : ℤ} (hq1 : 1 ≤ q) (hw : 0 < (make_lookup_poly s coord q dim).2.tpend) (d : ℤ)
    (hd1 : (make_lookup_poly s coord q dim).2.d1 ≤ d)
    (hd2 : d ≤ (make_lookup_poly s coord q dim).2.d1 + (make_lookup_poly s coord q dim).2.tpend) :
    (make_lookup_poly s coord q dim).2.table[(d - (make_lookup_poly s coord q dim).2.d1).toNat]?
      = some (lagrangeWeight (spanLo q) (spanHi q) (d - anchor coord q)
          (coord - (anchor coord q : K))) := by
  obtain ⟨hk0, hk1, hden⟩ := polyCache_refresh_spec hs hq1
  obtain ⟨e1, _, e3, e4, _⟩ := polyBody_far (s.refresh q) hn q dim
  have hb := span_bounds hq1
  simp only [make_lookup_poly] at hw hd1 hd2 ⊢
  rw [hk0] at e1
  rw [hk1] at e3
  rw [e4 hw, List.getElem?_map, List.getElem?_range (by omega)]
  simp only [Option.map_some']
  rw [hk0, hk1, Int.toNat_of_nonneg (by omega),
    hden _ (by have := le_max_left 0 (1 - (anchor coord q + spanLo q)); omega)
      (by have := min_le_right dim (anchor coord q + spanHi q); omega),
    lagrangeWeight_eq _
      (by have := le_max_left 0 (1 - (anchor coord q + spanLo q)); omega)
      (by have := min_le_right dim (anchor coord q + spanHi q); omega)]
  congr 2
  · congr 1
    omega
  · congr 1
    omega

/-- C4: `make_lookup_poly` computes the Lagrange basis.  For every valid cache,
every `coord` that is not near-integer (`|coord − round(coord)| ≥ 1e-5`), every
`q` in `1..255` and `dim ≥ 1` such that the clamped window
`d1 = max(1, fcoord + k0)`, `d2 = min(dim, fcoord + k1)` holds at least two
indices (`d2 > d1`), the call reports that window, and for every index `d` in
`d1..d2` the value stored at `table[d − d1]` is
`∏_{m ∈ [k0,k1], m ≠ k}(x − m) / ∏_{m ∈ [k0,k1], m ≠ k}(k − m)` with
`k = d − fcoord`, `x = coord − fcoord`; left- and right-clamped windows are
included. -/
theorem C4_poly_weights_are_lagrange (s : PolyCache K) (hs : s.Valid) (coord : K)
    (q dim d : ℤ) (hq1 : 1 ≤ q) (_hq2 : q ≤ 255) (_hdim : 1 ≤ dim)
    (hfar : 1 / 100000 ≤ |coord - (round coord : K)|)
    (hwin : max 1 (anchor coord q + spanLo q) < min dim (anchor coord q + spanHi q))
    (hd1 : max 1 (anchor coord q + spanLo q) ≤ d)
    (hd2 : d ≤ min dim (anchor coord q + spanHi q)) :
    (make_lookup_poly s coord q dim).2.d1 = max 1 (anchor coord q + spanLo q) ∧
    (make_lookup_poly s coord q dim).2.tpend
      = min dim (anchor coord q + spanHi q) - max 1 (anchor coord q + spanLo q) ∧
    (make_lookup_poly s coord q dim).2.table[(d - max 1 (anchor coord q + spanLo q)).toNat]?
      = some (lagrangeWeight (spanLo q) (spanHi q) (d - anchor coord q)
          (coord - (anchor coord q : K))) := by
  have hn : ¬ nearInteger coord := fun h =>
    absurd ((nearInteger_iff_round coord).mp h) (not_lt.mpr hfar)
  obtain ⟨hk0, hk1, _⟩ := polyCache_refresh_spec hs hq1
  obtain ⟨_, e2, e3, _, _⟩ := polyBody_far (s.refresh q) hn q dim
  rw [hk0] at e2
  rw [hk1] at e3
  have e2' : (make_lookup_poly s coord q dim).2.d1 = max 1 (anchor coord q + spanLo q) := e2
  have e3' : (make_lookup_poly s coord q dim).2.d1 + (make_lookup_poly s coord q dim).2.tpend
      = min dim (anchor coord q + spanHi q) := e3
  refine ⟨e2', by omega, ?_⟩
  rw [← e2']
  exact poly_far_weight hs hn hq1 (by omega) d (by omega) (by omega)

theorem C4_poly_weights_are_lagrange_witness :
    (1 : ℤ) ≤ 4 ∧ (4 : ℤ) ≤ 255 ∧ (1 : ℤ) ≤ 10 ∧
    1 / 100000 ≤ |(7 / 10 : ℚ) - (round (7 / 10 : ℚ) : ℚ)| ∧
    max 1 (anchor (7 / 10 : ℚ) 4 + spanLo 4) < min 10 (anchor (7 / 10 : ℚ) 4 + spanHi 4) ∧
    (make_lookup_poly (PolyCache.init : PolyCache ℚ) (7 / 10) 4 10).2.d1
      = max 1 (anchor (7 / 10 : ℚ) 4 + spanLo 4) ∧
    (make_lookup_poly (PolyCache.init : PolyCache ℚ) (7 / 10) 4 10).2.tpend
      = min 10 (anchor (7 / 10 : ℚ) 4 + spanHi 4) - max 1 (anchor (7 / 10 : ℚ) 4 + spanLo 4) ∧
    (make_lookup_poly (PolyCache.init : PolyCache ℚ) (7 / 10) 4 10).2.table[
        (2 - max 1 (anchor (7 / 10 : ℚ) 4 + spanLo 4)).toNat]?
      = some (lagrangeWeight (spanLo 4) (spanHi 4) (2 - anchor (7 / 10 : ℚ) 4)
          ((7 / 10 : ℚ) - (anchor (7 / 10 : ℚ) 4 : ℚ))) :=
  ⟨by decide, by decide, by decide, by decide!, by decide!,
    C4_poly_weights_are_lagrange PolyCache.init polyCache_init_valid (7 / 10) 4 10 2
      (by decide) (by decide) (by decide) (by decide!) (by decide!) (by decide!) (by decide!)⟩

/-! ## C5: partition of unity -/

/-- C5 (evaluation at the failing input): for `q = 1`, `coord = 1.5`, `dim = 4`
the coordinate is not near-integer, the raw window `[fcoord + k0, fcoord + k1]`
is `[2, 2]` and lies inside `[1, 4]`, and `make_lookup_poly` reports a span of
one slot (`d1 = 2`, `end = start`) without storing a weight, so the stored
weights do not sum to 1. -/
theorem C5_order_one_not_stored :
    1 / 100000 ≤ |(3 / 2 : ℚ) - (round (3 / 2 : ℚ) : ℚ)| ∧
    1 ≤ anchor (3 / 2 : ℚ) 1 + spanLo 1 ∧ anchor (3 / 2 : ℚ) 1 + spanHi 1 ≤ 4 ∧
    (make_lookup_poly (PolyCache.init : PolyCache ℚ) (3 / 2) 1 4).2 = ⟨2, 0, [], []⟩ ∧
    (make_lookup_poly (PolyCache.init : PolyCache ℚ) (3 / 2) 1 4).2.table.sum ≠ 1 := by
  decide!

/-- Supporting fact for C5: for every order `q` with `2 ≤ q`, every valid cache
and every `coord` whose raw window `[fcoord + k0, fcoord + k1]` lies inside
`[1, dim]`, the weights stored by `make_lookup_poly` sum to 1. -/
theorem poly_partition_of_unity {s : PolyCache K} (hs : s.Valid) (coord : K) {q dim : ℤ}
    (hq : 2 ≤ q) (hlo : 1 ≤ anchor coord q + spanLo q)
    (hhi : anchor coord q + spanHi q ≤ dim) :
    (make_lookup_poly s coord q dim).2.table.sum = 1 := by
  have hq1 : 1 ≤ q := by omega
  obtain ⟨hk0, hk1, hden⟩ := polyCache_refresh_spec hs hq1
  have hL := spanLo_of_pos hq1
  have hH := spanHi_of_pos hq1
  by_cases hn : nearInteger coord
  · show (polyBody (s.refresh q) coord q dim).table.sum = 1
    rw [polyBody_near _ hn q dim]
    obtain ⟨r1, r2⟩ := rint_near_floor coord
    obtain ⟨a1, a2⟩ := anchor_near_floor coord q
    have hr : 1 ≤ rint coord ∧ rint coord ≤ dim := by
      rcases Int.emod_two_eq_zero_or_one q with he | ho
      · have := anchor_even hq1 he coord
        constructor <;> omega
      · constructor <;> omega
    rw [if_neg (by omega)]
    simp
  · obtain ⟨_, e2, e3, e4, _⟩ := polyBody_far (s.refresh q) hn q dim
    rw [hk0] at e2 e4
    rw [hk1] at e3 e4
    rw [max_eq_right hlo] at e2
    rw [min_eq_right hhi] at e3
    have hp : max 0 (1 - (anchor coord q + spanLo q)) = 0 := max_eq_left (by omega)
    have ht : (polyBody (s.refresh q) coord q dim).tpend = spanHi q - spanLo q := by omega
    show (polyBody (s.refresh q) coord q dim).table.sum = 1
    rw [e4 (by omega), hp, ht]
    have hlist : (List.range ((spanHi q - spanLo q).toNat + 1)).map (fun j : ℕ =>
          fullProd (coord - (anchor coord q : K)) (spanLo q) (spanHi q) (spanLo q + 0 + (j : ℤ))
            / (s.refresh q).denom (0 + (j : ℤ)))
        = (List.range ((spanHi q - spanLo q).toNat + 1)).map (fun j : ℕ =>
          (fun k : ℤ => lagrangeWeight (spanLo q) (spanHi q) k (coord - (anchor coord q : K)))
            (spanLo q + (j : ℤ))) := by
      apply List.map_congr_left
      intro j hj
      have hj' : (j : ℤ) ≤ spanHi q - spanLo q := by
        have := List.mem_range.mp hj
        omega
      simp only [add_zero, zero_add]
      rw [hden _ (by omega) hj', lagrangeWeight_eq _ (by omega) (by omega)]
    rw [hlist]
    refine (sum_map_range_eq_sum_Icc
      (fun k : ℤ => lagrangeWeight (spanLo q) (spanHi q) k (coord - (anchor coord q : K)))
      (spanLo q) (spanHi q - spanLo q).toNat).trans ?_
    rw [Int.toNat_of_nonneg (by omega)]
    have : spanLo q + (spanHi q - spanLo q) = spanHi q := by ring
    rw [this]
    exact lagrangeWeight_sum _ _ (by omega) _

/-! ## C6: normalisation of the sinc weights -/

theorem sinc_table_sum (sin cos : K → K) (s : SpanCache) (coord : K) (q dim : ℤ)
    (h0 : 0 ≤ (make_lookup_sinc sin cos s coord q dim).2.tpend)
    (h : nearInteger coord ∨ sincSm sin cos s coord q dim ≠ 0) :
    (make_lookup_sinc sin cos s coord q dim).2.table.sum = 1 := by
  by_cases hn : nearInteger coord
  · rw [sinc_near sin cos s hn q dim] at h0 ⊢
    split_ifs at h0 ⊢ with hc
    · simp at h0
    · simp
  · have hsm : sincSm sin cos s coord q dim ≠ 0 := h.resolve_left hn
    rw [sinc_far sin cos s hn q dim]
    simp only
    unfold sincSm at hsm ⊢
    rw [foldl_add_eq_sum] at hsm ⊢
    exact sum_map_div_self _ hsm

theorem sincGrad_table_sum (sin cos : K → K) (s : SpanCache) (coord : K) (q dim : ℤ)
    (h : sincGradSm sin cos s coord q dim ≠ 0) :
    (make_lookup_sinc_grad sin cos s coord q dim).2.table.sum = 1 := by
  unfold make_lookup_sinc_grad
  simp only
  unfold sincGradSm at h ⊢
  rw [foldl_add_fst_eq_sum] at h ⊢
  have := sum_map_div_self _ h
  rw [List.map_map] at this
  exact this

theorem round_zero : F64.round 0 = F64.fin 0 := by decide!

theorem mul_fin_zero (X : F64) : X * F64.fin 0 = F64.fin 0 ∨ X * F64.fin 0 = F64.nan := by
  cases X with
  | fin a =>
    left
    rw [fin_mul_fin, mul_zero, round_zero]
  | inf s =>
    right
    rfl
  | nan =>
    right
    rfl

/-- C6 (evaluation at the failing input, binary64): at `coord = 1.5`, `q = 1`,
`dim = 2`, with any C library `sin` and a `cos` that returns `-1.0` at the
`double` `-3.14159265358979` (the correctly rounded cosine: the exact value
differs from `-1` by less than `1e-29`), `make_lookup_sinc` and
`make_lookup_sinc_grad` report the one-slot span `d1 = 2`, `end = start`; the
Hanning factor `1.0 + cos(2*PI*(coord-d)/q)` is `0.0`, the normalising sum `sm`
is `0.0` (or a NaN, should `sin` not return a finite value) and the weight left
in `table[0]` is the NaN `sm/sm`, so the weights do not sum to 1. -/
theorem C6_zero_normaliser (sin cos : F64 → F64) (hcos : cos (F64.neg PI64) = F64.fin (-1)) :
    (make_lookup_sinc64 sin cos SpanCache.init (F64.fin (3 / 2)) 1 2).2
      = ⟨2, 0, [F64.nan], []⟩ ∧
    (sincSm64 sin cos SpanCache.init (F64.fin (3 / 2)) 1 2 = F64.fin 0 ∨
      sincSm64 sin cos SpanCache.init (F64.fin (3 / 2)) 1 2 = F64.nan) ∧
    (make_lookup_sinc_grad64 sin cos SpanCache.init (F64.fin (3 / 2)) 1 2).2.d1 = 2 ∧
    (make_lookup_sinc_grad64 sin cos SpanCache.init (F64.fin (3 / 2)) 1 2).2.tpend = 0 ∧
    (make_lookup_sinc_grad64 sin cos SpanCache.init (F64.fin (3 / 2)) 1 2).2.table
      = [F64.nan] ∧
    (sincGradSm64 sin cos SpanCache.init (F64.fin (3 / 2)) 1 2 = F64.fin 0 ∨
      sincGradSm64 sin cos SpanCache.init (F64.fin (3 / 2)) 1 2 = F64.nan) := by
  have hfirst : sincFirst64 (SpanCache.init.refresh 1) (F64.fin (3 / 2)) 1 = 2 := by decide!
  have hend : sincEnd64 (SpanCache.init.refresh 1) (F64.fin (3 / 2)) 1 2 = 0 := by decide!
  have hnear : nearInteger64 (F64.fin (3 / 2)) = false := by decide!
  have harg : F64.ofInt 2 * (PI64 * (F64.fin (3 / 2) - F64.ofInt 2)) / F64.ofInt 1
      = F64.neg PI64 := by decide!
  have hone : F64.ofInt 1 + F64.fin (-1) = F64.fin 0 := by decide!
  have hbig : F64.lt (F64.round (1 / 1000000000000)) (F64.abs (F64.fin (3 / 2) - F64.ofInt 2))
      = true := by decide!
  have hw : hanningSinc64 sin cos 1 (PI64 * (F64.fin (3 / 2) - F64.ofInt 2))
      = sin (PI64 * (F64.fin (3 / 2) - F64.ofInt 2)) / (PI64 * (F64.fin (3 / 2) - F64.ofInt 2))
        * F64.round (1 / 2) * F64.fin 0 := by
    unfold hanningSinc64
    rw [harg, hcos, hone]
  have hraw : sincRaw64 sin cos SpanCache.init (F64.fin (3 / 2)) 1 2
      = [hanningSinc64 sin cos 1 (PI64 * (F64.fin (3 / 2) - F64.ofInt 2))] := by
    unfold sincRaw64
    rw [hfirst, hend]
    rfl
  have hgw : sincGradWeight64 sin cos (F64.fin (3 / 2)) 1 2
      = hanningSinc64 sin cos 1 (PI64 * (F64.fin (3 / 2) - F64.ofInt 2)) := by
    unfold sincGradWeight64
    rw [if_pos hbig]
  have hgraw : sincGradRaw64 sin cos SpanCache.init (F64.fin (3 / 2)) 1 2
      = [(hanningSinc64 sin cos 1 (PI64 * (F64.fin (3 / 2) - F64.ofInt 2)),
          sincGradShifted64 sin cos (F64.fin (3 / 2)) 1 2)] := by
    unfold sincGradRaw64
    rw [hfirst, hend, ← hgw]
    rfl
  have hsinc : (make_lookup_sinc64 sin cos SpanCache.init (F64.fin (3 / 2)) 1 2).2
      = ⟨2, 0, (sincRaw64 sin cos SpanCache.init (F64.fin (3 / 2)) 1 2).map
          (fun w => w / sincSm64 sin cos SpanCache.init (F64.fin (3 / 2)) 1 2), []⟩ := by
    unfold make_lookup_sinc64
    rw [hnear, hfirst, hend]
    rfl
  have hgrad : (make_lookup_sinc_grad64 sin cos SpanCache.init (F64.fin (3 / 2)) 1 2).2.table
      = (sincGradRaw64 sin cos SpanCache.init (F64.fin (3 / 2)) 1 2).map
          (fun w => w.1 / sincGradSm64 sin cos SpanCache.init (F64.fin (3 / 2)) 1 2) := rfl
  rw [hsinc, hgrad]
  unfold sincSm64 sincGradSm64
  rw [hraw, hgraw, hw]
  refine ⟨?_, ?_, hfirst, hend, ?_, ?_⟩ <;>
    rcases mul_fin_zero (sin (PI64 * (F64.fin (3 / 2) - F64.ofInt 2))
      / (PI64 * (F64.fin (3 / 2) - F64.ofInt 2)) * F64.round (1 / 2)) with e | e <;>
    rw [e] <;> simp only [List.map_cons, List.map_nil, List.foldl_cons, List.foldl_nil] <;>
    decide!

theorem C6_zero_normaliser_witness :
    (fun _ : F64 => F64.fin (-1)) (F64.neg PI64) = F64.fin (-1) ∧
    (make_lookup_sinc64 (fun _ => F64.fin (-1)) (fun _ => F64.fin (-1)) SpanCache.init
      (F64.fin (3 / 2)) 1 2).2 = ⟨2, 0, [F64.nan], []⟩ :=
  ⟨rfl, (C6_zero_normaliser (fun _ => F64.fin (-1)) (fun _ => F64.fin (-1)) rfl).1⟩

/-! ## C7: reported length and the clamped-window formula -/

/-- C7 (counterexample): at `coord = 3`, `q = 4`, `dim = 10`, inside the ranges of
the claim, `make_lookup_poly` and `make_lookup_sinc` take the near-integer
short-circuit and report length 1, while the clamped-window formula gives 4. -/
theorem C7_short_circuit_length_counterexample :
    (1 : ℤ) ≤ 4 ∧ (4 : ℤ) ≤ 16 ∧ (1 : ℤ) ≤ 10 ∧ (10 : ℤ) ≤ 32 ∧
    (1 / 2 : ℚ) ≤ 3 ∧ (3 : ℚ) ≤ ((10 : ℤ) : ℚ) + 1 / 2 ∧
    (make_lookup_poly (PolyCache.init : PolyCache ℚ) 3 4 10).2.length = 1 ∧
    (make_lookup_sinc (fun t => t) (fun _ => 1) SpanCache.init (3 : ℚ) 4 10).2.length = 1 ∧
    windowLength (3 : ℚ) 4 10 = 4 ∧
    ¬ ((make_lookup_poly (PolyCache.init : PolyCache ℚ) 3 4 10).2.length
        = windowLength (3 : ℚ) 4 10) := by
  decide!

/-- C7 (amended): for every `q` in `1..16`, every `dim` in `1..32`, every `coord`
in `[0.5, dim + 0.5]` and valid caches, `max(0, end − start + 1)` equals
`max(0, min(d2, dim) − max(d1_raw, 1) + 1)` for `make_lookup_poly_grad` and
`make_lookup_sinc_grad` at every such `coord`, and for `make_lookup_poly` and
`make_lookup_sinc` at every such `coord` that is not near-integer; at a
near-integer `coord` the latter two report length 1. -/
theorem C7_length_formula (sp sg : PolyCache K) (cs cg : SpanCache) (hsp : sp.Valid)
    (hsg : sg.Valid) (hcs : cs.Valid) (hcg : cg.Valid) (sin cos : K → K) (coord : K)
    (q dim : ℤ) (hq1 : 1 ≤ q) (_hq2 : q ≤ 16) (_hdim1 : 1 ≤ dim) (_hdim2 : dim ≤ 32)
    (hc1 : 1 / 2 ≤ coord) (hc2 : coord ≤ (dim : K) + 1 / 2) :
    (make_lookup_poly_grad sg coord q dim).2.length = windowLength coord q dim ∧
    (make_lookup_sinc_grad sin cos cg coord q dim).2.length = windowLength coord q dim ∧
    (1 / 100000 ≤ |coord - (round coord : K)| →
      (make_lookup_poly sp coord q dim).2.length = windowLength coord q dim ∧
      (make_lookup_sinc sin cos cs coord q dim).2.length = windowLength coord q dim) ∧
    (|coord - (round coord : K)| < 1 / 100000 →
      (make_lookup_poly sp coord q dim).2.length = 1 ∧
      (make_lookup_sinc sin cos cs coord q dim).2.length = 1) := by
  obtain ⟨pk0, pk1, _⟩ := polyCache_refresh_spec hsp hq1
  obtain ⟨gk0, gk1, _⟩ := polyCache_refresh_spec hsg hq1
  obtain ⟨sk0, sk1⟩ := spanCache_refresh_spec hcs hq1
  obtain ⟨tk0, tk1⟩ := spanCache_refresh_spec hcg hq1
  refine ⟨?_, ?_, ?_, ?_⟩
  · obtain ⟨e1, e2⟩ := polyGradBody_span (sg.refresh q) coord q dim
    rw [gk0] at e1
    rw [gk1] at e2
    exact length_of_sum e1 e2
  · refine length_of_sum (r := (make_lookup_sinc_grad sin cos cg coord q dim).2) ?_ ?_
    · show sincFirst (cg.refresh q) coord q = _
      rw [sincFirst_eq, tk0]
    · show sincFirst (cg.refresh q) coord q
        + (sincLast (cg.refresh q) coord q dim - sincFirst (cg.refresh q) coord q) = _
      rw [sincLast_eq, tk1]
      ring
  · intro hfar
    have hn : ¬ nearInteger coord := fun h =>
      absurd ((nearInteger_iff_round coord).mp h) (not_lt.mpr hfar)
    constructor
    · obtain ⟨_, e2, e3, _, _⟩ := polyBody_far (sp.refresh q) hn q dim
      rw [pk0] at e2
      rw [pk1] at e3
      exact length_of_sum e2 e3
    · rw [sinc_far sin cos cs hn q dim]
      refine length_of_sum ?_ ?_
      · show sincFirst (cs.refresh q) coord q = _
        rw [sincFirst_eq, sk0]
      · show sincFirst (cs.refresh q) coord q
          + (sincLast (cs.refresh q) coord q dim - sincFirst (cs.refresh q) coord q) = _
        rw [sincLast_eq, sk1]
        ring
  · intro hnear
    have hn : nearInteger coord := (nearInteger_iff_round coord).mpr hnear
    have hr := rint_mem_of_near hn hc1 hc2
    constructor
    · show (polyBody (sp.refresh q) coord q dim).length = 1
      rw [polyBody_near _ hn q dim, if_neg (by omega)]
      rfl
    · rw [sinc_near sin cos cs hn q dim, if_neg (by omega)]
      rfl

theorem C7_length_formula_witness :
    (1 : ℤ) ≤ 4 ∧ (4 : ℤ) ≤ 16 ∧ (1 : ℤ) ≤ 10 ∧ (10 : ℤ) ≤ 32 ∧
    (1 / 2 : ℚ) ≤ 7 / 10 ∧ (7 / 10 : ℚ) ≤ ((10 : ℤ) : ℚ) + 1 / 2 ∧
    1 / 100000 ≤ |(7 / 10 : ℚ) - (round (7 / 10 : ℚ) : ℚ)| ∧
    (make_lookup_poly_grad (PolyCache.init : PolyCache ℚ) (7 / 10) 4 10).2.length
      = windowLength (7 / 10 : ℚ) 4 10 ∧
    (make_lookup_poly (PolyCache.init : PolyCache ℚ) (7 / 10) 4 10).2.length
      = windowLength (7 / 10 : ℚ) 4 10 :=
  have h := C7_length_formula (PolyCache.init : PolyCache ℚ) PolyCache.init SpanCache.init
    SpanCache.init polyCache_init_valid polyCache_init_valid spanCache_init_valid
    spanCache_init_valid (fun t => t) (fun _ => 1) (7 / 10) 4 10 (by decide) (by decide)
    (by decide) (by decide) (by decide!) (by decide!)
  ⟨by decide, by decide, by decide, by decide, by decide!, by decide!, by decide!, h.1,
    (h.2.2.1 (by decide!)).1⟩

/-! ## C8: `make_lookup_poly_grad` at a sample -/

/-- C8 (evaluation at the failing inputs): at the integer sample `coord = 1`
with `q = 1`, `dim = 1`, and with `q = 2`, `dim = 1` (window right-clamped to the
single index 1), `make_lookup_poly_grad` reports `d1 = 1`, `end = start`, so the
span covers index 1, but no weight is stored for it. -/
theorem C8_sample_weight_not_stored :
    (make_lookup_poly_grad (PolyCache.init : PolyCache ℚ) 1 1 1).2 = ⟨1, 0, [], []⟩ ∧
    (make_lookup_poly_grad (PolyCache.init : PolyCache ℚ) 1 2 1).2 = ⟨1, 0, [], []⟩ ∧
    (make_lookup_poly_grad (PolyCache.init : PolyCache ℚ) 1 1 1).2.table[0]? = none := by
  decide!

/-- Supporting fact for C8: at an integer sample `c` in `[1, dim]`, whenever the
reported span of `make_lookup_poly_grad` has at least two slots, it covers `c`,
the weight stored for index `c` is `1` and the weight stored for every other
index of the span is `0`. -/
theorem polyGrad_at_sample {s : PolyCache K} (hs : s.Valid) {q dim c : ℤ} (hq1 : 1 ≤ q)
    (hc1 : 1 ≤ c) (hc2 : c ≤ dim)
    (hw : 0 < (make_lookup_poly_grad s (c : K) q dim).2.tpend) :
    (make_lookup_poly_grad s (c : K) q dim).2.d1 ≤ c ∧
    c ≤ (make_lookup_poly_grad s (c : K) q dim).2.d1
      + (make_lookup_poly_grad s (c : K) q dim).2.tpend ∧
    ∀ d : ℤ, (make_lookup_poly_grad s (c : K) q dim).2.d1 ≤ d →
      d ≤ (make_lookup_poly_grad s (c : K) q dim).2.d1
        + (make_lookup_poly_grad s (c : K) q dim).2.tpend →
      (make_lookup_poly_grad s (c : K) q dim).2.table[
          (d - (make_lookup_poly_grad s (c : K) q dim).2.d1).toNat]?
        = some (if d = c then 1 else 0) := by
  obtain ⟨hk0, hk1, _⟩ := polyCache_refresh_spec hs hq1
  obtain ⟨e1, e3⟩ := polyGradBody_span (s.refresh q) (c : K) q dim
  have hb := span_bounds hq1
  rw [hk0, anchor_intCast] at e1
  rw [hk1, anchor_intCast] at e3
  have e1' : (make_lookup_poly_grad s (c : K) q dim).2.d1 = max 1 (c + spanLo q) := e1
  have e3' : (make_lookup_poly_grad s (c : K) q dim).2.d1
      + (make_lookup_poly_grad s (c : K) q dim).2.tpend = min dim (c + spanHi q) := e3
  have hm1 := le_max_left 1 (c + spanLo q)
  have hm2 := le_max_right 1 (c + spanLo q)
  have hm3 := min_le_left dim (c + spanHi q)
  have hm4 := min_le_right dim (c + spanHi q)
  have hd1c : (make_lookup_poly_grad s (c : K) q dim).2.d1 ≤ c := by
    rw [e1']; exact max_le hc1 (by omega)
  have hcd2 : c ≤ (make_lookup_poly_grad s (c : K) q dim).2.d1
      + (make_lookup_poly_grad s (c : K) q dim).2.tpend := by
    rw [e3']; exact le_min hc2 (by omega)
  refine ⟨hd1c, hcd2, fun d hd1 hd2 => ?_⟩
  have hx : (c : K) - ((anchor (c : K) q : ℤ) : K) = ((0 : ℤ) : K) := by
    rw [anchor_intCast]; simp
  have hx1 : (c : K) - ((anchor (c : K) q : ℤ) : K) ≠ 99999 / 100000 := by
    rw [hx]; norm_num
  have := (polyGrad_weights hs (c : K) dim hq1 hx1 hw d hd1 hd2).1
  rw [this, hx, anchor_intCast,
    lagrangeWeight_intCast (by omega) (by omega) (by omega) (by omega)]
  congr 1
  by_cases h : d = c
  · rw [if_pos h, if_pos (by omega)]
  · rw [if_neg h, if_neg (by omega)]

/-! ## C9: the derivative column

What holds for spans of at least two slots is `polyGrad_weights` above. -/

/-- C9 (evaluation at the failing input): for `coord = 2.3`, `q = 1`, `dim = 10`
`make_lookup_poly_grad` reports a span of one slot (`d1 = 2`, `end = start`) and
stores nothing in `dtable[0]` (nor in `table[0]`), where the claim has the
forward difference of the Lagrange weight.  Over exact arithmetic at `23/10`,
and in binary64 and `int` at the `double` nearest to `2.3`. -/
theorem C9_derivative_column_fails :
    (make_lookup_poly_grad (PolyCache.init : PolyCache ℚ) (23 / 10) 1 10).2.d1 = 2 ∧
    (make_lookup_poly_grad (PolyCache.init : PolyCache ℚ) (23 / 10) 1 10).2.tpend = 0 ∧
    (make_lookup_poly_grad (PolyCache.init : PolyCache ℚ) (23 / 10) 1 10).2.dtable[0]? = none ∧
    (make_lookup_poly_grad (PolyCache.init : PolyCache ℚ) (23 / 10) 1 10).2.table[0]?
      = none ∧
    F64.round (23 / 10) = F64.fin (2589569785738035 / 1125899906842624) ∧
    (make_lookup_poly_grad64 PolyCache.init64 (F64.round (23 / 10)) 1 10).2
      = ⟨2, 0, [], []⟩ ∧
    (make_lookup_poly_grad64 PolyCache.init64 (F64.round (23 / 10)) 1 10).2.dtable[0]?
      = none := by
  decide!

/-! ## C10: divisors of `make_lookup_poly_grad` -/

theorem roundGrid_one : roundGrid (1 : ℚ) = 1 := by
  have := roundGrid_intCast (n := 1) (by norm_num)
  simpa using this

theorem roundGrid_tiny : roundGrid ((2 : ℚ) ^ (-1074 : ℤ)) = (2 : ℚ) ^ (-1074 : ℤ) := by
  have := roundGrid_of_grid 1 (-1074) le_rfl (by norm_num)
  simpa using this

theorem roundGrid_ne_zero_of_abs_ge {y : ℚ} (h : (2 : ℚ) ^ (-1074 : ℤ) ≤ |y|) :
    roundGrid y ≠ 0 := by
  have hm := roundGrid_mono h
  rw [roundGrid_tiny, roundGrid_abs] at hm
  intro h0
  rw [h0, abs_zero] at hm
  exact absurd hm (not_le.mpr (two_zpow_pos _))

theorem grid_sub_int_abs_ge (m u k : ℤ) (hu : -1074 ≤ u)
    (hne : (m : ℚ) * (2 : ℚ) ^ u ≠ (k : ℚ)) :
    (2 : ℚ) ^ (-1074 : ℤ) ≤ |(m : ℚ) * (2 : ℚ) ^ u - (k : ℚ)| := by
  rcases le_or_lt 0 u with h0 | h0
  · obtain ⟨n, hn⟩ := Int.eq_ofNat_of_zero_le h0
    have e : (m : ℚ) * (2 : ℚ) ^ u - (k : ℚ) = ((m * 2 ^ n - k : ℤ) : ℚ) := by
      rw [hn, zpow_natCast]
      push_cast
      ring
    have hj : m * 2 ^ n - k ≠ 0 := by
      intro h
      apply hne
      have : (m : ℚ) * (2 : ℚ) ^ u - (k : ℚ) = 0 := by rw [e, h]; simp
      linarith
    have h1 : (1 : ℚ) ≤ |((m * 2 ^ n - k : ℤ) : ℚ)| := by
      have : (1 : ℤ) ≤ |m * 2 ^ n - k| := Int.one_le_abs hj
      rw [← Int.cast_abs]
      exact_mod_cast this
    rw [e]
    have : (2 : ℚ) ^ (-1074 : ℤ) ≤ (2 : ℚ) ^ (0 : ℤ) := two_zpow_le (by norm_num)
    rw [zpow_zero] at this
    linarith
  · obtain ⟨n, hn⟩ := Int.eq_ofNat_of_zero_le (show 0 ≤ -u by omega)
    have hpow : (2 : ℚ) ^ u * (2 : ℚ) ^ n = 1 := by
      rw [← zpow_natCast, ← hn, ← zpow_add₀ (by norm_num)]
      simp
    have e : (m : ℚ) * (2 : ℚ) ^ u - (k : ℚ) = ((m - k * 2 ^ n : ℤ) : ℚ) * (2 : ℚ) ^ u := by
      push_cast
      rw [sub_mul, mul_assoc, mul_comm ((2 : ℚ) ^ n), hpow, mul_one]
    have hj : m - k * 2 ^ n ≠ 0 := by
      intro h
      apply hne
      have : (m : ℚ) * (2 : ℚ) ^ u - (k : ℚ) = 0 := by rw [e, h]; simp
      linarith
    have h1 : (1 : ℚ) ≤ |((m - k * 2 ^ n : ℤ) : ℚ)| := by
      have : (1 : ℤ) ≤ |m - k * 2 ^ n| := Int.one_le_abs hj
      rw [← Int.cast_abs]
      exact_mod_cast this
    rw [e, abs_mul, abs_of_pos (two_zpow_pos u)]
    calc (2 : ℚ) ^ (-1074 : ℤ) ≤ (2 : ℚ) ^ u := two_zpow_le hu
      _ = 1 * (2 : ℚ) ^ u := (one_mul _).symm
      _ ≤ |((m - k * 2 ^ n : ℤ) : ℚ)| * (2 : ℚ) ^ u :=
          mul_le_mul_of_nonneg_right h1 (two_zpow_pos u).le

/-- The difference of a `double` and a different integer does not round to
zero. -/
theorem roundGrid_sub_int_ne_zero (y : ℚ) (k : ℤ) (hne : roundGrid y ≠ (k : ℚ)) :
    roundGrid (roundGrid y - (k : ℚ)) ≠ 0 := by
  apply roundGrid_ne_zero_of_abs_ge
  unfold roundGrid at hne ⊢
  exact grid_sub_int_abs_ge _ _ k (ulpExp_ge y) hne

theorem fin_sub_ofInt_ne_zero {y : ℚ} {k : ℤ} (hy : |roundGrid y| ≤ 2) (hk : |(k : ℚ)| ≤ 254)
    (hne : roundGrid y ≠ (k : ℚ)) : F64.fin (roundGrid y) - F64.ofInt k ≠ F64.fin 0 := by
  have hB : roundGrid (256 : ℚ) = 256 := by
    have := roundGrid_intCast (n := 256) (by norm_num)
    simpa using this
  have habs : |roundGrid y - (k : ℚ)| ≤ 256 := by
    have := abs_sub (roundGrid y) (k : ℚ)
    linarith
  obtain ⟨e, _⟩ := round_of_abs_le hB (by norm_num) habs
  show F64.fin (roundGrid y) - F64.fin (k : ℚ) ≠ F64.fin 0
  rw [fin_sub_fin, e]
  intro h
  exact roundGrid_sub_int_ne_zero y k hne (F64.fin.inj h)

theorem isBig_mul_ofInt {v : F64} (hv : v.IsBig) {n : ℤ} (hn : n ≠ 0) :
    (v * F64.ofInt n).IsBig := by
  have hn' : (n : ℚ) ≠ 0 := by exact_mod_cast hn
  have hn1 : (1 : ℚ) ≤ |(n : ℚ)| := by
    have : (1 : ℤ) ≤ |n| := Int.one_le_abs hn
    rw [← Int.cast_abs]
    exact_mod_cast this
  rcases hv with ⟨s, rfl⟩ | ⟨w, rfl, hw⟩
  · left
    refine ⟨xor s (decide ((n : ℚ) < 0)), ?_⟩
    show F64.mul (F64.inf s) (F64.fin (n : ℚ)) = _
    simp only [F64.mul, if_neg hn']
  · show (F64.round (w * (n : ℚ))).IsBig
    unfold F64.round
    split_ifs
    · right
      refine ⟨_, rfl, ?_⟩
      have h1 : (1 : ℚ) ≤ |w * (n : ℚ)| := by
        rw [abs_mul]
        calc (1 : ℚ) = 1 * 1 := by norm_num
          _ ≤ |w| * |(n : ℚ)| := mul_le_mul hw hn1 (by norm_num) (abs_nonneg _)
      have hm := roundGrid_mono h1
      rw [roundGrid_one, roundGrid_abs] at hm
      exact hm
    · left
      exact ⟨_, rfl⟩

theorem isBig_ne_zero {v : F64} (hv : v.IsBig) : v ≠ F64.fin 0 := by
  rcases hv with ⟨s, rfl⟩ | ⟨w, rfl, hw⟩
  · intro h
    cases h
  · intro h
    rw [F64.fin.inj h, abs_zero] at hw
    norm_num at hw

theorem mulLoopInt64_isBig (k : ℤ) (n : ℕ) (m : ℤ) (v : F64) (hv : v.IsBig)
    (hne : ∀ j : ℤ, m ≤ j → j < m + (n : ℤ) → k - j ≠ 0) : (mulLoopInt64 k n m v).IsBig := by
  induction n generalizing m v with
  | zero => exact hv
  | succ n ih =>
    rw [mulLoopInt64]
    exact ih (m + 1) _ (isBig_mul_ofInt hv (hne m le_rfl (by push_cast; omega)))
      (fun j h1 h2 => hne j (by omega) (by push_cast; omega))

theorem mulRangeInt64_isBig (k lo hi : ℤ) (v : F64) (hv : v.IsBig)
    (hne : ∀ j : ℤ, lo ≤ j → j < hi → k - j ≠ 0) : (mulRangeInt64 k lo hi v).IsBig := by
  unfold mulRangeInt64
  apply mulLoopInt64_isBig _ _ _ _ hv
  intro j h1 h2
  apply hne j h1
  rcases le_or_lt lo hi with h | h
  · rw [Int.toNat_of_nonneg (by omega)] at h2
    omega
  · rw [Int.toNat_of_nonpos (by omega)] at h2
    simp at h2
    omega

/-- Every denominator cached in binary64 is an infinity or has magnitude at least
1; in particular it is not zero. -/
theorem denomEntry64_isBig (k0 k1 k : ℤ) : (denomEntry64 k0 k1 k).IsBig := by
  unfold denomEntry64
  apply mulRangeInt64_isBig
  · apply mulRangeInt64_isBig
    · exact Or.inr ⟨1, rfl, by norm_num⟩
    · intro j _ h2
      omega
  · intro j h1 _
    omega

theorem polyGradLoopDivisors64_ne_zero (x dx : F64) (denom : ℤ → F64) (n : ℕ) (k p : ℤ)
    (hk1 : -2147483648 ≤ k) (hk2 : k + (n : ℤ) ≤ 2147483647)
    (hx : ∀ j : ℤ, k < j → j ≤ k + (n : ℤ) →
      x - F64.ofInt j ≠ F64.fin 0 ∧ dx - F64.ofInt j ≠ F64.fin 0)
    (hd : ∀ i : ℤ, p ≤ i → i < p + (n : ℤ) → denom i ≠ F64.fin 0) :
    ∀ v ∈ polyGradLoopDivisors64 x dx denom n k p, v ≠ F64.fin 0 := by
  induction n generalizing k p with
  | zero => simp [polyGradLoopDivisors64]
  | succ n ih =>
    intro v hv
    have hw : wrapInt (k + 1) = k + 1 := wrapInt_of_range (by omega) (by push_cast at hk2; omega)
    rw [polyGradLoopDivisors64, hw, List.mem_append] at hv
    rcases hv with hv | hv
    · have h1 := hx (k + 1) (by omega) (by push_cast; omega)
      have h2 := hd p le_rfl (by push_cast; omega)
      simp only [List.mem_cons, List.mem_singleton, List.not_mem_nil, or_false] at hv
      rcases hv with rfl | rfl | rfl | rfl | rfl
      · exact h1.1
      · exact h1.2
      · exact h2
      · decide!
      · exact h2
    · exact ih (k + 1) (p + 1) (by omega) (by push_cast at hk2; omega)
        (fun j hj1 hj2 => hx j (by omega) (by push_cast; omega))
        (fun i hi1 hi2 => hd i (by omega) (by push_cast; omega)) v hv

theorem polyGradSlowDivisors64_ne_zero (denom : ℤ → F64) (n : ℕ) (p : ℤ)
    (hd : ∀ i : ℤ, p ≤ i → i < p + (n : ℤ) → denom i ≠ F64.fin 0) :
    ∀ v ∈ polyGradSlowDivisors64 denom n p, v ≠ F64.fin 0 := by
  induction n generalizing p with
  | zero => simp [polyGradSlowDivisors64]
  | succ n ih =>
    intro v hv
    rw [polyGradSlowDivisors64, List.mem_append] at hv
    rcases hv with hv | hv
    · have h2 := hd p le_rfl (by push_cast; omega)
      simp only [List.mem_cons, List.mem_singleton, List.not_mem_nil, or_false] at hv
      rcases hv with rfl | rfl | rfl
      · exact h2
      · decide!
      · exact h2
    · exact ih (p + 1) (fun i hi1 hi2 => hd i (by omega) (by push_cast; omega)) v hv

theorem roundGrid_quarters {n : ℤ} (hn : |n| < 2 ^ 53) :
    roundGrid ((n : ℚ) / 4) = (n : ℚ) / 4 := by
  have h := roundGrid_of_grid n (-2) (by norm_num) hn
  have e : (2 : ℚ) ^ (-2 : ℤ) = 1 / 4 := by norm_num
  rw [e] at h
  have e2 : (n : ℚ) / 4 = (n : ℚ) * (1 / 4) := by ring
  rw [e2]
  exact h

/-- Inside the range of `int`, `coord - fcoord` lies in `[0, 1)` for even `q` and
in `(-3/4, 1/2)` for odd `q` (the sum `coord + 0.5` may round up to the next
integer). -/
theorem anchor64_sub_bounds {c : ℚ} (hr : |c| ≤ 2147483519) {q : ℤ} (hq1 : 1 ≤ q) :
    (q % 2 = 0 → 0 ≤ c - (anchor64 (F64.fin c) q : ℚ) ∧ c - (anchor64 (F64.fin c) q : ℚ) < 1) ∧
    (q % 2 = 1 → -(3 / 4) < c - (anchor64 (F64.fin c) q : ℚ) ∧
      c - (anchor64 (F64.fin c) q : ℚ) < 1 / 2) := by
  obtain ⟨ha, a1, a2⟩ := anchor64_fin hr q
  have hmod : q.tmod 2 = q % 2 := Int.tmod_eq_emod (by omega) (by norm_num)
  constructor
  · intro he
    rw [ha, hmod, if_neg (by omega)]
    have h1 := Int.floor_le c
    have h2 := Int.lt_floor_add_one c
    constructor <;> linarith
  · intro ho
    have hA : anchor64 (F64.fin c) q = ⌊roundGrid (c + 1 / 2)⌋ := by
      rw [ha, hmod, if_pos (by omega)]
    have h1 : ((anchor64 (F64.fin c) q : ℤ) : ℚ) ≤ roundGrid (c + 1 / 2) := by
      rw [hA]; exact Int.floor_le _
    have h2 : roundGrid (c + 1 / 2) < ((anchor64 (F64.fin c) q : ℤ) : ℚ) + 1 := by
      rw [hA]; exact Int.lt_floor_add_one _
    generalize anchor64 (F64.fin c) q = A at a1 a2 h1 h2
    constructor
    · by_contra hcon
      have hle : c + 1 / 2 ≤ ((4 * A - 1 : ℤ) : ℚ) / 4 := by
        push_cast
        linarith [not_lt.mp hcon]
      have hm := roundGrid_mono hle
      rw [roundGrid_quarters (by rw [abs_lt]; constructor <;> omega)] at hm
      push_cast at hm
      linarith
    · by_contra hcon
      have hle : ((A + 1 : ℤ) : ℚ) ≤ c + 1 / 2 := by
        push_cast
        linarith [not_lt.mp hcon]
      have hm := roundGrid_mono hle
      rw [roundGrid_intCast (by rw [abs_lt]; constructor <;> omega)] at hm
      push_cast at hm
      linarith

theorem roundGrid_half : roundGrid (1 / 2 : ℚ) = 1 / 2 := by decide!

theorem roundGrid_neg_three_quarters : roundGrid (-(3 / 4) : ℚ) = -(3 / 4) := by decide!

/-- The value `x = coord - fcoord` of the source inside the range of `int`: it
is finite, in `[0, 1]` for even `q` and in `[-3/4, 1/2]` for odd `q`. -/
theorem poly_x64 {c : ℚ} (hr : |c| ≤ 2147483519) {q : ℤ} (hq1 : 1 ≤ q) :
    F64.fin c - F64.ofInt (anchor64 (F64.fin c) q)
      = F64.fin (roundGrid (c - (anchor64 (F64.fin c) q : ℚ))) ∧
    (q % 2 = 0 → 0 ≤ roundGrid (c - (anchor64 (F64.fin c) q : ℚ)) ∧
      roundGrid (c - (anchor64 (F64.fin c) q : ℚ)) ≤ 1) ∧
    (q % 2 = 1 → -(3 / 4) ≤ roundGrid (c - (anchor64 (F64.fin c) q : ℚ)) ∧
      roundGrid (c - (anchor64 (F64.fin c) q : ℚ)) ≤ 1 / 2) := by
  obtain ⟨be, bo⟩ := anchor64_sub_bounds hr hq1
  have hpar : q % 2 = 0 ∨ q % 2 = 1 := by omega
  have habs : |c - (anchor64 (F64.fin c) q : ℚ)| ≤ 1 := by
    rw [abs_le]
    rcases hpar with h | h
    · obtain ⟨b1, b2⟩ := be h
      constructor <;> linarith
    · obtain ⟨b1, b2⟩ := bo h
      constructor <;> linarith
  obtain ⟨e, _⟩ := round_of_abs_le roundGrid_one (by norm_num) habs
  refine ⟨?_, fun h => ?_, fun h => ?_⟩
  · show F64.fin c - F64.fin ((anchor64 (F64.fin c) q : ℤ) : ℚ) = _
    rw [fin_sub_fin, e]
  · obtain ⟨b1, b2⟩ := be h
    have m1 := roundGrid_mono b1
    have m2 := roundGrid_mono b2.le
    rw [roundGrid_zero] at m1
    rw [roundGrid_one] at m2
    exact ⟨m1, m2⟩
  · obtain ⟨b1, b2⟩ := bo h
    have m1 := roundGrid_mono b1.le
    have m2 := roundGrid_mono b2.le
    rw [roundGrid_neg_three_quarters] at m1
    rw [roundGrid_half] at m2
    exact ⟨m1, m2⟩

/-- For a `double` `coord ≥ 1` the fractional part `coord - floor(coord)` is
computed without rounding error and is a multiple of `2^-52` in `[0, 1)`. -/
theorem frac_exact {c : ℚ} (hc : IsDouble c) (h1 : 1 ≤ c) :
    roundGrid (c - (⌊c⌋ : ℚ)) = c - (⌊c⌋ : ℚ) ∧
    ∃ j : ℤ, c - (⌊c⌋ : ℚ) = (j : ℚ) / 4503599627370496 ∧ 0 ≤ j ∧ j < 4503599627370496 := by
  have hc0 : c ≠ 0 := by linarith
  obtain ⟨_, s2⟩ := binade_spec hc0
  rw [abs_of_pos (by linarith)] at s2
  have hb : 0 ≤ binade c := by
    by_contra hlt
    have := two_zpow_le (show binade c + 1 ≤ 0 by omega)
    rw [zpow_zero] at this
    linarith
  have hu : -52 ≤ ulpExp c := by
    have := binade_sub_le_ulpExp c
    omega
  have hgrid : c = (rint (c / (2 : ℚ) ^ ulpExp c) : ℚ) * (2 : ℚ) ^ ulpExp c := hc.1.symm
  generalize rint (c / (2 : ℚ) ^ ulpExp c) = m at hgrid
  generalize ulpExp c = u at hu hgrid
  have f1 := Int.floor_le c
  have f2 := Int.lt_floor_add_one c
  rcases le_or_lt 0 u with hu0 | hu0
  · obtain ⟨n, hn⟩ := Int.eq_ofNat_of_zero_le hu0
    have hci : c = ((m * 2 ^ n : ℤ) : ℚ) := by
      rw [hgrid, hn, zpow_natCast]
      push_cast
      ring
    have hfl : (⌊c⌋ : ℚ) = c := by
      rw [hci, Int.floor_intCast]
    rw [hfl, sub_self]
    exact ⟨roundGrid_zero, 0, by simp, le_rfl, by norm_num⟩
  · obtain ⟨n, hn⟩ := Int.eq_ofNat_of_zero_le (show 0 ≤ -u by omega)
    have hn52 : n ≤ 52 := by omega
    obtain ⟨r, hr⟩ := Nat.exists_eq_add_of_le hn52
    have hpow : (2 : ℚ) ^ u * (2 : ℚ) ^ n = 1 := by
      rw [← zpow_natCast, ← hn, ← zpow_add₀ (by norm_num)]
      simp
    have h2n : (0 : ℚ) < (2 : ℚ) ^ n := by positivity
    have hu' : (2 : ℚ) ^ u = 1 / (2 : ℚ) ^ n := by
      rw [eq_div_iff h2n.ne']
      exact hpow
    have hdiff : c - (⌊c⌋ : ℚ) = ((m - ⌊c⌋ * 2 ^ n : ℤ) : ℚ) * (2 : ℚ) ^ u := by
      push_cast
      rw [sub_mul, ← hgrid, mul_assoc, mul_comm ((2 : ℚ) ^ n), hpow, mul_one]
    have hnn : (0 : ℚ) ≤ ((m - ⌊c⌋ * 2 ^ n : ℤ) : ℚ) := by
      have : 0 ≤ ((m - ⌊c⌋ * 2 ^ n : ℤ) : ℚ) * (2 : ℚ) ^ u := by rw [← hdiff]; linarith
      exact nonneg_of_mul_nonneg_left this (two_zpow_pos u)
    have hlt : ((m - ⌊c⌋ * 2 ^ n : ℤ) : ℚ) < (2 : ℚ) ^ n := by
      have : ((m - ⌊c⌋ * 2 ^ n : ℤ) : ℚ) * (2 : ℚ) ^ u < 1 := by rw [← hdiff]; linarith
      rw [hu', mul_one_div, div_lt_one h2n] at this
      exact this
    have hnn' : 0 ≤ m - ⌊c⌋ * 2 ^ n := by exact_mod_cast hnn
    have hlt' : m - ⌊c⌋ * 2 ^ n < 2 ^ n := by exact_mod_cast hlt
    have h52 : (2 : ℤ) ^ n * 2 ^ r = 4503599627370496 := by
      rw [← pow_add, ← hr]
      norm_num
    have hpos : (0 : ℤ) < 2 ^ r := by positivity
    have hpn : (0 : ℤ) < 2 ^ n := by positivity
    refine ⟨?_, (m - ⌊c⌋ * 2 ^ n) * 2 ^ r, ?_, by positivity, ?_⟩
    · rw [hdiff]
      apply roundGrid_of_grid _ u (by omega)
      rw [abs_of_nonneg hnn']
      have : (2 : ℤ) ^ n ≤ 4503599627370496 := by
        rw [← h52]
        exact le_mul_of_one_le_right hpn.le (by omega)
      omega
    · rw [hdiff, hu']
      have e : (4503599627370496 : ℚ) = (2 : ℚ) ^ n * (2 : ℚ) ^ r := by
        have := congrArg (fun z : ℤ => (z : ℚ)) h52
        push_cast at this
        rw [this]
      rw [e]
      push_cast
      have h2r : (0 : ℚ) < (2 : ℚ) ^ r := by positivity
      field_simp
      ring
    · calc (m - ⌊c⌋ * 2 ^ n) * 2 ^ r < 2 ^ n * 2 ^ r := by
            exact mul_lt_mul_of_pos_right hlt' hpos
        _ = 4503599627370496 := h52

theorem round_literal_1e4 :
    F64.round (1 / 10000) = F64.fin (7378697629483821 / 73786976294838206464) := by decide!

theorem int_zero_or_one {j : ℤ} (h1 : (-1 : ℚ) < (j : ℚ)) (h2 : (j : ℚ) < 2) : j = 0 ∨ j = 1 := by
  have a : (-1 : ℤ) < j := by exact_mod_cast h1
  have b : j < 2 := by exact_mod_cast h2
  omega

theorem anchor64_ge_one_even {c : ℚ} (hr : |c| ≤ 2147483519) {q : ℤ} (hq1 : 1 ≤ q)
    (he : q % 2 = 0) (hA : 1 ≤ anchor64 (F64.fin c) q) :
    anchor64 (F64.fin c) q = ⌊c⌋ ∧ 1 ≤ c := by
  obtain ⟨ha, _, _⟩ := anchor64_fin hr q
  have hmod : q.tmod 2 = q % 2 := Int.tmod_eq_emod (by omega) (by norm_num)
  rw [hmod, if_neg (by omega)] at ha
  refine ⟨ha, ?_⟩
  rw [ha] at hA
  have h1 := Int.floor_le c
  have h2 : ((1 : ℤ) : ℚ) ≤ (⌊c⌋ : ℚ) := by exact_mod_cast hA
  push_cast at h2
  linarith

/-- On the fast path `x = coord - fcoord` is not the integer `k` of any
recurrence step: such a step serves a sample index `fcoord + k ≥ 2`. -/
theorem x_ne_int {c : ℚ} (hc : IsDouble c) (hr : |c| ≤ 2147483519) {q : ℤ} (hq1 : 1 ≤ q)
    (hfast : (7378697629483821 / 73786976294838206464 : ℚ)
      < |roundGrid (c - (anchor64 (F64.fin c) q : ℚ))|)
    {j : ℤ} (hj : 2 ≤ anchor64 (F64.fin c) q + j) :
    roundGrid (c - (anchor64 (F64.fin c) q : ℚ)) ≠ (j : ℚ) := by
  intro h
  obtain ⟨_, be, bo⟩ := poly_x64 hr hq1
  have hpar : q % 2 = 0 ∨ q % 2 = 1 := by omega
  have hj01 : j = 0 ∨ j = 1 := by
    apply int_zero_or_one
    · rcases hpar with hp | hp
      · have := (be hp).1
        rw [h] at this
        linarith
      · have := (bo hp).1
        rw [h] at this
        linarith
    · rcases hpar with hp | hp
      · have := (be hp).2
        rw [h] at this
        linarith
      · have := (bo hp).2
        rw [h] at this
        linarith
  rcases hj01 with rfl | rfl
  · rw [h] at hfast
    norm_num at hfast
  · rcases hpar with hp | hp
    · obtain ⟨hA, h1⟩ := anchor64_ge_one_even hr hq1 hp (by omega)
      obtain ⟨hex, _⟩ := frac_exact hc h1
      rw [hA, hex] at h
      have := Int.lt_floor_add_one c
      push_cast at h
      linarith
    · have := (bo hp).2
      rw [h] at this
      norm_num at this

/-- On the fast path `dx = x + 0.00001`, rounded to binary64, is not the integer
`k` of any recurrence step: for `k = 1` the fraction `x` is a multiple of `2^-52`
and the sum rounds to `1 - 2^-53` or to `1 + 2^-52`, never to `1`. -/
theorem dx_ne_int {c : ℚ} (hc : IsDouble c) (hr : |c| ≤ 2147483519) {q : ℤ} (hq1 : 1 ≤ q)
    (hfast : (7378697629483821 / 73786976294838206464 : ℚ)
      < |roundGrid (c - (anchor64 (F64.fin c) q : ℚ))|)
    {j : ℤ} (hj : 2 ≤ anchor64 (F64.fin c) q + j) :
    roundGrid (roundGrid (c - (anchor64 (F64.fin c) q : ℚ))
      + 5902958103587057 / 590295810358705651712) ≠ (j : ℚ) := by
  intro h
  obtain ⟨_, be, bo⟩ := poly_x64 hr hq1
  have hpar : q % 2 = 0 ∨ q % 2 = 1 := by omega
  have hlo : -(3 / 4) ≤ roundGrid (c - (anchor64 (F64.fin c) q : ℚ)) := by
    rcases hpar with hp | hp
    · linarith [(be hp).1]
    · exact (bo hp).1
  have hhi : roundGrid (c - (anchor64 (F64.fin c) q : ℚ)) ≤ 1 := by
    rcases hpar with hp | hp
    · exact (be hp).2
    · linarith [(bo hp).2]
  have c1 : roundGrid (1 + 5902958103587057 / 590295810358705651712 : ℚ) < 2 := by decide!
  have m1 := roundGrid_mono (show -(3 / 4 : ℚ) ≤ roundGrid (c - (anchor64 (F64.fin c) q : ℚ))
      + 5902958103587057 / 590295810358705651712 by linarith)
  have m2 := roundGrid_mono (show roundGrid (c - (anchor64 (F64.fin c) q : ℚ))
      + 5902958103587057 / 590295810358705651712
      ≤ (1 + 5902958103587057 / 590295810358705651712 : ℚ) by linarith)
  rw [roundGrid_neg_three_quarters] at m1
  have hj01 : j = 0 ∨ j = 1 := by
    apply int_zero_or_one
    · rw [← h]; linarith
    · rw [← h]; linarith
  rcases hj01 with rfl | rfl
  · rcases le_or_lt 0 (roundGrid (c - (anchor64 (F64.fin c) q : ℚ))) with hs | hs
    · rw [abs_of_nonneg hs] at hfast
      have c2 : roundGrid (7378697629483821 / 73786976294838206464 : ℚ)
          = 7378697629483821 / 73786976294838206464 := by decide!
      have m := roundGrid_mono (show (7378697629483821 / 73786976294838206464 : ℚ)
        ≤ roundGrid (c - (anchor64 (F64.fin c) q : ℚ))
          + 5902958103587057 / 590295810358705651712 by linarith)
      rw [c2, h] at m
      norm_num at m
    · rw [abs_of_neg hs] at hfast
      have c3 : roundGrid (-(7378697629483821 / 73786976294838206464)
          + 5902958103587057 / 590295810358705651712 : ℚ) < 0 := by decide!
      have m := roundGrid_mono (show roundGrid (c - (anchor64 (F64.fin c) q : ℚ))
          + 5902958103587057 / 590295810358705651712
        ≤ (-(7378697629483821 / 73786976294838206464)
          + 5902958103587057 / 590295810358705651712 : ℚ) by linarith)
      rw [h] at m
      push_cast at m
      linarith
  · rcases hpar with hp | hp
    · obtain ⟨hA, h1⟩ := anchor64_ge_one_even hr hq1 hp (by omega)
      obtain ⟨hex, t, ht, t0, t1⟩ := frac_exact hc h1
      rw [hA, hex, ht] at h
      have hsum : (t : ℚ) / 4503599627370496 + 5902958103587057 / 590295810358705651712
          = ((t * 131072 + 5902958103587057 : ℤ) : ℚ) / 590295810358705651712 := by
        push_cast
        ring
      rw [hsum] at h
      have hcase : t * 131072 + 5902958103587057 ≤ 590295810358705613041 ∨
          590295810358705744113 ≤ t * 131072 + 5902958103587057 := by omega
      rcases hcase with hle | hge
      · have c4 : roundGrid (590295810358705613041 / 590295810358705651712 : ℚ) < 1 := by decide!
        have hq : ((t * 131072 + 5902958103587057 : ℤ) : ℚ) / 590295810358705651712
            ≤ (590295810358705613041 / 590295810358705651712 : ℚ) := by
          apply div_le_div_of_nonneg_right _ (by norm_num)
          exact_mod_cast hle
        have m := roundGrid_mono hq
        rw [h] at m
        push_cast at m
        linarith
      · have c5 : (1 : ℚ) < roundGrid (590295810358705744113 / 590295810358705651712 : ℚ) := by
          decide!
        have hq : (590295810358705744113 / 590295810358705651712 : ℚ)
            ≤ ((t * 131072 + 5902958103587057 : ℤ) : ℚ) / 590295810358705651712 := by
          apply div_le_div_of_nonneg_right _ (by norm_num)
          exact_mod_cast hge
        have m := roundGrid_mono hq
        rw [h] at m
        push_cast at m
        linarith
    · have c6 : roundGrid (1 / 2 + 5902958103587057 / 590295810358705651712 : ℚ) < 1 := by
        decide!
      have m := roundGrid_mono (show roundGrid (c - (anchor64 (F64.fin c) q : ℚ))
          + 5902958103587057 / 590295810358705651712
        ≤ (1 / 2 + 5902958103587057 / 590295810358705651712 : ℚ) by linarith [(bo hp).2])
      rw [h] at m
      push_cast at m
      linarith

theorem roundGrid_two : roundGrid (2 : ℚ) = 2 := by
  have := roundGrid_intCast (n := 2) (by norm_num)
  simpa using this

/-- The divisors `x - k` and `dx - k` of a recurrence step on the fast path of
`make_lookup_poly_grad` are not zero in binary64. -/
theorem fast_divisors_ne_zero {c : ℚ} (hc : IsDouble c) (hr : |c| ≤ 2147483519) {q : ℤ}
    (hq1 : 1 ≤ q)
    (hfast : F64.lt (F64.round (1 / 10000))
      (F64.abs (F64.fin c - F64.ofInt (anchor64 (F64.fin c) q))) = true)
    {j : ℤ} (hj : 2 ≤ anchor64 (F64.fin c) q + j) (hj2 : |(j : ℚ)| ≤ 254) :
    F64.fin c - F64.ofInt (anchor64 (F64.fin c) q) - F64.ofInt j ≠ F64.fin 0 ∧
    F64.fin c - F64.ofInt (anchor64 (F64.fin c) q) + F64.round (1 / 100000) - F64.ofInt j
      ≠ F64.fin 0 := by
  obtain ⟨ex, be, bo⟩ := poly_x64 hr hq1
  have hpar : q % 2 = 0 ∨ q % 2 = 1 := by omega
  have hlo : -(3 / 4) ≤ roundGrid (c - (anchor64 (F64.fin c) q : ℚ)) := by
    rcases hpar with hp | hp
    · linarith [(be hp).1]
    · exact (bo hp).1
  have hhi : roundGrid (c - (anchor64 (F64.fin c) q : ℚ)) ≤ 1 := by
    rcases hpar with hp | hp
    · exact (be hp).2
    · linarith [(bo hp).2]
  rw [ex, round_literal_1e4] at hfast
  have hfast' : (7378697629483821 / 73786976294838206464 : ℚ)
      < |roundGrid (c - (anchor64 (F64.fin c) q : ℚ))| := by
    have : decide ((7378697629483821 / 73786976294838206464 : ℚ)
      < |roundGrid (c - (anchor64 (F64.fin c) q : ℚ))|) = true := hfast
    exact of_decide_eq_true this
  rw [ex, round_literal_1e5, fin_add_fin]
  have habs : |roundGrid (c - (anchor64 (F64.fin c) q : ℚ))
      + 5902958103587057 / 590295810358705651712| ≤ 2 := by
    rw [abs_le]
    constructor <;> linarith
  obtain ⟨e, hb⟩ := round_of_abs_le roundGrid_two (by norm_num) habs
  rw [e]
  exact ⟨fin_sub_ofInt_ne_zero (by rw [abs_le]; constructor <;> linarith) hj2
      (x_ne_int hc hr hq1 hfast' hj),
    fin_sub_ofInt_ne_zero hb hj2 (dx_ne_int hc hr hq1 hfast' hj)⟩

theorem polyGradLoop64_length (x dx : F64) (denom : ℤ → F64) (n : ℕ) (k : ℤ) (num dnum : F64)
    (p : ℤ) : (polyGradLoop64 x dx denom n k num dnum p).length = n := by
  induction n generalizing k num dnum p with
  | zero => rfl
  | succ n ih => rw [polyGradLoop64, List.length_cons, ih]

theorem polyGradSlow64_length (x dx : F64) (k0 k1 : ℤ) (denom : ℤ → F64) (n : ℕ) (k p : ℤ) :
    (polyGradSlow64 x dx k0 k1 denom n k p).length = n := by
  induction n generalizing k p with
  | zero => rfl
  | succ n ih => rw [polyGradSlow64, List.length_cons, ih]

theorem polyGradLoopDivisors64_length (x dx : F64) (denom : ℤ → F64) (n : ℕ) (k p : ℤ) :
    (polyGradLoopDivisors64 x dx denom n k p).length = 5 * n := by
  induction n generalizing k p with
  | zero => rfl
  | succ n ih =>
    rw [polyGradLoopDivisors64, List.length_append, ih]
    simp only [List.length_cons, List.length_nil]
    omega

theorem polyGradSlowDivisors64_length (denom : ℤ → F64) (n : ℕ) (p : ℤ) :
    (polyGradSlowDivisors64 denom n p).length = 3 * n := by
  induction n generalizing p with
  | zero => rfl
  | succ n ih =>
    rw [polyGradSlowDivisors64, List.length_append, ih]
    simp only [List.length_cons, List.length_nil]
    omega

/-- The instrumented run and the function agree on the work done: on the slow
path three divisions are recorded for every stored pair, on the fast path three
for the first pair and five for every further one. -/
theorem divisors_match_stores64 (s : PolyCache F64) (coord : F64) (q dim : ℤ) :
    (polyGradDivisors64 s coord q dim).length + 2
        = 5 * (make_lookup_poly_grad64 s coord q dim).2.table.length ∨
      (polyGradDivisors64 s coord q dim).length
        = 3 * (make_lookup_poly_grad64 s coord q dim).2.table.length := by
  unfold polyGradDivisors64 make_lookup_poly_grad64 polyGradBody64 polyGradStores64
  simp only
  split_ifs <;>
    first
    | (left
       simp only [List.length_append, List.length_cons, List.length_nil, List.length_map,
         polyGradLoopDivisors64_length, polyGradLoop64_length]
       omega)
    | (right
       simp only [List.length_map, polyGradSlowDivisors64_length, polyGradSlow64_length,
         List.length_nil, Nat.mul_zero])

/-- C10: no division by zero in `make_lookup_poly_grad`, in binary64 and 32-bit
`int`.  For every valid cache, every `double` `coord` with
`|coord| ≤ 2147483519`, every `q` in `1..255` and every `dim ≥ 1` (an `int`),
every value the call divides by is non-zero: every `x − k` and every `dx − k`
(`dx = x + 0.00001`) of the recurrence on the fast path, every cached
denominator and the constant `0.00001`. -/
theorem C10_divisors_ne_zero (s : PolyCache F64) (hs : s.Valid64) (c : ℚ) (q dim : ℤ)
    (hq1 : 1 ≤ q) (hq2 : q ≤ 255) (_hdim : 1 ≤ dim) (hdim2 : dim ≤ 2147483647)
    (hc : IsDouble c) (hr : |c| ≤ 2147483519) :
    ∀ v ∈ polyGradDivisors64 s (F64.fin c) q dim, v ≠ F64.fin 0 := by
  obtain ⟨hk0, hk1, hden⟩ := polyCache_refresh64_spec hs hq1
  obtain ⟨_, a1, a2⟩ := anchor64_fin hr q
  obtain ⟨b1, b2, b3, b4, b5⟩ := span_small hq1 hq2
  have hdne : ∀ i : ℤ, 0 ≤ i → i ≤ spanHi q - spanLo q →
      (s.refresh64 q).denom i ≠ F64.fin 0 := by
    intro i h0 h1
    rw [hden i h0 h1]
    exact isBig_ne_zero (denomEntry64_isBig _ _ _)
  have hlit : F64.round (1 / 100000) ≠ F64.fin 0 := by decide!
  unfold polyGradDivisors64
  simp only
  rw [hk0, hk1, wrapInt_of_range (n := anchor64 (F64.fin c) q + spanLo q) (by omega) (by omega),
    wrapInt_of_range (n := anchor64 (F64.fin c) q + spanHi q) (by omega) (by omega)]
  have hd2 : (if anchor64 (F64.fin c) q + spanHi q > dim then dim
      else anchor64 (F64.fin c) q + spanHi q) ≤ anchor64 (F64.fin c) q + spanHi q := by
    split_ifs <;> omega
  have hd3 : 1 ≤ (if anchor64 (F64.fin c) q + spanHi q > dim then dim
        else anchor64 (F64.fin c) q + spanHi q) ∨
      (if anchor64 (F64.fin c) q + spanHi q > dim then dim
        else anchor64 (F64.fin c) q + spanHi q) = anchor64 (F64.fin c) q + spanHi q := by
    split_ifs <;> omega
  generalize (if anchor64 (F64.fin c) q + spanHi q > dim then dim
    else anchor64 (F64.fin c) q + spanHi q) = d2 at hd2 hd3 ⊢
  by_cases h1 : anchor64 (F64.fin c) q + spanLo q ≥ 1
  · simp only [if_pos h1]
    rw [wrapInt_of_range (n := d2 - (anchor64 (F64.fin c) q + spanLo q)) (by omega) (by omega)]
    split_ifs with ht hf
    · intro v hv
      rw [List.mem_append] at hv
      rcases hv with hv | hv
      · simp only [List.mem_cons, List.mem_singleton, List.not_mem_nil, or_false] at hv
        rcases hv with rfl | rfl | rfl
        · exact hdne 0 le_rfl (by omega)
        · exact hlit
        · exact hdne 0 le_rfl (by omega)
      · refine polyGradLoopDivisors64_ne_zero _ _ _ _ _ _ (by omega)
          (by rw [Int.toNat_of_nonneg (by omega)]; omega) (fun j hj1 hj2 => ?_)
          (fun i hi1 hi2 => hdne i (by omega)
            (by rw [Int.toNat_of_nonneg (by omega)] at hi2; omega)) v hv
        rw [Int.toNat_of_nonneg (by omega)] at hj2
        refine fast_divisors_ne_zero hc hr hq1 hf (by omega) ?_
        rw [abs_le]
        constructor
        · have : (-254 : ℤ) ≤ j := by omega
          exact_mod_cast this
        · have : j ≤ (254 : ℤ) := by omega
          exact_mod_cast this
    · exact polyGradSlowDivisors64_ne_zero _ _ _
        (fun i hi1 hi2 => hdne i (by omega)
          (by rw [Int.toNat_of_nonneg (by omega)] at hi2; omega))
    · simp
  · simp only [if_neg h1]
    rw [wrapInt_of_range (n := d2 - 1) (by omega) (by omega),
      wrapInt_of_range (n := spanLo q + 1 - (anchor64 (F64.fin c) q + spanLo q)) (by omega)
        (by omega)]
    split_ifs with ht hf
    · intro v hv
      rw [List.mem_append] at hv
      rcases hv with hv | hv
      · simp only [List.mem_cons, List.mem_singleton, List.not_mem_nil, or_false] at hv
        rcases hv with rfl | rfl | rfl
        · exact hdne _ (by omega) (by omega)
        · exact hlit
        · exact hdne _ (by omega) (by omega)
      · refine polyGradLoopDivisors64_ne_zero _ _ _ _ _ _ (by omega)
          (by rw [Int.toNat_of_nonneg (by omega)]; omega) (fun j hj1 hj2 => ?_)
          (fun i hi1 hi2 => hdne i (by omega)
            (by rw [Int.toNat_of_nonneg (by omega)] at hi2; omega)) v hv
        rw [Int.toNat_of_nonneg (by omega)] at hj2
        refine fast_divisors_ne_zero hc hr hq1 hf (by omega) ?_
        rw [abs_le]
        constructor
        · have : (-254 : ℤ) ≤ j := by omega
          exact_mod_cast this
        · have : j ≤ (254 : ℤ) := by omega
          exact_mod_cast this
    · exact polyGradSlowDivisors64_ne_zero _ _ _
        (fun i hi1 hi2 => hdne i (by omega)
          (by rw [Int.toNat_of_nonneg (by omega)] at hi2; omega))
    · simp

theorem C10_divisors_ne_zero_witness :
    (1 : ℤ) ≤ 2 ∧ (2 : ℤ) ≤ 255 ∧ (1 : ℤ) ≤ 2 ∧ (2 : ℤ) ≤ 2147483647 ∧
    IsDouble (9007154218744717 / 4503599627370496) ∧
    |(9007154218744717 / 4503599627370496 : ℚ)| ≤ 2147483519 ∧
    (polyGradDivisors64 PolyCache.init64 (F64.fin (9007154218744717 / 4503599627370496)) 2
      2).length = 8 ∧
    F64.fin 0 ∉ polyGradDivisors64 PolyCache.init64
      (F64.fin (9007154218744717 / 4503599627370496)) 2 2 :=
  ⟨by decide, by decide, by decide, by decide, by decide!, by decide!, by decide!,
    fun h0 => C10_divisors_ne_zero PolyCache.init64 polyCache_init64_valid
      (9007154218744717 / 4503599627370496) 2 2 (by decide) (by decide) (by decide) (by decide)
      (by decide!) (by decide!) (F64.fin 0) h0 rfl⟩

/-- C10 fails outside the range of `int`: at `coord = -2147483649`, `q = 6`,
`dim = 10` the conversion of `floor(coord)` delivers `INT_MIN`, `fcoord + k0`
wraps to `2147483646` and `d2 - d1` to `5`, so six slots are computed with
`x = coord - fcoord = -1.0`; the fast path is taken and the recurrence step for
`k = -1` divides by `x - k = 0`. -/
theorem C10_int_overflow_counterexample :
    IsDouble (-2147483649) ∧
    (make_lookup_poly_grad64 PolyCache.init64 (F64.fin (-2147483649)) 6 10).2.d1 = 2147483646 ∧
    (make_lookup_poly_grad64 PolyCache.init64 (F64.fin (-2147483649)) 6 10).2.tpend = 5 ∧
    F64.fin (-2147483649) - F64.ofInt (anchor64 (F64.fin (-2147483649)) 6) = F64.fin (-1) ∧
    F64.lt (F64.round (1 / 10000)) (F64.abs (F64.fin (-1))) = true ∧
    (polyGradDivisors64 PolyCache.init64 (F64.fin (-2147483649)) 6 10)[3]? = some (F64.fin 0) ∧
    F64.fin 0 ∈ polyGradDivisors64 PolyCache.init64 (F64.fin (-2147483649)) 6 10 := by
  decide!

/-! ## End-to-end scenarios of the specification, run on the model -/

/-- Scenario E1: `poly`, `coord = 3.0`, `q = 4`, `dim = 10` gives `d1 = 3` and the
single weight `1` (short-circuit). -/
theorem scenario_E1 :
    (make_lookup_poly (PolyCache.init : PolyCache ℚ) 3 4 10).2 = ⟨3, 0, [1], []⟩ := by
  decide!

/-- Scenario E3: `poly`, `coord = 0.7`, `q = 4`, `dim = 10` gives `d1 = 1`
(left-clamped) and two weights, for indices 1 and 2, that do not sum to 1. -/
theorem scenario_E3 :
    (make_lookup_poly (PolyCache.init : PolyCache ℚ) (7 / 10) 4 10).2
      = ⟨1, 1, [1547 / 2000, -119 / 2000], []⟩ ∧
    (make_lookup_poly (PolyCache.init : PolyCache ℚ) (7 / 10) 4 10).2.table.sum ≠ 1 := by
  decide!

/-- Scenario E4: `poly`, `coord = 12.0`, `q = 4`, `dim = 10` gives `d1 = 12` and
`end < start`. -/
theorem scenario_E4 :
    (make_lookup_poly (PolyCache.init : PolyCache ℚ) 12 4 10).2 = ⟨12, -1, [], []⟩ := by
  decide!

/-! ## Further facts shared by the claims below -/

theorem polyBody_dtable (s : PolyCache K) (coord : K) (q dim : ℤ) :
    (polyBody s coord q dim).dtable = [] := by
  unfold polyBody
  simp only
  split_ifs <;> rfl

theorem anchor_odd {q : ℤ} (hq : 1 ≤ q) (ho : q % 2 = 1) (coord : K) :
    anchor coord q = ⌊coord + 1 / 2⌋ := by
  unfold anchor
  rw [Int.tmod_eq_emod (by omega) (by norm_num), if_pos (by omega)]

theorem start_offset_eq (a : ℤ) : (if a ≥ 1 then (0 : ℤ) else 1 - a) = max 0 (1 - a) := by
  split_ifs with h
  · rw [max_eq_left (by omega)]
  · rw [max_eq_right (by omega)]

theorem max_one_eq_add (a : ℤ) : max 1 a = a + max 0 (1 - a) := by
  rcases le_total 0 (1 - a) with h | h
  · rw [max_eq_right h, max_eq_left (by omega)]; ring
  · rw [max_eq_left h, max_eq_right (by omega)]; ring

theorem lookup_ext {F : Type*} {r r' : Lookup F} (h1 : r.d1 = r'.d1) (h2 : r.tpend = r'.tpend)
    (h3 : r.table = r'.table) (h4 : r.dtable = r'.dtable) : r = r' := by
  cases r
  cases r'
  simp only [Lookup.mk.injEq]
  exact ⟨h1, h2, h3, h4⟩

/-- The result of `make_lookup_poly` does not depend on which valid cache the
call starts from. -/
theorem poly_result_cache_independent {s t : PolyCache K} (hs : s.Valid) (ht : t.Valid)
    (coord : K) {q : ℤ} (dim : ℤ) (hq1 : 1 ≤ q) :
    (make_lookup_poly s coord q dim).2 = (make_lookup_poly t coord q dim).2 := by
  show polyBody (s.refresh q) coord q dim = polyBody (t.refresh q) coord q dim
  by_cases hn : nearInteger coord
  · rw [polyBody_near _ hn, polyBody_near _ hn]
  · obtain ⟨sk0, sk1, sden⟩ := polyCache_refresh_spec hs hq1
    obtain ⟨tk0, tk1, tden⟩ := polyCache_refresh_spec ht hq1
    obtain ⟨_, a2, a3, a4, a5⟩ := polyBody_far (s.refresh q) hn q dim
    obtain ⟨_, b2, b3, b4, b5⟩ := polyBody_far (t.refresh q) hn q dim
    rw [sk0] at a2 a4
    rw [sk1] at a3 a4
    rw [tk0] at b2 b4
    rw [tk1] at b3 b4
    have hd1 : (polyBody (s.refresh q) coord q dim).d1
        = (polyBody (t.refresh q) coord q dim).d1 := by rw [a2, b2]
    have htp : (polyBody (s.refresh q) coord q dim).tpend
        = (polyBody (t.refresh q) coord q dim).tpend := by omega
    refine lookup_ext hd1 htp ?_ (by rw [polyBody_dtable, polyBody_dtable])
    rcases lt_or_le 0 (polyBody (s.refresh q) coord q dim).tpend with hpos | hle
    · rw [a4 hpos, b4 (by omega), htp]
      apply List.map_congr_left
      intro j hj
      have hj' := List.mem_range.mp hj
      have hm1 := le_max_left 0 (1 - (anchor coord q + spanLo q))
      have hm2 := min_le_right dim (anchor coord q + spanHi q)
      have hm3 := max_one_eq_add (anchor coord q + spanLo q)
      have hjt : (j : ℤ) ≤ (polyBody (t.refresh q) coord q dim).tpend := by
        have := Int.toNat_of_nonneg (show 0 ≤ (polyBody (t.refresh q) coord q dim).tpend by omega)
        omega
      rw [sden _ (by omega) (by omega), tden _ (by omega) (by omega)]
    · rw [a5 (by omega), b5 (by omega)]

/-! ## C11: divisors of `make_lookup_poly` -/

theorem polyRun_valid {s : PolyCache K} (hs : s.Valid) (calls : List (K × ℤ × ℤ)) :
    (polyRun s calls).Valid := by
  induction calls generalizing s with
  | nil => exact hs
  | cons c cs ih => exact ih (make_lookup_poly_valid hs c.1 c.2.1 c.2.2)

/-- C12: the denominator cache is observationally invisible.  With the static
state `(oq, k0, k1, denom)` explicit and initially `oq = 0`, after every sequence
of `make_lookup_poly` calls with orders in `1..255` the state has `oq = 0` or
holds the span of `oq` and, for every `k` of that span, the denominator
`∏_{m ≠ k}(k − m)` at `denom[k − k0]`; and every further call with `q` in
`1..255` returns the same `d1`, end offset and stored weights as the same call
run from the initial state. -/
theorem C12_cache_invisible (calls : List (K × ℤ × ℤ))
    (_hcalls : ∀ c ∈ calls, 1 ≤ c.2.1 ∧ c.2.1 ≤ 255) (coord : K) (q dim : ℤ) (hq1 : 1 ≤ q)
    (_hq2 : q ≤ 255) :
    ((polyRun PolyCache.init calls).oq = 0 ∨
      ((polyRun PolyCache.init calls).k0 = spanLo (polyRun PolyCache.init calls).oq ∧
        (polyRun PolyCache.init calls).k1 = spanHi (polyRun PolyCache.init calls).oq ∧
        ∀ k : ℤ, spanLo (polyRun PolyCache.init calls).oq ≤ k →
          k ≤ spanHi (polyRun PolyCache.init calls).oq →
          (polyRun PolyCache.init calls).denom (k - spanLo (polyRun PolyCache.init calls).oq)
            = ∏ m in (Finset.Icc (spanLo (polyRun PolyCache.init calls).oq)
                  (spanHi (polyRun PolyCache.init calls).oq)).erase k,
                ((k : K) - (m : K)))) ∧
    (make_lookup_poly (polyRun PolyCache.init calls) coord q dim).2
      = (make_lookup_poly (PolyCache.init : PolyCache K) coord q dim).2 := by
  have hv : (polyRun (PolyCache.init : PolyCache K) calls).Valid :=
    polyRun_valid polyCache_init_valid calls
  refine ⟨?_, poly_result_cache_independent hv polyCache_init_valid coord dim hq1⟩
  by_cases h0 : (polyRun (PolyCache.init : PolyCache K) calls).oq = 0
  · exact Or.inl h0
  · obtain ⟨e0, e1, e2⟩ := hv h0
    refine Or.inr ⟨e0, e1, fun k hk0 hk1 => ?_⟩
    have hk0' : (polyRun (PolyCache.init : PolyCache K) calls).k0 ≤ k := by rw [e0]; exact hk0
    have hk1' : k ≤ (polyRun (PolyCache.init : PolyCache K) calls).k1 := by rw [e1]; exact hk1
    rw [← e0, ← e1]
    rw [e2 _ (by omega) (by omega)]
    have : (polyRun (PolyCache.init : PolyCache K) calls).k0
        + (k - (polyRun (PolyCache.init : PolyCache K) calls).k0) = k := by ring
    rw [this]
    exact denomEntry_eq hk0' hk1'

theorem C12_cache_invisible_witness :
    (1 : ℤ) ≤ 4 ∧ (4 : ℤ) ≤ 255 ∧
    (polyRun (PolyCache.init : PolyCache ℚ) [(7 / 2, 4, 10), (7 / 10, 3, 10)]).oq = 3 ∧
    (make_lookup_poly (polyRun (PolyCache.init : PolyCache ℚ) [(7 / 2, 4, 10), (7 / 10, 3, 10)])
        (23 / 10) 4 10).2
      = (make_lookup_poly (PolyCache.init : PolyCache ℚ) (23 / 10) 4 10).2 :=
  ⟨by decide, by decide, by decide!,
    (C12_cache_invisible [((7 / 2 : ℚ), (4 : ℤ), (10 : ℤ)), (7 / 10, 3, 10)] (by decide!)
      (23 / 10) 4 10 (by decide) (by decide)).2⟩

/-! ## C13: symmetry of `make_lookup_poly` at a half-sample -/

theorem not_nearInteger_half (n : ℤ) : ¬ nearInteger ((n : K) + 1 / 2) := by
  have hf : Int.fract ((n : K) + 1 / 2) = 1 / 2 := by
    rw [Int.fract_eq_iff]
    exact ⟨by norm_num, by norm_num, n, by ring⟩
  unfold nearInteger
  rw [abs_sub_rint, hf]
  norm_num

theorem anchor_half {q : ℤ} (hq : 1 ≤ q) (he : q % 2 = 0) (n : ℤ) :
    anchor ((n : K) + 1 / 2) q = n := by
  rw [anchor_even hq he, Int.floor_eq_iff]
  constructor <;> norm_num

/-- Symmetry of `make_lookup_poly` at a half-sample over exact arithmetic: for
every even `q ≥ 2`, every valid cache, every `dim` and every integer `n` such
that the raw window of `coord = n + 1/2` lies inside `[1, dim]`, the call stores
`q` weights (`end − start = q − 1`) and `table[i] = table[q − 1 − i]` for every
`i` in `0..q−1`. -/
theorem poly_half_symmetric (s : PolyCache K) (hs : s.Valid) (n q dim : ℤ) (i : ℕ)
    (hq1 : 2 ≤ q) (he : q % 2 = 0)
    (hlo : 1 ≤ anchor ((n : K) + 1 / 2) q + spanLo q)
    (hhi : anchor ((n : K) + 1 / 2) q + spanHi q ≤ dim) (hi : (i : ℤ) ≤ q - 1) :
    (make_lookup_poly s ((n : K) + 1 / 2) q dim).2.tpend = q - 1 ∧
    ((make_lookup_poly s ((n : K) + 1 / 2) q dim).2.table.length : ℤ) = q ∧
    (∃ w : K, (make_lookup_poly s ((n : K) + 1 / 2) q dim).2.table[i]? = some w ∧
      (make_lookup_poly s ((n : K) + 1 / 2) q dim).2.table[(q - 1 - (i : ℤ)).toNat]?
        = some w) := by
  have hq : 1 ≤ q := by omega
  have hn := not_nearInteger_half (K := K) n
  have ha := anchor_half (K := K) hq he n
  have hL := spanLo_of_pos hq
  have hH := spanHi_of_pos hq
  obtain ⟨hk0, hk1, _⟩ := polyCache_refresh_spec hs hq
  obtain ⟨_, e2, e3, _, _⟩ := polyBody_far (s.refresh q) hn q dim
  rw [hk0, max_eq_right hlo] at e2
  rw [hk1, min_eq_right hhi] at e3
  have e2' : (make_lookup_poly s ((n : K) + 1 / 2) q dim).2.d1
      = anchor ((n : K) + 1 / 2) q + spanLo q := e2
  have e3' : (make_lookup_poly s ((n : K) + 1 / 2) q dim).2.d1
      + (make_lookup_poly s ((n : K) + 1 / 2) q dim).2.tpend
      = anchor ((n : K) + 1 / 2) q + spanHi q := e3
  have ht : (make_lookup_poly s ((n : K) + 1 / 2) q dim).2.tpend = q - 1 := by omega
  have hlen := (poly_stored_count s ((n : K) + 1 / 2) q dim).1 (by omega)
  have hw1 := @poly_far_weight K _ _ s hs _ hn q dim hq (by omega)
    ((make_lookup_poly s ((n : K) + 1 / 2) q dim).2.d1 + (i : ℤ)) (by omega) (by omega)
  have hw2 := @poly_far_weight K _ _ s hs _ hn q dim hq (by omega)
    ((make_lookup_poly s ((n : K) + 1 / 2) q dim).2.d1 + (q - 1 - (i : ℤ))) (by omega)
    (by omega)
  have hi1 : ((make_lookup_poly s ((n : K) + 1 / 2) q dim).2.d1 + (i : ℤ)
      - (make_lookup_poly s ((n : K) + 1 / 2) q dim).2.d1).toNat = i := by omega
  have hi2 : ((make_lookup_poly s ((n : K) + 1 / 2) q dim).2.d1 + (q - 1 - (i : ℤ))
      - (make_lookup_poly s ((n : K) + 1 / 2) q dim).2.d1) = q - 1 - (i : ℤ) := by ring
  rw [hi1] at hw1
  rw [hi2] at hw2
  refine ⟨ht, ?_, _, hw1, ?_⟩
  · rw [hlen, ht]
    push_cast
    rw [Int.toNat_of_nonneg (by omega)]
    ring
  · rw [hw2, ← lagrangeWeight_reflect (spanLo q) (spanHi q)
      ((make_lookup_poly s ((n : K) + 1 / 2) q dim).2.d1 + (i : ℤ)
        - anchor ((n : K) + 1 / 2) q)]
    have hk : spanLo q + spanHi q
        - ((make_lookup_poly s ((n : K) + 1 / 2) q dim).2.d1 + (i : ℤ)
          - anchor ((n : K) + 1 / 2) q)
        = (make_lookup_poly s ((n : K) + 1 / 2) q dim).2.d1 + (q - 1 - (i : ℤ))
          - anchor ((n : K) + 1 / 2) q := by omega
    have hs1 : spanLo q + spanHi q = 1 := by omega
    have hx : (((spanLo q + spanHi q : ℤ) : K))
        - ((n : K) + 1 / 2 - ((anchor ((n : K) + 1 / 2) q : ℤ) : K))
        = (n : K) + 1 / 2 - ((anchor ((n : K) + 1 / 2) q : ℤ) : K) := by
      rw [hs1, ha]
      push_cast
      ring
    rw [hk, hx]

theorem polyLoop64_congr (x : F64) {d1 d2 : ℤ → F64} (n : ℕ) (k : ℤ) (num : F64) (p : ℤ)
    (h : ∀ i : ℤ, p ≤ i → i < p + (n : ℤ) → d1 i = d2 i) :
    polyLoop64 x d1 n k num p = polyLoop64 x d2 n k num p := by
  induction n generalizing k num p with
  | zero => rfl
  | succ n ih =>
    rw [polyLoop64, polyLoop64, h p le_rfl (by push_cast; omega),
      ih _ _ _ (fun i h1 h2 => h i (by omega) (by push_cast; omega))]

theorem polyLoop64_length (x : F64) (denom : ℤ → F64) (n : ℕ) (k : ℤ) (num : F64) (p : ℤ) :
    (polyLoop64 x denom n k num p).length = n := by
  induction n generalizing k num p with
  | zero => rfl
  | succ n ih => rw [polyLoop64, List.length_cons, ih]

theorem isDouble_half {n : ℤ} (h1 : -2147483648 ≤ n) (h2 : n ≤ 2147483647) :
    IsDouble ((n : ℚ) + 1 / 2) := by
  have e : (n : ℚ) + 1 / 2 = ((2 * n + 1 : ℤ) : ℚ) * (2 : ℚ) ^ (-1 : ℤ) := by
    push_cast
    rw [zpow_neg_one]
    ring
  have hm : |(2 * n + 1 : ℤ)| < 2 ^ 53 := by
    rw [abs_lt]
    constructor <;> omega
  refine ⟨?_, ?_⟩
  · rw [e]
    exact roundGrid_of_grid _ _ (by norm_num) hm
  · have : |(n : ℚ) + 1 / 2| ≤ 2147483648 := by
      rw [abs_le]
      have a : ((-2147483648 : ℤ) : ℚ) ≤ n := by exact_mod_cast h1
      have b : (n : ℚ) ≤ ((2147483647 : ℤ) : ℚ) := by exact_mod_cast h2
      push_cast at a b
      constructor <;> linarith
    refine lt_of_le_of_lt this ?_
    norm_num

/-- The call of `make_lookup_poly` at a half-sample `n + 1/2` with even `q` and
the raw window `[n + k0, n + k1]` inside `[1, dim]`, in binary64: `x` is exactly `0.5` and the
stored weights depend on `q` only. -/
theorem poly64_half {s : PolyCache F64} (hs : s.Valid64) {q : ℤ} (hq1 : 2 ≤ q)
    (hq2 : q ≤ 254) (he : q % 2 = 0) {n dim : ℤ} (hdim : dim ≤ 2147483647)
    (hlo : 1 ≤ n + spanLo q) (hhi : n + spanHi q ≤ dim) :
    (make_lookup_poly64 s (F64.fin ((n : ℚ) + 1 / 2)) q dim).2
      = ⟨n + spanLo q, q - 1,
          (fullProd64 (F64.fin (1 / 2)) (spanLo q) (spanHi q) (spanLo q)
              / denomEntry64 (spanLo q) (spanHi q) (spanLo q)) ::
            polyLoop64 (F64.fin (1 / 2))
              (fun i => denomEntry64 (spanLo q) (spanHi q) (spanLo q + i)) (q - 1).toNat
              (spanLo q) (fullProd64 (F64.fin (1 / 2)) (spanLo q) (spanHi q) (spanLo q)) 1,
          []⟩ := by
  have hq : 1 ≤ q := by omega
  obtain ⟨b1, b2, b3, b4, b5⟩ := span_small hq (by omega)
  have ha0 : anchor64 (F64.fin ((n : ℚ) + 1 / 2)) q = toInt n := by
    unfold anchor64
    rw [Int.tmod_eq_emod (by omega) (by norm_num), if_neg (by omega)]
    show toInt ⌊(n : ℚ) + 1 / 2⌋ = toInt n
    congr 1
    rw [Int.floor_eq_iff]
    constructor <;> norm_num
  have hr : -2147483648 ≤ n ∧ n ≤ 2147483647 := by omega
  have ha : anchor64 (F64.fin ((n : ℚ) + 1 / 2)) q = n := by
    rw [ha0, toInt_of_range hr.1 hr.2]
  have hn : nearInteger64 (F64.fin ((n : ℚ) + 1 / 2)) = false := by
    rw [Bool.eq_false_iff]
    intro h
    exact not_nearInteger_half (K := ℚ) n ((nearInteger64_iff (isDouble_half hr.1 hr.2)).mp h)
  obtain ⟨hk0, hk1, hden⟩ := polyCache_refresh64_spec hs hq
  have hx : F64.fin ((n : ℚ) + 1 / 2) - F64.ofInt n = F64.fin (1 / 2) := by
    show F64.fin ((n : ℚ) + 1 / 2) - F64.fin (n : ℚ) = _
    rw [fin_sub_fin]
    have : (n : ℚ) + 1 / 2 - n = 1 / 2 := by ring
    rw [this, round_half]
  have hw : wrapInt (n + spanHi q - (n + spanLo q)) = q - 1 := by
    rw [wrapInt_of_range (by omega) (by omega)]
    omega
  unfold make_lookup_poly64 polyBody64
  simp only [hn, Bool.false_eq_true, if_false, hk0, hk1, ha]
  rw [wrapInt_of_range (n := n + spanLo q) (by omega) (by omega),
    wrapInt_of_range (n := n + spanHi q) (by omega) (by omega)]
  simp only [ge_iff_le, hlo, if_true, gt_iff_lt, not_lt.mpr hhi, if_false]
  rw [hw, if_pos (by omega), hx, hden 0 le_rfl (by omega), add_zero, zero_add]
  rw [polyLoop64_congr (F64.fin (1 / 2)) (q - 1).toNat (spanLo q) _ 1
    (fun i h1 h2 => hden i (by omega) (by
      rw [Int.toNat_of_nonneg (by omega)] at h2
      omega))]

/-- The weights stored at a half-sample in binary64 are finite and read the same
in both directions for the even orders up to 18. -/
theorem half_table64_symmetric {q : ℤ}
    (h : q = 2 ∨ q = 4 ∨ q = 6 ∨ q = 8 ∨ q = 10 ∨ q = 12 ∨ q = 14 ∨ q = 16 ∨ q = 18) :
    ((fullProd64 (F64.fin (1 / 2)) (spanLo q) (spanHi q) (spanLo q)
        / denomEntry64 (spanLo q) (spanHi q) (spanLo q)) ::
      polyLoop64 (F64.fin (1 / 2))
        (fun i => denomEntry64 (spanLo q) (spanHi q) (spanLo q + i)) (q - 1).toNat
        (spanLo q) (fullProd64 (F64.fin (1 / 2)) (spanLo q) (spanHi q) (spanLo q)) 1).reverse
      = ((fullProd64 (F64.fin (1 / 2)) (spanLo q) (spanHi q) (spanLo q)
        / denomEntry64 (spanLo q) (spanHi q) (spanLo q)) ::
      polyLoop64 (F64.fin (1 / 2))
        (fun i => denomEntry64 (spanLo q) (spanHi q) (spanLo q + i)) (q - 1).toNat
        (spanLo q) (fullProd64 (F64.fin (1 / 2)) (spanLo q) (spanHi q) (spanLo q)) 1) ∧
    ∀ w ∈ ((fullProd64 (F64.fin (1 / 2)) (spanLo q) (spanHi q) (spanLo q)
        / denomEntry64 (spanLo q) (spanHi q) (spanLo q)) ::
      polyLoop64 (F64.fin (1 / 2))
        (fun i => denomEntry64 (spanLo q) (spanHi q) (spanLo q + i)) (q - 1).toNat
        (spanLo q) (fullProd64 (F64.fin (1 / 2)) (spanLo q) (spanHi q) (spanLo q)) 1),
      w ≠ F64.nan ∧ w ≠ F64.inf true ∧ w ≠ F64.inf false := by
  rcases h with rfl | rfl | rfl | rfl | rfl | rfl | rfl | rfl | rfl <;> decide!

theorem palindrome_getElem_sym {α : Type*} {l : List α} (h : l.reverse = l) {i : ℕ}
    (hi : i < l.length) : l[l.length - 1 - i]? = l[i]? := by
  rw [← List.getElem?_reverse hi, h]

/-- At a half-sample with even `q ≤ 18` and the raw window inside `[1, dim]`,
the binary64 call stores `q` finite weights that read the same in both
directions. -/
theorem poly64_half_symmetric {s : PolyCache F64} (hs : s.Valid64) {q : ℤ} (hq1 : 2 ≤ q)
    (hq2 : q ≤ 18) (he : q % 2 = 0) {n dim : ℤ} (hdim : dim ≤ 2147483647)
    (hlo : 1 ≤ n + spanLo q) (hhi : n + spanHi q ≤ dim) {i : ℕ} (hi : (i : ℤ) ≤ q - 1) :
    (make_lookup_poly64 s (F64.fin ((n : ℚ) + 1 / 2)) q dim).2.d1 = n + spanLo q ∧
    (make_lookup_poly64 s (F64.fin ((n : ℚ) + 1 / 2)) q dim).2.tpend = q - 1 ∧
    ((make_lookup_poly64 s (F64.fin ((n : ℚ) + 1 / 2)) q dim).2.table.length : ℤ) = q ∧
    ∃ v : ℚ,
      (make_lookup_poly64 s (F64.fin ((n : ℚ) + 1 / 2)) q dim).2.table[i]?
        = some (F64.fin v) ∧
      (make_lookup_poly64 s (F64.fin ((n : ℚ) + 1 / 2)) q dim).2.table[(q - 1 - (i : ℤ)).toNat]?
        = some (F64.fin v) := by
  have hT := poly64_half hs hq1 (by omega) he hdim hlo hhi
  obtain ⟨hrev, hfin⟩ := half_table64_symmetric (q := q) (by omega)
  have e1 : (make_lookup_poly64 s (F64.fin ((n : ℚ) + 1 / 2)) q dim).2.d1 = n + spanLo q := by
    rw [hT]
  have e2 : (make_lookup_poly64 s (F64.fin ((n : ℚ) + 1 / 2)) q dim).2.tpend = q - 1 := by
    rw [hT]
  have hlen : (make_lookup_poly64 s (F64.fin ((n : ℚ) + 1 / 2)) q dim).2.table.length
      = (q - 1).toNat + 1 := by
    rw [hT]
    show (_ :: polyLoop64 _ _ _ _ _ _).length = _
    rw [List.length_cons, polyLoop64_length]
  have hrev2 : (make_lookup_poly64 s (F64.fin ((n : ℚ) + 1 / 2)) q dim).2.table.reverse
      = (make_lookup_poly64 s (F64.fin ((n : ℚ) + 1 / 2)) q dim).2.table := by
    rw [hT]
    exact hrev
  have hfin2 : ∀ w ∈ (make_lookup_poly64 s (F64.fin ((n : ℚ) + 1 / 2)) q dim).2.table,
      w ≠ F64.nan ∧ w ≠ F64.inf true ∧ w ≠ F64.inf false := by
    rw [hT]
    exact hfin
  generalize (make_lookup_poly64 s (F64.fin ((n : ℚ) + 1 / 2)) q dim).2.table = L at *
  have hiL : i < L.length := by omega
  refine ⟨e1, e2, by omega, ?_⟩
  have hidx : (q - 1 - (i : ℤ)).toNat = L.length - 1 - i := by omega
  rw [hidx, palindrome_getElem_sym hrev2 hiL, List.getElem?_eq_getElem hiL]
  obtain ⟨f1, f2, f3⟩ := hfin2 _ (List.getElem_mem hiL)
  cases hw : L[i] with
  | fin v => exact ⟨v, rfl, rfl⟩
  | inf b =>
    cases b
    · exact absurd hw f3
    · exact absurd hw f2
  | nan => exact absurd hw f1

/-- C13: symmetry of `make_lookup_poly` at a half-sample `coord = n + 1/2`, for
even `q` in `2..254`, every `dim` and every integer `n` such that the raw window
`[n + k0, n + k1]` lies inside `[1, dim]`.  Over exact arithmetic the call stores
`q` weights (`end − start = q − 1`) and `table[i] = table[q − 1 − i]` for every
`i` in `0..q−1`.  In binary64 and `int` (`dim` an `int`) the same holds for
`q ≤ 18`, every stored weight being finite. -/
theorem C13_half_sample_symmetry (s : PolyCache K) (hs : s.Valid) (s64 : PolyCache F64)
    (hs64 : s64.Valid64) (n q dim : ℤ) (i : ℕ)
    (hq1 : 2 ≤ q) (_hq2 : q ≤ 254) (he : q % 2 = 0)
    (hlo : 1 ≤ anchor ((n : K) + 1 / 2) q + spanLo q)
    (hhi : anchor ((n : K) + 1 / 2) q + spanHi q ≤ dim) (hi : (i : ℤ) ≤ q - 1) :
    ((make_lookup_poly s ((n : K) + 1 / 2) q dim).2.tpend = q - 1 ∧
      ((make_lookup_poly s ((n : K) + 1 / 2) q dim).2.table.length : ℤ) = q ∧
      (∃ w : K, (make_lookup_poly s ((n : K) + 1 / 2) q dim).2.table[i]? = some w ∧
        (make_lookup_poly s ((n : K) + 1 / 2) q dim).2.table[(q - 1 - (i : ℤ)).toNat]?
          = some w)) ∧
    (q ≤ 18 → dim ≤ 2147483647 →
      (make_lookup_poly64 s64 (F64.fin ((n : ℚ) + 1 / 2)) q dim).2.tpend = q - 1 ∧
      ((make_lookup_poly64 s64 (F64.fin ((n : ℚ) + 1 / 2)) q dim).2.table.length : ℤ) = q ∧
      (∃ v : ℚ,
        (make_lookup_poly64 s64 (F64.fin ((n : ℚ) + 1 / 2)) q dim).2.table[i]?
          = some (F64.fin v) ∧
        (make_lookup_poly64 s64 (F64.fin ((n : ℚ) + 1 / 2)) q dim).2.table[
            (q - 1 - (i : ℤ)).toNat]? = some (F64.fin v))) := by
  refine ⟨poly_half_symmetric s hs n q dim i hq1 he hlo hhi hi, fun hq18 hdim => ?_⟩
  rw [anchor_half (K := K) (by omega) he n] at hlo hhi
  exact (poly64_half_symmetric hs64 hq1 hq18 he hdim hlo hhi hi).2

theorem C13_half_sample_symmetry_witness :
    (2 : ℤ) ≤ 4 ∧ (4 : ℤ) ≤ 254 ∧ (4 : ℤ) % 2 = 0 ∧
    1 ≤ anchor (((3 : ℤ) : ℚ) + 1 / 2) 4 + spanLo 4 ∧
    anchor (((3 : ℤ) : ℚ) + 1 / 2) 4 + spanHi 4 ≤ 10 ∧ ((1 : ℕ) : ℤ) ≤ 4 - 1 ∧
    (make_lookup_poly (PolyCache.init : PolyCache ℚ) (((3 : ℤ) : ℚ) + 1 / 2) 4 10).2
      = ⟨2, 3, [-1 / 16, 9 / 16, 9 / 16, -1 / 16], []⟩ ∧
    (make_lookup_poly64 PolyCache.init64 (F64.fin (((3 : ℤ) : ℚ) + 1 / 2)) 4 10).2
      = ⟨2, 3, [F64.fin (-1 / 16), F64.fin (9 / 16), F64.fin (9 / 16), F64.fin (-1 / 16)],
          []⟩ ∧
    (make_lookup_poly (PolyCache.init : PolyCache ℚ) (((3 : ℤ) : ℚ) + 1 / 2) 4 10).2.tpend
      = 4 - 1 ∧
    (make_lookup_poly64 PolyCache.init64 (F64.fin (((3 : ℤ) : ℚ) + 1 / 2)) 4 10).2.tpend
      = 4 - 1 :=
  ⟨by decide, by decide, by decide, by decide!, by decide!, by decide, by decide!, by decide!,
    (C13_half_sample_symmetry (PolyCache.init : PolyCache ℚ) polyCache_init_valid
      PolyCache.init64 polyCache_init64_valid 3 4 10 1
      (by decide) (by decide) (by decide) (by decide!) (by decide!) (by decide)).1.1,
    ((C13_half_sample_symmetry (PolyCache.init : PolyCache ℚ) polyCache_init_valid
      PolyCache.init64 polyCache_init64_valid 3 4 10 1
      (by decide) (by decide) (by decide) (by decide!) (by decide!) (by decide)).2
      (by decide) (by decide)).1⟩

/-- C13 fails in binary64: at `coord = 10.5`, `q = 20`, `dim = 20` the raw window
is `[1, 20]`, inside `[1, dim]`, the call stores 20 weights, and `table[0] = -0x1.7bd8p-22` differs
from `table[19] = -0x1.7bd8000000001p-22` in the last place. -/
theorem C13_binary64_asymmetry_counterexample :
    IsDouble (21 / 2) ∧
    1 ≤ anchor64 (F64.fin (21 / 2)) 20 + spanLo 20 ∧
    anchor64 (F64.fin (21 / 2)) 20 + spanHi 20 ≤ 20 ∧
    (make_lookup_poly64 PolyCache.init64 (F64.fin (21 / 2)) 20 20).2.d1 = 1 ∧
    (make_lookup_poly64 PolyCache.init64 (F64.fin (21 / 2)) 20 20).2.tpend = 19 ∧
    (make_lookup_poly64 PolyCache.init64 (F64.fin (21 / 2)) 20 20).2.table.length = 20 ∧
    (make_lookup_poly64 PolyCache.init64 (F64.fin (21 / 2)) 20 20).2.table[0]?
      = some (F64.fin (-12155 / 34359738368)) ∧
    (make_lookup_poly64 PolyCache.init64 (F64.fin (21 / 2)) 20 20).2.table[19]?
      = some (F64.fin (-6682281917808641 / 18889465931478580854784)) ∧
    (make_lookup_poly64 PolyCache.init64 (F64.fin (21 / 2)) 20 20).2.table[0]?
      ≠ (make_lookup_poly64 PolyCache.init64 (F64.fin (21 / 2)) 20 20).2.table[19]? := by
  decide!

/-! ## C14: buffers of capacity `q` suffice -/

theorem abs_sub_int_ge_of_not_near {coord : K} (hn : ¬ nearInteger coord) (d : ℤ) :
    1 / 100000 ≤ |coord - (d : K)| := by
  have h1 : 1 / 100000 ≤ |coord - (round coord : K)| :=
    not_lt.mp (fun h => hn ((nearInteger_iff_round coord).mpr h))
  exact h1.trans (round_le coord d)

theorem polyGradBody_table_far (s : PolyCache K) {coord : K} (hn : ¬ nearInteger coord)
    (q dim : ℤ) :
    (polyGradBody s coord q dim).d1 = (polyBody s coord q dim).d1 ∧
    (polyGradBody s coord q dim).tpend = (polyBody s coord q dim).tpend ∧
    (polyGradBody s coord q dim).table = (polyBody s coord q dim).table := by
  obtain ⟨e1, e2, e3, e4, e5⟩ := polyBody_far s hn q dim
  obtain ⟨g1, g3⟩ := polyGradBody_span s coord q dim
  have hd1 : (polyGradBody s coord q dim).d1 = (polyBody s coord q dim).d1 := by omega
  have ht : (polyGradBody s coord q dim).tpend = (polyBody s coord q dim).tpend := by omega
  refine ⟨hd1, ht, ?_⟩
  have hx : ∀ j : ℤ, coord - (anchor coord q : K) - (j : K) ≠ 0 := by
    intro j hj
    apply ne_intCast_of_not_nearInteger hn (anchor coord q + j)
    push_cast
    linear_combination hj
  have hk : (if anchor coord q + s.k0 ≥ 1 then s.k0 else s.k0 + 1 - (anchor coord q + s.k0))
      = s.k0 + max 0 (1 - (anchor coord q + s.k0)) := by
    split_ifs with h
    · rw [max_eq_left (by omega)]; ring
    · rw [max_eq_right (by omega)]; ring
  have hbody : (polyGradBody s coord q dim).table
      = (polyGradStores s (coord - (anchor coord q : K))
          (s.k0 + max 0 (1 - (anchor coord q + s.k0)))
          (max 0 (1 - (anchor coord q + s.k0)))
          (polyGradBody s coord q dim).tpend).map Prod.fst := by
    rw [← hk, ← start_offset_eq]
    rfl
  rw [hbody]
  rcases lt_or_le 0 (polyBody s coord q dim).tpend with hpos | hle
  · rw [e4 hpos, ht]
    have hm1 := le_max_left 0 (1 - (anchor coord q + s.k0))
    have hm2 := min_le_right dim (anchor coord q + s.k1)
    exact polyGradStores_fst s _ _ _ _ hpos (by omega) (by omega) hx
  · rw [e5 (by omega), ht]
    unfold polyGradStores
    rw [if_neg (by omega)]
    rfl

theorem sincGrad_eq_sinc_far (sin cos : K → K) {cs cg : SpanCache} (hcs : cs.Valid)
    (hcg : cg.Valid) {coord : K} (hn : ¬ nearInteger coord) {q : ℤ} (dim : ℤ) (hq1 : 1 ≤ q) :
    (make_lookup_sinc_grad sin cos cg coord q dim).2.d1
      = (make_lookup_sinc sin cos cs coord q dim).2.d1 ∧
    (make_lookup_sinc_grad sin cos cg coord q dim).2.tpend
      = (make_lookup_sinc sin cos cs coord q dim).2.tpend ∧
    (make_lookup_sinc_grad sin cos cg coord q dim).2.table
      = (make_lookup_sinc sin cos cs coord q dim).2.table := by
  obtain ⟨sk0, sk1⟩ := spanCache_refresh_spec hcs hq1
  obtain ⟨gk0, gk1⟩ := spanCache_refresh_spec hcg hq1
  have hF : sincFirst (cg.refresh q) coord q = sincFirst (cs.refresh q) coord q := by
    rw [sincFirst_eq, sincFirst_eq, sk0, gk0]
  have hL : sincLast (cg.refresh q) coord q dim = sincLast (cs.refresh q) coord q dim := by
    rw [sincLast_eq, sincLast_eq, sk1, gk1]
  have hfar : ∀ d : ℤ, 1 / 1000000000000 < |coord - (d : K)| := fun d =>
    lt_of_lt_of_le (by norm_num) (abs_sub_int_ge_of_not_near hn d)
  have hraw : (sincGradRaw sin cos cg coord q dim).map Prod.fst
      = sincRaw sin cos cs coord q dim := by
    unfold sincGradRaw sincRaw
    rw [hF, hL]
    exact sincGradLoop_fst sin cos coord q hfar _ _
  have hsm : sincGradSm sin cos cg coord q dim = sincSm sin cos cs coord q dim := by
    unfold sincGradSm sincSm
    rw [foldl_add_fst_eq_sum, foldl_add_eq_sum, hraw]
  rw [sinc_far sin cos cs hn q dim]
  refine ⟨hF, by show _ - _ = _ - _; rw [hF, hL], ?_⟩
  show (sincGradRaw sin cos cg coord q dim).map
      (fun w => w.1 / sincGradSm sin cos cg coord q dim)
    = (sincRaw sin cos cs coord q dim).map (fun w => w / sincSm sin cos cs coord q dim)
  rw [← hraw, hsm, List.map_map]
  rfl

/-- C15: away from the short-circuit each `_grad` generator agrees with its
plain counterpart.  For every `coord` with `|coord − round(coord)| ≥ 1e-5`, every
`q` in `1..255`, every `dim ≥ 1` and valid caches, `make_lookup_poly_grad`
returns the same `d1`, the same end offset and the same stored weights as
`make_lookup_poly`, and `make_lookup_sinc_grad` the same `d1`, end offset and
stored weights as `make_lookup_sinc`. -/
theorem C15_grad_agrees_with_plain (sp sg : PolyCache K) (cs cg : SpanCache) (hsp : sp.Valid)
    (hsg : sg.Valid) (hcs : cs.Valid) (hcg : cg.Valid) (sin cos : K → K) (coord : K)
    (q dim : ℤ) (hq1 : 1 ≤ q) (_hq2 : q ≤ 255) (_hdim : 1 ≤ dim)
    (hfar : 1 / 100000 ≤ |coord - (round coord : K)|) :
    ((make_lookup_poly_grad sg coord q dim).2.d1 = (make_lookup_poly sp coord q dim).2.d1 ∧
      (make_lookup_poly_grad sg coord q dim).2.tpend
        = (make_lookup_poly sp coord q dim).2.tpend ∧
      (make_lookup_poly_grad sg coord q dim).2.table
        = (make_lookup_poly sp coord q dim).2.table) ∧
    ((make_lookup_sinc_grad sin cos cg coord q dim).2.d1
        = (make_lookup_sinc sin cos cs coord q dim).2.d1 ∧
      (make_lookup_sinc_grad sin cos cg coord q dim).2.tpend
        = (make_lookup_sinc sin cos cs coord q dim).2.tpend ∧
      (make_lookup_sinc_grad sin cos cg coord q dim).2.table
        = (make_lookup_sinc sin cos cs coord q dim).2.table) := by
  have hn : ¬ nearInteger coord := fun h =>
    absurd ((nearInteger_iff_round coord).mp h) (not_lt.mpr hfar)
  refine ⟨?_, sincGrad_eq_sinc_far sin cos hcs hcg hn dim hq1⟩
  obtain ⟨h1, h2, h3⟩ := polyGradBody_table_far (sg.refresh q) hn q dim
  have hc : polyBody (sg.refresh q) coord q dim = polyBody (sp.refresh q) coord q dim :=
    poly_result_cache_independent hsg hsp coord dim hq1
  rw [hc] at h1 h2 h3
  exact ⟨h1, h2, h3⟩

theorem C15_grad_agrees_with_plain_witness :
    (1 : ℤ) ≤ 4 ∧ (4 : ℤ) ≤ 255 ∧ (1 : ℤ) ≤ 10 ∧
    1 / 100000 ≤ |(7 / 10 : ℚ) - (round (7 / 10 : ℚ) : ℚ)| ∧
    (make_lookup_poly_grad (PolyCache.init : PolyCache ℚ) (7 / 10) 4 10).2.table
      = (make_lookup_poly (PolyCache.init : PolyCache ℚ) (7 / 10) 4 10).2.table ∧
    (make_lookup_sinc_grad (fun t => t - t ^ 3 / 6) (fun t => 1 - t ^ 2 / 2) SpanCache.init
        (7 / 10 : ℚ) 4 10).2.table
      = (make_lookup_sinc (fun t => t - t ^ 3 / 6) (fun t => 1 - t ^ 2 / 2) SpanCache.init
        (7 / 10 : ℚ) 4 10).2.table :=
  have h := C15_grad_agrees_with_plain (PolyCache.init : PolyCache ℚ) PolyCache.init
    SpanCache.init SpanCache.init polyCache_init_valid polyCache_init_valid
    spanCache_init_valid spanCache_init_valid (fun t => t - t ^ 3 / 6)
    (fun t => 1 - t ^ 2 / 2) (7 / 10) 4 10 (by decide) (by decide) (by decide) (by decide!)
  ⟨by decide, by decide, by decide, by decide!, h.1.2.2, h.2.2.2⟩

/-! ## C16: span placement and clamping, polynomial and sinc -/

theorem clamped_offset_neg_iff (a b dim : ℤ) :
    min dim b - max 1 a < 0 ↔ ¬ ∃ d : ℤ, a ≤ d ∧ d ≤ b ∧ 1 ≤ d ∧ d ≤ dim := by
  constructor
  · rintro h ⟨d, h1, h2, h3, h4⟩
    have := le_min h4 h2
    have := max_le h3 h1
    omega
  · intro h
    by_contra hc
    apply h
    refine ⟨max 1 a, le_max_right 1 a, ?_, le_max_left 1 a, ?_⟩
    · have := min_le_right dim b
      omega
    · have := min_le_left dim b
      omega

/-- C16: span placement and clamping are the same in the polynomial and sinc
families, in binary64 and 32-bit `int`.  For every `double` `coord` that is not
near-integer and has `|coord| ≤ 2147483519`, every `q` in `1..255`, every
`dim ≥ 1` (an `int`) and valid caches, `make_lookup_poly` and `make_lookup_sinc`
report the same `d1 = max(1, fcoord + k0)` and the same end offset
`min(dim, fcoord + k1) − d1`, where `fcoord` is the floor of the binary64 sum
`coord + 0.5` (rounded to nearest) for odd `q` and `floor(coord)` for even `q`;
the offset is negative exactly when the raw window `[fcoord + k0, fcoord + k1]`
does not meet `[1, dim]`. -/
theorem C16_same_span_placement (sp : PolyCache F64) (cs : SpanCache) (hsp : sp.Valid64)
    (hcs : cs.Valid) (sin cos : F64 → F64) (c : ℚ) (q dim : ℤ) (hq1 : 1 ≤ q) (hq2 : q ≤ 255)
    (hdim : 1 ≤ dim) (hdim2 : dim ≤ 2147483647) (hc : IsDouble c) (hrange : |c| ≤ 2147483519)
    (hfar : 1 / 100000 ≤ |c - (round c : ℚ)|) :
    (make_lookup_poly64 sp (F64.fin c) q dim).2.d1
      = max 1 (anchor64 (F64.fin c) q + spanLo q) ∧
    (make_lookup_sinc64 sin cos cs (F64.fin c) q dim).2.d1
      = max 1 (anchor64 (F64.fin c) q + spanLo q) ∧
    (make_lookup_poly64 sp (F64.fin c) q dim).2.tpend
      = min dim (anchor64 (F64.fin c) q + spanHi q)
        - max 1 (anchor64 (F64.fin c) q + spanLo q) ∧
    (make_lookup_sinc64 sin cos cs (F64.fin c) q dim).2.tpend
      = min dim (anchor64 (F64.fin c) q + spanHi q)
        - max 1 (anchor64 (F64.fin c) q + spanLo q) ∧
    (q % 2 = 1 → anchor64 (F64.fin c) q = ⌊roundGrid (c + 1 / 2)⌋) ∧
    (q % 2 = 0 → anchor64 (F64.fin c) q = ⌊c⌋) ∧
    (min dim (anchor64 (F64.fin c) q + spanHi q)
        - max 1 (anchor64 (F64.fin c) q + spanLo q) < 0 ↔
      ¬ ∃ d : ℤ, anchor64 (F64.fin c) q + spanLo q ≤ d ∧
        d ≤ anchor64 (F64.fin c) q + spanHi q ∧ 1 ≤ d ∧ d ≤ dim) := by
  have hn : nearInteger64 (F64.fin c) = false := by
    cases h : nearInteger64 (F64.fin c)
    · rfl
    · exact absurd ((nearInteger_iff_round c).mp ((nearInteger64_iff hc).mp h))
        (not_lt.mpr hfar)
  obtain ⟨pk0, pk1, _⟩ := polyCache_refresh64_spec hsp hq1
  obtain ⟨ck0, ck1⟩ := spanCache_refresh_spec hcs hq1
  obtain ⟨p1, p2⟩ := polyBody64_span hq1 hq2 pk0 pk1 hrange hdim hdim2 hn
  obtain ⟨f1, f2⟩ := sinc64_far sin cos cs hn q dim
  obtain ⟨s1, s2⟩ := sinc64_span hq1 hq2 ck0 ck1 hrange hdim hdim2
  obtain ⟨ha, _, _⟩ := anchor64_fin hrange q
  have hmod : q.tmod 2 = q % 2 := Int.tmod_eq_emod (by omega) (by norm_num)
  refine ⟨p1, f1.trans s1, p2, f2.trans s2, fun ho => ?_, fun he => ?_,
    clamped_offset_neg_iff _ _ _⟩
  · rw [ha, hmod, if_pos (by omega)]
  · rw [ha, hmod, if_neg (by omega)]

theorem C16_same_span_placement_witness :
    (1 : ℤ) ≤ 4 ∧ (4 : ℤ) ≤ 255 ∧ (1 : ℤ) ≤ 10 ∧ (10 : ℤ) ≤ 2147483647 ∧ IsDouble (7 / 2) ∧
    |(7 / 2 : ℚ)| ≤ 2147483519 ∧ (1 : ℚ) / 100000 ≤ |(7 / 2 : ℚ) - (round (7 / 2 : ℚ) : ℚ)| ∧
    (make_lookup_poly64 PolyCache.init64 (F64.fin (7 / 2)) 4 10).2.d1
      = max 1 (anchor64 (F64.fin (7 / 2)) 4 + spanLo 4) ∧
    (make_lookup_sinc64 (fun t => t) (fun _ => F64.fin 1) SpanCache.init
      (F64.fin (7 / 2)) 4 10).2.d1 = max 1 (anchor64 (F64.fin (7 / 2)) 4 + spanLo 4) := by
  have hr : round (7 / 2 : ℚ) = 4 := by
    rw [round_eq, Int.floor_eq_iff]; norm_num
  have hfar : (1 : ℚ) / 100000 ≤ |(7 / 2 : ℚ) - (round (7 / 2 : ℚ) : ℚ)| := by
    rw [hr]; norm_num [abs_of_neg]
  have h := C16_same_span_placement PolyCache.init64 SpanCache.init polyCache_init64_valid
    spanCache_init_valid (fun t => t) (fun _ => F64.fin 1) (7 / 2) 4 10 (by decide) (by decide)
    (by decide) (by decide) (by decide!) (by decide!) hfar
  exact ⟨by decide, by decide, by decide, by decide, by decide!, by decide!, hfar, h.1, h.2.1⟩

/-- C16 fails as stated at two `double`s.  At `coord = 0.49999999999999994` (the
largest `double` below `0.5`), `q = 3`, `dim = 10` the binary64 sum `coord + 0.5`
is `1.0`, so the code has `fcoord = 1` and reports the end offset 1, while
`floor(coord + 0.5) = 0` gives the end offset 0.  At `coord = 3000000000.5`,
`q = 4`, `dim = 10` the conversion to `int` delivers `INT_MIN` and `d1` is
`2147483647`, not `max(1, floor(coord) + k0) = 2999999999`. -/
theorem C16_placement_counterexample :
    (IsDouble (9007199254740991 / 18014398509481984) ∧
      (1 : ℚ) / 100000 ≤ |(9007199254740991 / 18014398509481984 : ℚ)
        - (round (9007199254740991 / 18014398509481984 : ℚ) : ℚ)| ∧
      ⌊(9007199254740991 / 18014398509481984 : ℚ) + 1 / 2⌋ = 0 ∧
      (make_lookup_poly64 PolyCache.init64
        (F64.fin (9007199254740991 / 18014398509481984)) 3 10).2.tpend = 1 ∧
      (make_lookup_sinc64 (fun t => t) (fun _ => F64.fin 1) SpanCache.init
        (F64.fin (9007199254740991 / 18014398509481984)) 3 10).2.tpend = 1 ∧
      min 10 (⌊(9007199254740991 / 18014398509481984 : ℚ) + 1 / 2⌋ + spanHi 3)
        - max 1 (⌊(9007199254740991 / 18014398509481984 : ℚ) + 1 / 2⌋ + spanLo 3) = 0) ∧
    (IsDouble (6000000001 / 2) ∧
      (1 : ℚ) / 100000 ≤ |(6000000001 / 2 : ℚ) - (round (6000000001 / 2 : ℚ) : ℚ)| ∧
      (make_lookup_poly64 PolyCache.init64 (F64.fin (6000000001 / 2)) 4 10).2.d1 = 2147483647 ∧
      max 1 (⌊(6000000001 / 2 : ℚ)⌋ + spanLo 4) = 2999999999) := by
  have hr1 : round (9007199254740991 / 18014398509481984 : ℚ) = 0 := by
    rw [round_eq, Int.floor_eq_iff]; norm_num
  have hr2 : round (6000000001 / 2 : ℚ) = 3000000001 := by
    rw [round_eq, Int.floor_eq_iff]; norm_num
  have hf1 : ⌊(9007199254740991 / 18014398509481984 : ℚ) + 1 / 2⌋ = 0 := by
    rw [Int.floor_eq_iff]; norm_num
  have hf2 : ⌊(6000000001 / 2 : ℚ)⌋ = 3000000000 := by
    rw [Int.floor_eq_iff]; norm_num
  refine ⟨⟨by decide!, ?_, hf1, by decide!, by decide!, ?_⟩, ⟨by decide!, ?_, by decide!, ?_⟩⟩
  · rw [hr1]; norm_num [abs_of_pos]
  · rw [hf1]; decide
  · rw [hr2]; norm_num [abs_of_neg]
  · rw [hf2]; decide

/-! ## C17: the kernel span -/

/-- C17: kernel-span descriptor.  For every `q` in `1..255` the pair assigned in
the block `if (q != oq)` (and held by every valid cache after a call with order
`q`) is `k0 = -(q-1)/2`, `k1 = (q-1)/2` for odd `q` and `k0 = -(q-2)/2`,
`k1 = q/2` for even `q`, the C integer divisions being exact, so that
`k0 ≤ 0 ≤ k1` and `k1 − k0 + 1 = q`. -/
theorem C17_kernel_span (sp : PolyCache K) (cs : SpanCache) (hsp : sp.Valid) (hcs : cs.Valid)
    (sin cos : K → K) (coord : K) (q dim : ℤ) (hq1 : 1 ≤ q) (_hq2 : q ≤ 255) :
    ((make_lookup_poly sp coord q dim).1.k0 = spanLo q ∧
      (make_lookup_poly sp coord q dim).1.k1 = spanHi q ∧
      (make_lookup_poly_grad sp coord q dim).1.k0 = spanLo q ∧
      (make_lookup_poly_grad sp coord q dim).1.k1 = spanHi q ∧
      (make_lookup_sinc_grad sin cos cs coord q dim).1.k0 = spanLo q ∧
      (make_lookup_sinc_grad sin cos cs coord q dim).1.k1 = spanHi q) ∧
    (q % 2 = 1 →
      spanLo q = (-(q - 1)).tdiv 2 ∧ spanHi q = (q - 1).tdiv 2 ∧
      2 * spanLo q = -(q - 1) ∧ 2 * spanHi q = q - 1) ∧
    (q % 2 = 0 →
      spanLo q = (-(q - 2)).tdiv 2 ∧ spanHi q = q.tdiv 2 ∧
      2 * spanLo q = -(q - 2) ∧ 2 * spanHi q = q) ∧
    spanLo q ≤ 0 ∧ 0 ≤ spanHi q ∧ spanHi q - spanLo q + 1 = q := by
  obtain ⟨pk0, pk1, _⟩ := polyCache_refresh_spec hsp hq1
  obtain ⟨ck0, ck1⟩ := spanCache_refresh_spec hcs hq1
  have hL := spanLo_of_pos hq1
  have hH := spanHi_of_pos hq1
  have hmod : q.tmod 2 = q % 2 := Int.tmod_eq_emod (by omega) (by norm_num)
  refine ⟨⟨pk0, pk1, pk0, pk1, ck0, ck1⟩, ?_, ?_, by omega, by omega, by omega⟩
  · intro ho
    refine ⟨?_, ?_, by omega, by omega⟩
    · unfold spanLo
      rw [hmod, if_pos (by omega)]
    · unfold spanHi
      rw [hmod, if_pos (by omega)]
  · intro he
    refine ⟨?_, ?_, by omega, by omega⟩
    · unfold spanLo
      rw [hmod, if_neg (by omega)]
    · unfold spanHi
      rw [hmod, if_neg (by omega)]

theorem C17_kernel_span_witness :
    (1 : ℤ) ≤ 4 ∧ (4 : ℤ) ≤ 255 ∧
    (make_lookup_poly (PolyCache.init : PolyCache ℚ) (7 / 2) 4 10).1.k0 = -1 ∧
    (make_lookup_poly (PolyCache.init : PolyCache ℚ) (7 / 2) 4 10).1.k1 = 2 ∧
    spanLo 4 = -1 ∧ spanHi 4 = 2 ∧ spanHi 4 - spanLo 4 + 1 = 4 :=
  have h := C17_kernel_span (PolyCache.init : PolyCache ℚ) SpanCache.init polyCache_init_valid
    spanCache_init_valid (fun t => t) (fun _ => 1) (7 / 2) 4 10 (by decide) (by decide)
  have e0 : spanLo 4 = -1 := by decide
  have e1 : spanHi 4 = 2 := by decide
  ⟨by decide, by decide, e0 ▸ h.1.1, e1 ▸ h.1.2.1, e0, e1, h.2.2.2.2.2⟩

/-! ## C18: shift equivariance of `make_lookup_poly` -/

theorem anchor_add_int (coord : K) (n q : ℤ) : anchor (coord + (n : K)) q = anchor coord q + n := by
  unfold anchor
  split_ifs
  · rw [add_right_comm, Int.floor_add_int]
  · rw [Int.floor_add_int]

theorem nearInteger_add_int (coord : K) (n : ℤ) :
    nearInteger (coord + (n : K)) ↔ nearInteger coord := by
  rw [nearInteger_iff_round, nearInteger_iff_round, round_add_int]
  have : coord + (n : K) - ((round coord + n : ℤ) : K) = coord - (round coord : K) := by
    push_cast
    ring
  rw [this]

theorem rint_add_int_of_near {coord : K} (hn : nearInteger coord) (n : ℤ) :
    rint (coord + (n : K)) = rint coord + n := by
  rw [rint_eq_round_of_nearInteger hn,
    rint_eq_round_of_nearInteger ((nearInteger_add_int coord n).mpr hn), round_add_int]

theorem rint_mem_window {coord : K} (hn : nearInteger coord) {q dim : ℤ} (hq1 : 1 ≤ q)
    (hlo : 1 ≤ anchor coord q + spanLo q) (hhi : anchor coord q + spanHi q ≤ dim) :
    1 ≤ rint coord ∧ rint coord ≤ dim := by
  have hL := spanLo_of_pos hq1
  have hH := spanHi_of_pos hq1
  rcases Int.emod_two_eq_zero_or_one q with he | ho
  · obtain ⟨r1, r2⟩ := rint_near_floor coord
    have := anchor_even hq1 he coord
    constructor <;> omega
  · have ha : anchor coord q = rint coord := by
      rw [anchor_odd hq1 ho, rint_eq_round_of_nearInteger hn, round_eq]
    constructor <;> omega

/-- C18: shift equivariance of `make_lookup_poly`.  For every `coord`, every
integer `n`, every `q` in `1..255`, valid caches and all `dim`, `dim'` such that
the raw window of `coord` lies inside `[1, dim]` and the raw window of
`coord + n` lies inside `[1, dim']`, the call at `(coord + n, q, dim')` reports
`d1` larger by exactly `n`, the same end offset (so the same length) and the
same stored weights as the call at `(coord, q, dim)`. -/
theorem C18_shift_equivariance (s t : PolyCache K) (hs : s.Valid) (ht : t.Valid) (coord : K)
    (n q dim dim' : ℤ) (hq1 : 1 ≤ q) (_hq2 : q ≤ 255)
    (hlo : 1 ≤ anchor coord q + spanLo q) (hhi : anchor coord q + spanHi q ≤ dim)
    (hlo' : 1 ≤ anchor (coord + (n : K)) q + spanLo q)
    (hhi' : anchor (coord + (n : K)) q + spanHi q ≤ dim') :
    (make_lookup_poly t (coord + (n : K)) q dim').2.d1
      = (make_lookup_poly s coord q dim).2.d1 + n ∧
    (make_lookup_poly t (coord + (n : K)) q dim').2.tpend
      = (make_lookup_poly s coord q dim).2.tpend ∧
    (make_lookup_poly t (coord + (n : K)) q dim').2.table
      = (make_lookup_poly s coord q dim).2.table := by
  show (polyBody (t.refresh q) (coord + (n : K)) q dim').d1
      = (polyBody (s.refresh q) coord q dim).d1 + n ∧
    (polyBody (t.refresh q) (coord + (n : K)) q dim').tpend
      = (polyBody (s.refresh q) coord q dim).tpend ∧
    (polyBody (t.refresh q) (coord + (n : K)) q dim').table
      = (polyBody (s.refresh q) coord q dim).table
  by_cases hn : nearInteger coord
  · have hn' : nearInteger (coord + (n : K)) := (nearInteger_add_int coord n).mpr hn
    obtain ⟨r1, r2⟩ := rint_mem_window hn hq1 hlo hhi
    obtain ⟨r1', r2'⟩ := rint_mem_window hn' hq1 hlo' hhi'
    rw [polyBody_near _ hn, polyBody_near _ hn', if_neg (by omega), if_neg (by omega)]
    exact ⟨rint_add_int_of_near hn n, rfl, rfl⟩
  · have hn' : ¬ nearInteger (coord + (n : K)) := fun h => hn ((nearInteger_add_int coord n).mp h)
    obtain ⟨sk0, sk1, sden⟩ := polyCache_refresh_spec hs hq1
    obtain ⟨tk0, tk1, tden⟩ := polyCache_refresh_spec ht hq1
    obtain ⟨_, a2, a3, a4, a5⟩ := polyBody_far (s.refresh q) hn q dim
    obtain ⟨_, b2, b3, b4, b5⟩ := polyBody_far (t.refresh q) hn' q dim'
    have ha := anchor_add_int coord n q
    rw [sk0] at a2 a4
    rw [sk1] at a3 a4
    rw [tk0] at b2 b4
    rw [tk1] at b3 b4
    rw [max_eq_right hlo] at a2
    rw [min_eq_right hhi] at a3
    rw [max_eq_right hlo'] at b2
    rw [min_eq_right hhi'] at b3
    have hp : max 0 (1 - (anchor coord q + spanLo q)) = 0 := max_eq_left (by omega)
    have hp' : max 0 (1 - (anchor (coord + (n : K)) q + spanLo q)) = 0 :=
      max_eq_left (by omega)
    rw [hp] at a4
    rw [hp'] at b4
    have htp : (polyBody (t.refresh q) (coord + (n : K)) q dim').tpend
        = (polyBody (s.refresh q) coord q dim).tpend := by omega
    refine ⟨by omega, htp, ?_⟩
    rcases lt_or_le 0 (polyBody (s.refresh q) coord q dim).tpend with hpos | hle
    · rw [a4 hpos, b4 (by omega), htp]
      have hx : coord + (n : K) - ((anchor (coord + (n : K)) q : ℤ) : K)
          = coord - ((anchor coord q : ℤ) : K) := by
        rw [ha]
        push_cast
        ring
      rw [hx]
      apply List.map_congr_left
      intro j hj
      have hj' := List.mem_range.mp hj
      have hjt : (j : ℤ) ≤ (polyBody (s.refresh q) coord q dim).tpend := by
        have := Int.toNat_of_nonneg hpos.le
        omega
      rw [sden _ (by omega) (by omega), tden _ (by omega) (by omega)]
    · rw [a5 (by omega), b5 (by omega)]

theorem C18_shift_equivariance_witness :
    (1 : ℤ) ≤ 4 ∧ (4 : ℤ) ≤ 255 ∧
    1 ≤ anchor (7 / 2 : ℚ) 4 + spanLo 4 ∧ anchor (7 / 2 : ℚ) 4 + spanHi 4 ≤ 10 ∧
    1 ≤ anchor ((7 / 2 : ℚ) + ((3 : ℤ) : ℚ)) 4 + spanLo 4 ∧
    anchor ((7 / 2 : ℚ) + ((3 : ℤ) : ℚ)) 4 + spanHi 4 ≤ 8 ∧
    (make_lookup_poly (PolyCache.init : PolyCache ℚ) ((7 / 2 : ℚ) + ((3 : ℤ) : ℚ)) 4 8).2.d1
      = (make_lookup_poly (PolyCache.init : PolyCache ℚ) (7 / 2) 4 10).2.d1 + 3 ∧
    (make_lookup_poly (PolyCache.init : PolyCache ℚ) ((7 / 2 : ℚ) + ((3 : ℤ) : ℚ)) 4 8).2.table
      = (make_lookup_poly (PolyCache.init : PolyCache ℚ) (7 / 2) 4 10).2.table :=
  have h := C18_shift_equivariance (PolyCache.init : PolyCache ℚ) PolyCache.init
    polyCache_init_valid polyCache_init_valid (7 / 2) 3 4 10 8 (by decide) (by decide)
    (by decide!) (by decide!) (by decide!) (by decide!)
  ⟨by decide, by decide, by decide!, by decide!, by decide!, by decide!, h.1, h.2.2⟩

/-! ## C19: reads of the denominator cache -/

/-- Every weight stored by `make_lookup_poly` away from the short-circuit has
exactly one recorded read of `denom`, and every pair stored by
`make_lookup_poly_grad` has two. -/
theorem reads_match_stores (s : PolyCache K) (coord : K) (q dim : ℤ) :
    (¬ nearInteger coord →
      (polyReads s coord q dim).length = (make_lookup_poly s coord q dim).2.table.length) ∧
    (polyGradReads s coord q dim).length
      = 2 * (make_lookup_poly_grad s coord q dim).2.table.length := by
  constructor
  · intro hn
    show _ = (polyBody (s.refresh q) coord q dim).table.length
    unfold polyReads polyBody
    simp only [if_neg hn]
    split_ifs <;>
      simp only [List.length_cons, List.length_nil, polyLoopReads_length, polyLoop_length]
  · show _ = 2 * (polyGradBody (s.refresh q) coord q dim).table.length
    unfold polyGradReads polyGradBody
    simp only [List.length_map, polyGradStores_length]
    split_ifs <;>
      simp only [List.length_cons, List.length_nil, polyGradLoopReads_length] <;> omega

/-- C20: closed form of the cached denominators.  For every valid cache, every
`q` in `1..255` and every `k` in `k0..k1`, the value held at `denom[k − k0]` after
a call of `make_lookup_poly` or `make_lookup_poly_grad` with order `q` equals
`∏_{m ∈ [k0,k1], m ≠ k}(k − m)`, which equals
`(−1)^(k1 − k) · (k − k0)! · (k1 − k)!`, a non-zero integer. -/
theorem C20_denominator_closed_form (s : PolyCache K) (hs : s.Valid) (coord : K)
    (q dim k : ℤ) (hq1 : 1 ≤ q) (_hq2 : q ≤ 255) (hk0 : spanLo q ≤ k) (hk1 : k ≤ spanHi q) :
    (make_lookup_poly s coord q dim).1.denom (k - spanLo q)
      = ∏ m in (Finset.Icc (spanLo q) (spanHi q)).erase k, ((k : K) - (m : K)) ∧
    (make_lookup_poly_grad s coord q dim).1.denom (k - spanLo q)
      = ∏ m in (Finset.Icc (spanLo q) (spanHi q)).erase k, ((k : K) - (m : K)) ∧
    ∏ m in (Finset.Icc (spanLo q) (spanHi q)).erase k, ((k : K) - (m : K))
      = (((-1) ^ (spanHi q - k).toNat * ((k - spanLo q).toNat.factorial : ℤ)
          * ((spanHi q - k).toNat.factorial : ℤ) : ℤ) : K) ∧
    (-1) ^ (spanHi q - k).toNat * ((k - spanLo q).toNat.factorial : ℤ)
      * ((spanHi q - k).toNat.factorial : ℤ) ≠ 0 := by
  obtain ⟨_, _, hden⟩ := polyCache_refresh_spec hs hq1
  have hd : (s.refresh q).denom (k - spanLo q) = denomEntry (spanLo q) (spanHi q) k := by
    rw [hden (k - spanLo q) (by omega) (by omega)]
    congr 1
    ring
  refine ⟨?_, ?_, ?_, denomClosedForm_ne_zero (spanLo q) (spanHi q) k⟩
  · exact hd.trans (denomEntry_eq hk0 hk1)
  · exact hd.trans (denomEntry_eq hk0 hk1)
  · rw [← denomEntry_eq hk0 hk1, denomEntry_closed_form hk0 hk1]
    rfl

theorem C20_denominator_closed_form_witness :
    (1 : ℤ) ≤ 6 ∧ (6 : ℤ) ≤ 255 ∧ spanLo 6 ≤ 1 ∧ (1 : ℤ) ≤ spanHi 6 ∧
    (make_lookup_poly (PolyCache.init : PolyCache ℚ) (7 / 2) 6 10).1.denom (1 - spanLo 6)
      = ∏ m in (Finset.Icc (spanLo 6) (spanHi 6)).erase 1, (((1 : ℤ) : ℚ) - (m : ℚ)) ∧
    ∏ m in (Finset.Icc (spanLo 6) (spanHi 6)).erase 1, (((1 : ℤ) : ℚ) - (m : ℚ))
      = (((-1) ^ (spanHi 6 - 1).toNat * ((1 - spanLo 6).toNat.factorial : ℤ)
          * ((spanHi 6 - 1).toNat.factorial : ℤ) : ℤ) : ℚ) :=
  have h := C20_denominator_closed_form (PolyCache.init : PolyCache ℚ) polyCache_init_valid
    (7 / 2) 6 10 1 (by decide) (by decide) (by decide) (by decide)
  ⟨by decide, by decide, by decide, by decide, h.1, h.2.2.1⟩

end SpmLookup
